import Mathlib

set_option maxRecDepth 4000

namespace Liberty

/-!  A shallow embedding of the liberty-parser package (src/liberty/).

Python floats occur in this code base only as `float(token)` when parsing a
numeric literal and as `str(x)` when serializing it back; no arithmetic is ever
performed on them.  We therefore model them as exact decimal values
`m * 10 ^ e` kept in canonical form (mantissa not divisible by 10, and the
mantissa 0 always paired with exponent 0).  Python's `str`/`float` pair
round-trips every finite float, which the canonical-decimal model reflects
exactly; float overflow to `inf` on astronomically large literals is outside
the model.  -/

structure Dec where
  m : Int
  e : Int
deriving DecidableEq

/-- Strip the factors of ten from a natural number, returning the stripped
number and how many factors were removed.  `stripTens 0 = (0, 0)`. -/
def stripTens (n : Nat) : Nat × Nat :=
  if h : n ≠ 0 ∧ n % 10 = 0 then
    let p := stripTens (n / 10)
    (p.1, p.2 + 1)
  else (n, 0)
termination_by n
decreasing_by exact Nat.div_lt_self (Nat.pos_of_ne_zero h.1) (by norm_num)

/-- Canonical form of the decimal `m * 10 ^ e`. -/
def normDec (m e : Int) : Dec :=
  if m = 0 then ⟨0, 0⟩
  else
    let p := stripTens m.natAbs
    ⟨if m < 0 then -(p.1 : Int) else (p.1 : Int), e + (p.2 : Int)⟩

/-- A decimal is canonical when it is an output of `normDec`. -/
def Dec.canon (d : Dec) : Bool :=
  (d.m == 0 && d.e == 0) || (d.m != 0 && d.m % 10 != 0)

/-- Python `float(s)` saturates: a decimal whose magnitude rounds to at
least `2^1024` (i.e. `|x| >= 2^1024 - 2^970`, the round-to-nearest-even
threshold above `DBL_MAX`) becomes `inf`. -/
def floatOverflow (d : Dec) : Bool :=
  if 0 ≤ d.e then
    decide (2 ^ 1024 - 2 ^ 970 ≤ d.m.natAbs * 10 ^ d.e.toNat)
  else
    decide ((2 ^ 1024 - 2 ^ 970) * 10 ^ (-d.e).toNat ≤ d.m.natAbs)

/-- A Python float produced by `float(s)` on a numeric literal: either the
exact decimal value of the literal (the idealization used throughout for
in-range floats) or an overflow to `±inf`. -/
inductive PyNum where
  | fin (d : Dec)
  | pinf (neg : Bool)
deriving DecidableEq

/-- The `number` rule callback `float(s)` with saturation. -/
def pyNum (d : Dec) : PyNum :=
  if floatOverflow d then .pinf (d.m < 0) else .fin d

/-- The rational value of a decimal. -/
def Dec.q (d : Dec) : ℚ := (d.m : ℚ) * (10 : ℚ) ^ d.e

/-- Comparison of two decimals by value (Python float comparison). -/
def Dec.le (a b : Dec) : Bool := decide (a.q ≤ b.q)

/-! Decimal digits as characters. -/

def digitChar (d : Nat) : Char := Char.ofNat (48 + d)

def digitVal (c : Char) : Nat := c.toNat - 48

/-- Big-endian decimal digit characters of a natural number (`"%d" % n`). -/
def natDigits (n : Nat) : List Char :=
  if n = 0 then ['0'] else (Nat.digits 10 n).reverse.map digitChar

/-- Accumulate decimal digit characters into a natural number. -/
def readDigits (acc : Nat) (cs : List Char) : Nat :=
  cs.foldl (fun a c => a * 10 + digitVal c) acc

/-! ## The typed tree (src/liberty/types.py)

`Group` owns a list of sub-groups; to keep every recursion structural we
declare the group tree as a mutual inductive pair and convert to plain lists
at the query layer.  Attributes are a Python dict, modelled as an association
list in insertion order with unique keys. -/

/-- The value variants an attribute or argument can hold after parsing:
a parsed float (a finite `number`, or `pyInf` when `float()` overflowed),
a `WithUnit` (again with an overflow variant), an `EscapedString` (stores
the unescaped text), a bare identifier (a plain Python `str`), or the raw
lark `Tree(\x27numbers\x27, floats)` left by the callback-less `numbers`
rule (reached when a quote has no closing quote on its own line, so the
one-character quote terminal lexes instead of `ESCAPED_STRING`). -/
inductive Value where
  | number (x : Dec)
  | withUnit (x : Dec) (unit : String)
  | escapedString (s : String)
  | identifier (s : String)
  | pyInf (neg : Bool)
  | withUnitInf (neg : Bool) (unit : String)
  | numTree (ns : List PyNum)
deriving DecidableEq

/-- The value deposited for a `number` token: `float(s)` with saturation. -/
def numValue (d : Dec) : Value :=
  if floatOverflow d then .pyInf (d.m < 0) else .number d

/-- The value deposited for `number unit`: `WithUnit(float(s), unit)`. -/
def unitValue (d : Dec) (u : String) : Value :=
  if floatOverflow d then .withUnitInf (d.m < 0) u else .withUnit d u

/-- An attribute value is either a single scalar (simple attribute) or a
Python list of values (complex attribute). -/
inductive AttrValue where
  | scalar (v : Value)
  | complexList (vs : List Value)
deriving DecidableEq

structure Define where
  attribute_name : String
  group_name : String
  attribute_type : String
deriving DecidableEq

mutual
inductive Group where
  | mk (group_name : String) (args : List Value)
       (attributes : List (String × AttrValue))
       (groups : GroupList) (defines : List Define)

inductive GroupList where
  | nil
  | cons (g : Group) (gs : GroupList)
end

def Group.group_name : Group → String
  | ⟨n, _, _, _, _⟩ => n

def Group.args : Group → List Value
  | ⟨_, a, _, _, _⟩ => a

def Group.attributes : Group → List (String × AttrValue)
  | ⟨_, _, a, _, _⟩ => a

def Group.subs : Group → GroupList
  | ⟨_, _, _, g, _⟩ => g

def Group.defines : Group → List Define
  | ⟨_, _, _, _, d⟩ => d

def GroupList.toList : GroupList → List Group
  | .nil => []
  | .cons g gs => g :: gs.toList

def GroupList.ofList : List Group → GroupList
  | [] => .nil
  | g :: gs => .cons g (GroupList.ofList gs)

/-- The direct sub-groups of a group, as a Python list. -/
def Group.groups (g : Group) : List Group := g.subs.toList

/-- Python dict assignment `d[k] = v`: overwrite in place if the key exists
(keeping its position), otherwise append. -/
def updateAssoc (l : List (String × AttrValue)) (k : String) (v : AttrValue) :
    List (String × AttrValue) :=
  match l with
  | [] => [(k, v)]
  | (k', v') :: rest =>
      if k' = k then (k', v) :: rest else (k', v') :: updateAssoc rest k v

/-! ## The tree builder (LibertyTransformer.group, src/liberty/parser.py)

The transformer walks a group body (a list of parsed statements) and
partitions it: dict entries update the attribute dict, sub-groups and defines
append in source order. -/

inductive Stmt where
  | attr (k : String) (v : AttrValue)
  | sub (g : Group)
  | defn (d : Define)

def bodyStep (acc : List (String × AttrValue) × List Group × List Define)
    (s : Stmt) : List (String × AttrValue) × List Group × List Define :=
  match s with
  | .attr k v => (updateAssoc acc.1 k v, acc.2.1, acc.2.2)
  | .sub g => (acc.1, acc.2.1 ++ [g], acc.2.2)
  | .defn d => (acc.1, acc.2.1, acc.2.2 ++ [d])

def makeGroup (name : String) (args : List Value) (body : List Stmt) : Group :=
  let r := body.foldl bodyStep ([], [], [])
  ⟨name, args, r.1, GroupList.ofList r.2.1, r.2.2⟩

/-- Bool test that an attribute list has pairwise-distinct keys. -/
def keysNodupB : List (String × AttrValue) → Bool
  | [] => true
  | (k0, _) :: rest => !(rest.any fun q => q.1 == k0) && keysNodupB rest

mutual
/-- Every group of the tree has pairwise-distinct attribute keys. -/
def groupKeysOk : Group → Bool
  | ⟨_, _, attrs, subs, _⟩ => keysNodupB attrs && groupListKeysOk subs

def groupListKeysOk : GroupList → Bool
  | .nil => true
  | .cons g gs => groupKeysOk g && groupListKeysOk gs
end

def stmtOk : Stmt → Bool
  | .sub g => groupKeysOk g
  | _ => true

/-- The value of the last dict-style statement carrying key `k`, starting
from `cur`: the Python dict-overwrite semantics applied to the body
statements in source order. -/
def lastAttrFrom (k : String) :
    Option AttrValue → List Stmt → Option AttrValue
  | cur, [] => cur
  | cur, .attr k2 v :: rest =>
    lastAttrFrom k (if k2 = k then some v else cur) rest
  | cur, _ :: rest => lastAttrFrom k cur rest

def lastAttr (k : String) (body : List Stmt) : Option AttrValue :=
  lastAttrFrom k none body

/-! ## The query layer (src/liberty/types.py)

Python's `==` between a parsed argument value and a query string: plain
strings compare as strings, `EscapedString.__eq__` compares its inner value
with the other operand, floats and `WithUnit` objects never equal a string. -/

def pyEqValStr (v : Value) (s : String) : Bool :=
  match v with
  | .identifier t => t == s
  | .escapedString t => t == s
  | _ => false

/-- `Group.get_groups`: all direct sub-groups of type `type_name`, optionally
filtered by their first argument (`len(g.args) > 0 and g.args[0] == argument`). -/
def Group.get_groups (g : Group) (type_name : String)
    (argument : Option String) : List Group :=
  g.groups.filter fun h =>
    h.group_name == type_name &&
      match argument with
      | none => true
      | some a =>
        match h.args with
        | [] => false
        | v :: _ => pyEqValStr v a

/-- Keys of Python dictionaries appearing in the selection helpers: strings,
floats (finite `.n`, or infinite `.inf` after a `float` overflow),
`WithUnit` objects (which hash by identity; `.wInf` when their value is
infinite), and lark `Tree` objects (structural `__eq__`/`__hash__`). -/
inductive PyKey where
  | s (v : String)
  | n (v : Dec)
  | w (x : Dec) (unit : String)
  | inf (neg : Bool)
  | wInf (neg : Bool) (unit : String)
  | tree (ns : List PyNum)
deriving DecidableEq

/-- The failures the query/selection layer can raise.  `missingGroup` and
`ambiguousGroup` both model the `AssertionError` of `Group.get_group`
("There must be exactly one instance of group '{t}'. Found {n}."), split by
the reported count; `invalidSelection` models the `Exception`s of the
`select_*` helpers, carrying the message label and the sorted option list;
the remaining constructors model the builtin Python exceptions the same code
paths can raise. -/
inductive QErr where
  | missingGroup (type_name : String) (found : Nat)
  | ambiguousGroup (type_name : String) (found : Nat)
  | invalidSelection (label : String) (options : List PyKey)
  | indexErr
  | attrErr (msg : String)
  | typeErr (msg : String)
  | keyErr (k : String)
deriving DecidableEq

/-- `Group.get_group`: exactly one match or an assertion failure reporting the
type name and the match count. -/
def Group.get_group (g : Group) (type_name : String)
    (argument : Option String) : Except QErr Group :=
  match g.get_groups type_name argument with
  | [x] => .ok x
  | l =>
    if l.isEmpty then .error (.missingGroup type_name 0)
    else .error (.ambiguousGroup type_name l.length)

/-! ## The selection helpers (select_cell / select_pin / select_timing_table) -/

/-- A set element produced by `{g.args[0] for g in ...}`: strings and floats
are hashable, a `WithUnit` hashes by identity, an `EscapedString` defines
`__eq__` without `__hash__` and is therefore unhashable (`TypeError`). -/
def setElemOfValue : Value → Except QErr PyKey
  | .identifier s => .ok (.s s)
  | .number d => .ok (.n d)
  | .withUnit d u => .ok (.w d u)
  | .escapedString _ => .error (.typeErr "unhashable type: EscapedString")
  | .pyInf neg => .ok (.inf neg)
  | .withUnitInf neg u => .ok (.wInf neg u)
  | .numTree ns => .ok (.tree ns)

/-- Collect `{g.args[0] for g in gs}`: crashes with `IndexError` on a group
with no arguments, dedups equal elements (set semantics). -/
def firstArgSet : List Group → Except QErr (List PyKey)
  | [] => .ok []
  | g :: rest =>
    match g.args with
    | [] => .error .indexErr
    | v :: _ => do
      let k ← setElemOfValue v
      let ks ← firstArgSet rest
      .ok (if k ∈ ks then ks else k :: ks)

/-- Membership of a Python string in such a set (`cell_name in names`). -/
def keySetHasStr (ks : List PyKey) (s : String) : Bool :=
  ks.any fun k =>
    match k with
    | .s t => t == s
    | _ => false

def strLe (a b : String) : Bool := decide (a ≤ b)

def pyKeyIsStr : PyKey → Bool
  | .s _ => true
  | _ => false

def pyKeyIsNum : PyKey → Bool
  | .n _ => true
  | .inf _ => true
  | _ => false

def pyKeyStr : PyKey → Option String
  | .s v => some v
  | _ => none

def pyKeyNum : PyKey → Option Dec
  | .n v => some v
  | _ => none

def pyKeyPyNum : PyKey → Option PyNum
  | .n v => some (.fin v)
  | .inf b => some (.pinf b)
  | _ => none

def pyKeyOfPyNum : PyNum → PyKey
  | .fin d => .n d
  | .pinf b => .inf b

/-- Python `<=` on floats including the infinities. -/
def PyNum.le : PyNum → PyNum → Bool
  | .pinf true, _ => true
  | _, .pinf false => true
  | .pinf false, _ => false
  | _, .pinf true => false
  | .fin a, .fin b => Dec.le a b

/-- Python `sorted` over a list of dict keys: a 0/1-element list needs no
comparison; all-string and all-float lists sort by their natural order; any
other combination raises `TypeError` (`<` is undefined between mixed types
or `WithUnit`s). -/
def sortKeys (ks : List PyKey) : Except QErr (List PyKey) :=
  if ks.length ≤ 1 then .ok ks
  else if ks.all pyKeyIsStr then
    .ok (((ks.filterMap pyKeyStr).mergeSort strLe).map .s)
  else if ks.all pyKeyIsNum then
    .ok (((ks.filterMap pyKeyPyNum).mergeSort PyNum.le).map pyKeyOfPyNum)
  else .error (.typeErr "unorderable keys")

/-- `select_cell`: build the set of first arguments of `cell` sub-groups, then
either delegate to `get_group` or raise listing the sorted cell names. -/
def select_cell (library : Group) (cell_name : String) : Except QErr Group := do
  let names ← firstArgSet (library.get_groups "cell" none)
  if keySetHasStr names cell_name then
    library.get_group "cell" (some cell_name)
  else do
    let sorted ← sortKeys names
    .error (.invalidSelection "Cell name must be one of" sorted)

/-- `select_pin`: same shape over `pin` sub-groups. -/
def select_pin (cell : Group) (pin_name : String) : Except QErr Group := do
  let names ← firstArgSet (cell.get_groups "pin" none)
  if keySetHasStr names pin_name then
    cell.get_group "pin" (some pin_name)
  else do
    let sorted ← sortKeys names
    .error (.invalidSelection "Pin name must be one of" sorted)

/-- Attribute access `v.value` used on `g['related_pin']`: an
`EscapedString` yields its text, a `WithUnit` its number; plain strings,
floats and lists have no `value` attribute (`AttributeError`). -/
def dotValue : AttrValue → Except QErr PyKey
  | .scalar (.escapedString s) => .ok (.s s)
  | .scalar (.withUnit d _) => .ok (.n d)
  | .scalar (.withUnitInf neg _) => .ok (.inf neg)
  | .scalar (.number _) => .error (.attrErr "float object has no attribute value")
  | .scalar (.pyInf _) => .error (.attrErr "float object has no attribute value")
  | .scalar (.identifier _) => .error (.attrErr "str object has no attribute value")
  | .scalar (.numTree _) => .error (.attrErr "Tree object has no attribute value")
  | .complexList _ => .error (.attrErr "list object has no attribute value")

/-- Equality used by Python dict lookups between keys of the selection layer:
strings by text, floats by value; `WithUnit` objects hash by identity, and
each key inserted here is a freshly parsed object, so two of them never
collide. -/
def pyKeyEq (a b : PyKey) : Bool :=
  match a, b with
  | .s x, .s y => x == y
  | .n x, .n y => x == y
  | .inf x, .inf y => x == y
  | .tree x, .tree y => x == y
  | _, _ => false

/-- `dict.setdefault(k, []).append(g)`: append under an existing key, else
append a new entry. -/
def sdAppend (l : List (PyKey × List Group)) (k : PyKey) (g : Group) :
    List (PyKey × List Group) :=
  match l with
  | [] => [(k, [g])]
  | (k', gs) :: rest =>
    if pyKeyEq k' k then (k', gs ++ [g]) :: rest
    else (k', gs) :: sdAppend rest k g

def relPinStep (acc : List (PyKey × List Group)) (g : Group) :
    Except QErr (List (PyKey × List Group)) :=
  match g.attributes.lookup "related_pin" with
  | none => .ok acc
  | some v => do
    let k ← dotValue v
    .ok (sdAppend acc k g)

/-- Group the `timing` sub-groups carrying a `related_pin` attribute by that
attribute's `.value`, in iteration order. -/
def buildRelPin (gs : List Group) : Except QErr (List (PyKey × List Group)) :=
  gs.foldlM relPinStep []

/-- A dict key built from the raw attribute value `g['timing_type']`:
strings and floats are hashable, `WithUnit` by identity; `EscapedString`
and lists are unhashable (`TypeError`). -/
def keyOfAttrValue : AttrValue → Except QErr PyKey
  | .scalar (.identifier s) => .ok (.s s)
  | .scalar (.number d) => .ok (.n d)
  | .scalar (.withUnit d u) => .ok (.w d u)
  | .scalar (.escapedString _) => .error (.typeErr "unhashable type: EscapedString")
  | .scalar (.pyInf neg) => .ok (.inf neg)
  | .scalar (.withUnitInf neg u) => .ok (.wInf neg u)
  | .scalar (.numTree ns) => .ok (.tree ns)
  | .complexList _ => .error (.typeErr "unhashable type: list")

/-- Python dict insertion with last-wins overwrite. -/
def dictInsert (l : List (PyKey × Group)) (k : PyKey) (g : Group) :
    List (PyKey × Group) :=
  match l with
  | [] => [(k, g)]
  | (k', g') :: rest =>
    if pyKeyEq k' k then (k', g) :: rest
    else (k', g') :: dictInsert rest k g

def ttStep (acc : List (PyKey × Group)) (g : Group) :
    Except QErr (List (PyKey × Group)) :=
  match g.attributes.lookup "timing_type" with
  | none => .error (.keyErr "timing_type")
  | some v => do
    let k ← keyOfAttrValue v
    .ok (dictInsert acc k g)

/-- `{g['timing_type']: g for g in timing_groups}`: `KeyError` when a group
lacks the attribute, `TypeError` when its value is unhashable, later
duplicates overwrite earlier entries. -/
def buildTTDict (gs : List Group) : Except QErr (List (PyKey × Group)) :=
  gs.foldlM ttStep []

/-- Dedup of a string list keeping first occurrences
(`{g.group_name for g in groups}`). -/
def strSet : List String → List String
  | [] => []
  | s :: rest =>
    let r := strSet rest
    if s ∈ r then r else s :: r

def defaultGroup : Group := ⟨"", [], [], .nil, []⟩

/-- The final stage of `select_timing_table`: look up `table_name` among the
sub-groups of the selected timing group. -/
def tableStage (timing_group : Group) (table_name : String) : Except QErr Group :=
  let available := strSet (timing_group.groups.map Group.group_name)
  if table_name ∈ available then
    timing_group.get_group table_name none
  else
    .error (.invalidSelection "Table name must be one of"
      ((available.mergeSort strLe).map .s))

/-- The middle stage of `select_timing_table`: pick the timing group among
those matching the related pin.  A unique match with no requested
`timing_type` is taken directly; otherwise the groups are keyed by their
`timing_type` attribute and the requested one (or `None`) is looked up. -/
def ttStage (timing_groups : List Group) (timing_type : Option String)
    (table_name : String) : Except QErr Group := do
  let timing_group ←
    if timing_type.isNone && timing_groups.length == 1 then
      pure (timing_groups.headD defaultGroup)
    else do
      let dd ← buildTTDict timing_groups
      match dd.find? fun p =>
          (timing_type.map PyKey.s).any fun q => pyKeyEq p.1 q with
      | none => do
        let ks ← sortKeys (dd.map (·.1))
        Except.error (.invalidSelection "timing_type must be one of" ks)
      | some (_, g) => pure g
  tableStage timing_group table_name

/-- `select_timing_table` (src/liberty/types.py): group the timing arcs by
`related_pin`, select by `related_pin` and optionally `timing_type`, then
return the named table sub-group, raising an enumerating error at each
failing stage. -/
def select_timing_table (pin : Group) (related_pin : String)
    (table_name : String) (timing_type : Option String) : Except QErr Group := do
  let d ← buildRelPin (pin.get_groups "timing" none)
  match d.find? fun p => pyKeyEq p.1 (.s related_pin) with
  | none => do
    let ks ← sortKeys (d.map (·.1))
    .error (.invalidSelection "Related pin name must be one of" ks)
  | some (_, timing_groups) => ttStage timing_groups timing_type table_name

/-- The shape of a `related_pin` attribute the selection code can digest:
absent, or a quoted string. -/
def relPinOk (g : Group) : Bool :=
  match g.attributes.lookup "related_pin" with
  | none => true
  | some (.scalar (.escapedString _)) => true
  | some _ => false

/-- The shape of a `timing_type` attribute the dict comprehension can
digest: present and a bare identifier. -/
def ttOk (g : Group) : Bool :=
  match g.attributes.lookup "timing_type" with
  | some (.scalar (.identifier _)) => true
  | _ => false

/-! ## The serializer (Group.__str__ / Group._format, src/liberty/types.py)

`str(x)` on a canonical decimal: Python prints a sign, the digits, and a
decimal point (integral values get a trailing ".0").  For extreme magnitudes
Python switches to exponent display; both displays re-parse to the same
value and no claim observes the difference, so the model always prints the
plain decimal form. -/

def decRender (d : Dec) : List Char :=
  let sign : List Char := if d.m < 0 then ['-'] else []
  let ds := natDigits d.m.natAbs
  if 0 ≤ d.e then
    sign ++ ds ++ List.replicate d.e.toNat '0' ++ ['.', '0']
  else
    let k := (-d.e).toNat
    if k < ds.length then
      sign ++ ds.take (ds.length - k) ++ '.' :: ds.drop (ds.length - k)
    else
      sign ++ '0' :: '.' :: List.replicate (k - ds.length) '0' ++ ds

/-- `EscapedString.__str__`: `'"{}"'.format(self.value)` — the value is put
between quotes verbatim, internal quote characters are NOT re-escaped. -/
def escapedString_str (s : String) : String := "\"" ++ s ++ "\""

/-- What §4.4 of the spec describes instead: internal `"` escaped back to
`\"`.  Declared only to compare with the implemented `escapedString_str`. -/
def escQuotes : List Char → List Char
  | [] => []
  | c :: rest =>
    if c = '"' then '\\' :: '"' :: escQuotes rest else c :: escQuotes rest

def specEscapedString_str (s : String) : String :=
  String.mk ('"' :: escQuotes s.data ++ ['"'])

def joinComma : List (List Char) → List Char
  | [] => []
  | [x] => x
  | x :: y :: ys => x ++ ',' :: ' ' :: joinComma (y :: ys)

/-- `str(float(\x27inf\x27))` is `inf`, `str(float(\x27-inf\x27))` is `-inf`. -/
def pyInfStr (neg : Bool) : String := if neg then "-inf" else "inf"

/-- `repr` of a Python float inside a lark `Tree` print-out. -/
def pyNumRepr : PyNum → List Char
  | .fin d => decRender d
  | .pinf neg => (pyInfStr neg).data

/-- `str(Tree(\x27numbers\x27, floats))` = lark repr
`Tree(\x27numbers\x27, [f1, f2, ...])`. -/
def treeRepr (ns : List PyNum) : List Char :=
  "Tree(\x27numbers\x27, [".data ++ joinComma (ns.map pyNumRepr) ++ "])".data

/-- `str(v)` on an attribute or argument value (`format_value`). -/
def valueRender : Value → List Char
  | .number d => decRender d
  | .withUnit d u => decRender d ++ u.data
  | .escapedString s => (escapedString_str s).data
  | .identifier s => s.data
  | .pyInf neg => (pyInfStr neg).data
  | .withUnitInf neg u => (pyInfStr neg).data ++ u.data
  | .numTree ns => treeRepr ns

def isEscVal : Value → Bool
  | .escapedString _ => true
  | _ => false


/-- The line(s) a single attribute contributes (`attr_lines` in `_format`).
A list with at least one `EscapedString` becomes a parenthesized
continuation block, any other list a one-line complex attribute, a scalar a
`name: value;` line. -/
def multiLines (ind : List Char) : List (List Char) → List (List Char)
  | [] => []
  | [v] => [ind ++ v]
  | v :: rest => (ind ++ v ++ [',', ' ', '\\']) :: multiLines ind rest

def attrLines (ind : List Char) (kv : String × AttrValue) : List (List Char) :=
  match kv with
  | (k, .complexList vs) =>
    if vs.any isEscVal then
      (k.data ++ " (".data)
        :: multiLines ind (vs.map valueRender) ++ [");".data]
    else
      [k.data ++ ' ' :: '(' :: joinComma (vs.map valueRender) ++ [')', ';']]
  | (k, .scalar v) => [k.data ++ ':' :: ' ' :: valueRender v ++ [';']]

/-- Sort order of `sorted(self.attributes.items())`: keys are unique inside a
group, so the tuple comparison reduces to the key comparison. -/
def attrLe (a b : String × AttrValue) : Bool := strLe a.1 b.1

/-- `", ".join(self.args)` requires every argument to be a plain string;
any other element raises `TypeError`. -/
def argStrs : List Value → Option (List (List Char))
  | [] => some []
  | .identifier s :: rest => (argStrs rest).map (s.data :: ·)
  | _ => none

mutual
/-- `Group._format(indent="  ")`: the group header, the sorted attribute
lines and the recursively formatted sub-groups (each line shifted by one
indent level), and the closing brace.  `defines` are never emitted. -/
def formatGroup : Group → Option (List (List Char))
  | ⟨name, args, attrs, subs, _⟩ => do
    let argl ← argStrs args
    let subLines ← formatGroupList subs
    let attrL := (attrs.mergeSort attrLe).flatMap (attrLines "  ".data)
    some ((name.data ++ ' ' :: '(' :: joinComma argl ++ [')', ' ', '{'])
      :: (attrL ++ subLines).map ("  ".data ++ ·) ++ [['}']])

def formatGroupList : GroupList → Option (List (List Char))
  | .nil => some []
  | .cons g gs => do
    let l ← formatGroup g
    let ls ← formatGroupList gs
    some (l ++ ls)
end

/-- `"\n".join(lines)`. -/
def joinNL : List (List Char) → List Char
  | [] => []
  | [l] => l
  | l :: ls => l ++ '\n' :: joinNL ls

/-- `Group.__str__`: the formatted liberty text, or `none` when Python would
raise (a non-string group argument under `", ".join`). -/
def Group.toText (g : Group) : Option String :=
  (formatGroup g).map fun ls => String.mk (joinNL ls)

/-! ## The lexer (lark `lexer='standard'` over liberty_grammar)

Terminals: the literal punctuation `{ } ( ) , : ;` and `define`, plus
`CNAME`, `SIGNED_NUMBER`, `ESCAPED_STRING`; `WS`, `COMMENT` and `NEWLINE`
(which also swallows a backslash-newline continuation) are ignored.  The
standard lexer picks the longest match, literals beating patterns on ties,
so `define` lexes as the keyword exactly when the maximal identifier run is
the six characters `define`, and `ESCAPED_STRING` beats the anonymous
one-character quote terminal of the `numbers` rule whenever it matches at
all.  The `ESCAPED_STRING` regex `"(\\.|[^\\"])*?"` cannot cross a newline
(`.` with no DOTALL), so a quote with no closing quote on its own line is
lexed as the bare quote terminal (`Tok.quote`) and scanning continues with
the next character.  Token values are fused with the transformer's
per-token callbacks: a `CNAME` is kept as a string, an `ESCAPED_STRING` is
unescaped (`s[1:-1].replace('\\"', '"')`), and a `SIGNED_NUMBER` goes
through `float(s)`, modelled as the canonical decimal of the literal
(saturation to `inf` is applied where the decimal is consumed, by
`pyNum`/`numValue`/`unitValue`). -/

inductive Tok where
  | lbrace | rbrace | lpar | rpar | comma | colon | semi | kwDefine
  | cname (s : String)
  | num (d : Dec)
  | str (s : String)
  | quote
deriving DecidableEq

inductive LexErr where
  | unexpectedChar (c : Char)
  | unterminated
  | outOfFuel
deriving DecidableEq

def isWsChar (c : Char) : Bool :=
  c == ' ' || c == '\t' || c == '\n' || c == '\r' || c == '\x0b' || c == '\x0c'

def isIdentStart (c : Char) : Bool :=
  c == '_' || ('a' ≤ c && c ≤ 'z') || ('A' ≤ c && c ≤ 'Z')

def isDigitCh (c : Char) : Bool := '0' ≤ c && c ≤ '9'

def isIdentCh (c : Char) : Bool := isIdentStart c || isDigitCh c

def munchWhile (p : Char → Bool) : List Char → List Char × List Char
  | [] => ([], [])
  | c :: rest =>
    if p c then
      let r := munchWhile p rest
      (c :: r.1, r.2)
    else ([], c :: rest)

/-- Scan the inside of an `ESCAPED_STRING` after the opening quote: a
backslash escapes the next character, an unescaped quote closes the string,
a newline (the regex `.` never matches one) aborts the match.  Returns the
raw inner text and the rest after the closing quote. -/
def munchEString : List Char → Option (List Char × List Char)
  | [] => none
  | c :: rest =>
    if c = '"' then some ([], rest)
    else if c = '\n' then none
    else if c = '\\' then
      match rest with
      | [] => none
      | c2 :: rest2 =>
        if c2 = '\n' then none
        else (munchEString rest2).map fun p => (c :: c2 :: p.1, p.2)
    else (munchEString rest).map fun p => (c :: p.1, p.2)

/-- The transformer's `s.replace('\\"', '"')`: left-to-right,
non-overlapping. -/
def unescape : List Char → List Char
  | [] => []
  | '\\' :: '"' :: rest => '"' :: unescape rest
  | c :: rest => c :: unescape rest

/-- Skip a `/* ... */` comment body (input starts after `/*`); `none` when
the comment never closes. -/
def munchComment : List Char → Option (List Char)
  | [] => none
  | '*' :: '/' :: rest => some rest
  | _ :: rest => munchComment rest

/-- The parts of a matched `SIGNED_NUMBER` literal: optional leading sign,
integer-part digits, optional fraction digits (present iff a `.` was
matched), optional exponent sign-and-digits. -/
structure NumLit where
  sgn : Option Char
  ip : List Char
  fp : Option (List Char)
  ex : Option (Option Char × List Char)
deriving DecidableEq

/-- Split an optional leading `+`/`-` sign. -/
def signSplit : List Char → Option Char × List Char
  | [] => (none, [])
  | c :: rest =>
    if (c == '+') || (c == '-') then (some c, rest) else (none, c :: rest)

/-- Try to take an `[eE] [+-]? INT` exponent; backtrack (leaving the input
untouched) when no digit follows. -/
def expSplit : List Char → Option (Option Char × List Char) × List Char
  | [] => (none, [])
  | c :: cs6 =>
    if (c == 'e') || (c == 'E') then
      let p := signSplit cs6
      let q := munchWhile isDigitCh p.2
      if q.1.isEmpty then (none, c :: cs6) else (some (p.1, q.1), q.2)
    else (none, c :: cs6)

/-- Maximal munch of lark's `SIGNED_NUMBER` (`[+-]? (INT (. INT?)? | . INT)
([eE] [+-]? INT)?`): the exponent is taken only when at least one digit
follows, otherwise the match backtracks to the mantissa. -/
def munchNum (cs : List Char) : Option (NumLit × List Char) :=
  let sp := signSplit cs
  let ik := munchWhile isDigitCh sp.2
  let core : Option (List Char × Option (List Char) × List Char) :=
    match ik.2 with
    | c :: cs3 =>
      if c = '.' then
        let fk := munchWhile isDigitCh cs3
        if ik.1.isEmpty && fk.1.isEmpty then none
        else some (ik.1, some fk.1, fk.2)
      else if ik.1.isEmpty then none else some (ik.1, none, ik.2)
    | [] => if ik.1.isEmpty then none else some (ik.1, none, ik.2)
  match core with
  | none => none
  | some (ip, fp, cs5) =>
    let we := expSplit cs5
    some (⟨sp.1, ip, fp, we.1⟩, we.2)

/-- `float(token)` on the matched literal, as a canonical decimal.  The
saturation of `float` to `inf` for out-of-range literals is applied where
the decimal is consumed (`pyNum`, `numValue`, `unitValue`), keeping the
token itself exact. -/
def numVal (l : NumLit) : Dec :=
  let mant : Nat := readDigits 0 (l.ip ++ l.fp.getD [])
  let m : Int := if l.sgn = some '-' then -(mant : Int) else (mant : Int)
  let fracLen : Nat := (l.fp.getD []).length
  let ex : Int :=
    match l.ex with
    | none => 0
    | some (es, ds) =>
      if es = some '-' then -(readDigits 0 ds : Int) else (readDigits 0 ds : Int)
  normDec m (ex - (fracLen : Int))

def tokenizeF : Nat → List Char → Except LexErr (List Tok)
  | 0, _ => .error .outOfFuel
  | _ + 1, [] => .ok []
  | f + 1, c :: rest =>
    if isWsChar c then tokenizeF f rest
    else if c = '\\' then
      match rest with
      | '\n' :: r => tokenizeF f r
      | '\r' :: '\n' :: r => tokenizeF f r
      | _ => .error (.unexpectedChar '\\')
    else if c = '/' then
      match rest with
      | '*' :: r =>
        match munchComment r with
        | some r2 => tokenizeF f r2
        | none => .error (.unexpectedChar '/')
      | _ => .error (.unexpectedChar '/')
    else if c = '{' then (tokenizeF f rest).map (.lbrace :: ·)
    else if c = '}' then (tokenizeF f rest).map (.rbrace :: ·)
    else if c = '(' then (tokenizeF f rest).map (.lpar :: ·)
    else if c = ')' then (tokenizeF f rest).map (.rpar :: ·)
    else if c = ',' then (tokenizeF f rest).map (.comma :: ·)
    else if c = ':' then (tokenizeF f rest).map (.colon :: ·)
    else if c = ';' then (tokenizeF f rest).map (.semi :: ·)
    else if c = '"' then
      match munchEString rest with
      | some (inner, r2) =>
        (tokenizeF f r2).map (.str (String.mk (unescape inner)) :: ·)
      | none => (tokenizeF f rest).map (.quote :: ·)
    else if isIdentStart c then
      let p := munchWhile isIdentCh rest
      let w := String.mk (c :: p.1)
      (tokenizeF f p.2).map
        ((if w = "define" then Tok.kwDefine else Tok.cname w) :: ·)
    else if isDigitCh c || c = '+' || c = '-' || c = '.' then
      match munchNum (c :: rest) with
      | some (lit, r2) => (tokenizeF f r2).map (.num (numVal lit) :: ·)
      | none => .error (.unexpectedChar c)
    else .error (.unexpectedChar c)

/-! ## The token parser (lark LALR over liberty_grammar + LibertyTransformer)

Deterministic descent equivalent to the LALR automaton of the grammar: a
statement starts with a name; `:` introduces a simple attribute, `(` an
argument list that turns into a complex attribute (on `;`) or a group body
(on `{`); `define(a,b,c);` is keyword-introduced.  A number immediately
followed by a CNAME inside a value position is `number unit -> WithUnit`,
where the `number` callback `float(s)` may saturate to `inf`.  The
`numbers` rule ("\"" [number ("," number)*] "\"") is reached through the
bare quote token that the lexer emits when no closing quote exists on the
same line; it has no transformer callback, so the parse leaves the raw
`Tree(\x27numbers\x27, floats)` as the value (`Value.numTree`). -/

inductive PErr where
  | unexpectedTok
  | outOfFuel
  | lexFail (e : LexErr)
deriving DecidableEq

/-- The tail of a `numbers` body after its first number: `("," number)* "\""`. -/
def parseNumTail : List Tok → Except PErr (List PyNum × List Tok)
  | .quote :: r => .ok ([], r)
  | .comma :: .num d :: r =>
    (parseNumTail r).map fun p => (pyNum d :: p.1, p.2)
  | _ => .error .unexpectedTok

def parseValue : List Tok → Except PErr (Value × List Tok)
  | .cname s :: r => .ok (.identifier s, r)
  | .num d :: .cname u :: r => .ok (unitValue d u, r)
  | .num d :: r => .ok (numValue d, r)
  | .str s :: r => .ok (.escapedString s, r)
  | .quote :: .quote :: r => .ok (.numTree [], r)
  | .quote :: .num d :: r =>
    (parseNumTail r).map fun p => (.numTree (pyNum d :: p.1), p.2)
  | _ => .error .unexpectedTok

def parseValsLoop : Nat → List Tok → Except PErr (List Value × List Tok)
  | 0, _ => .error .outOfFuel
  | _ + 1, .rpar :: r => .ok ([], r)
  | f + 1, .comma :: r => do
    let (v, r2) ← parseValue r
    let (vs, r3) ← parseValsLoop f r2
    .ok (v :: vs, r3)
  | _ + 1, _ => .error .unexpectedTok

/-- `argument_list` after its opening parenthesis. -/
def parseArgList (f : Nat) (toks : List Tok) :
    Except PErr (List Value × List Tok) :=
  match toks with
  | .rpar :: r => .ok ([], r)
  | _ => do
    let (v, r2) ← parseValue toks
    let (vs, r3) ← parseValsLoop f r2
    .ok (v :: vs, r3)

mutual
/-- The statements of a `group_body`, up to and including the closing
brace. -/
def parseStmts : Nat → List Tok → Except PErr (List Stmt × List Tok)
  | 0, _ => .error .outOfFuel
  | _ + 1, .rbrace :: r => .ok ([], r)
  | f + 1, toks => do
    let (s, r2) ← parseStmt f toks
    let (ss, r3) ← parseStmts f r2
    .ok (s :: ss, r3)

def parseStmt : Nat → List Tok → Except PErr (Stmt × List Tok)
  | 0, _ => .error .outOfFuel
  | _ + 1, .kwDefine :: .lpar :: .cname a :: .comma :: .cname b :: .comma ::
      .cname c :: .rpar :: .semi :: r =>
    .ok (.defn ⟨a, b, c⟩, r)
  | _ + 1, .cname k :: .colon :: r => do
    let (v, r2) ← parseValue r
    match r2 with
    | .semi :: r3 => .ok (.attr k (.scalar v), r3)
    | _ => .error .unexpectedTok
  | f + 1, .cname k :: .lpar :: r => do
    let (vs, r2) ← parseArgList f r
    match r2 with
    | .semi :: r3 => .ok (.attr k (.complexList vs), r3)
    | .lbrace :: r3 => do
      let (ss, r4) ← parseStmts f r3
      .ok (.sub (makeGroup k vs ss), r4)
    | _ => .error .unexpectedTok
  | _ + 1, _ => .error .unexpectedTok
end

/-- The `start` rule: a single group. -/
def parseTop (f : Nat) (toks : List Tok) : Except PErr (Group × List Tok) :=
  match toks with
  | .cname n :: .lpar :: r => do
    let (vs, r2) ← parseArgList f r
    match r2 with
    | .lbrace :: r3 => do
      let (ss, r4) ← parseStmts f r3
      .ok (makeGroup n vs ss, r4)
    | _ => .error .unexpectedTok
  | _ => .error .unexpectedTok

/-- `parse_liberty`: lex, parse one group, require the input to be
exhausted. -/
def parse_liberty (s : String) : Except PErr Group := do
  let toks ← (tokenizeF (s.data.length + 1) s.data).mapError .lexFail
  let (g, rest) ← parseTop (8 * toks.length + 8) toks
  match rest with
  | [] => .ok g
  | _ => .error .unexpectedTok

/-! ## Structural equality modulo attribute ordering (§8 of the spec)

Attributes compare as sets of key-value pairs (keys are unique after
construction), sub-group order and argument order compare exactly. -/

mutual
def eqMod : Group → Group → Bool
  | ⟨n, a, at_, s, d⟩, ⟨n', a', at', s', d'⟩ =>
    n == n' && a == a' && at_.isPerm at' && eqModList s s' && d == d'

def eqModList : GroupList → GroupList → Bool
  | .nil, .nil => true
  | .cons g gs, .cons h hs => eqMod g h && eqModList gs hs
  | _, _ => false
end

/-! ## The boolean expression parser (src/liberty/boolean_functions.py)

Terminals: `CNAME`, the literal operators, and ignored `WS_INLINE` (spaces
and tabs only).  The grammar has no production for digits, so a `0` or `1`
in the input is an unexpected character.  The transformer folds operator
chains with `reduce`, i.e. left-nested binary nodes; sympy's `And`/`Or`
treat their arguments as sets, which is invisible on the claims checked
here, so the model keeps the built tree. -/

inductive BTok where
  | bname (s : String)
  | bAmp | bStar | bPlus | bPipe | bCaret | bBang | bQuote | bLpar | bRpar
deriving DecidableEq

inductive BExpr where
  | var (s : String)
  | bnot (e : BExpr)
  | band (a b : BExpr)
  | bor (a b : BExpr)
  | bxor (a b : BExpr)
deriving DecidableEq

def btokenizeF : Nat → List Char → Except LexErr (List BTok)
  | 0, _ => .error .outOfFuel
  | _ + 1, [] => .ok []
  | f + 1, c :: rest =>
    if c = ' ' || c = '\t' then btokenizeF f rest
    else if c = '&' then (btokenizeF f rest).map (.bAmp :: ·)
    else if c = '*' then (btokenizeF f rest).map (.bStar :: ·)
    else if c = '+' then (btokenizeF f rest).map (.bPlus :: ·)
    else if c = '|' then (btokenizeF f rest).map (.bPipe :: ·)
    else if c = '^' then (btokenizeF f rest).map (.bCaret :: ·)
    else if c = '!' then (btokenizeF f rest).map (.bBang :: ·)
    else if c = '\'' then (btokenizeF f rest).map (.bQuote :: ·)
    else if c = '(' then (btokenizeF f rest).map (.bLpar :: ·)
    else if c = ')' then (btokenizeF f rest).map (.bRpar :: ·)
    else if isIdentStart c then
      let p := munchWhile isIdentCh rest
      (btokenizeF f p.2).map (.bname (String.mk (c :: p.1)) :: ·)
    else .error (.unexpectedChar c)

mutual
def parseAtomB : Nat → List BTok → Except PErr (BExpr × List BTok)
  | 0, _ => .error .outOfFuel
  | f + 1, .bBang :: r => do
    let (e, r2) ← parseAtomB f r
    parseQuotes f (.bnot e) r2
  | f + 1, .bname s :: r => parseQuotes f (.var s) r
  | f + 1, .bLpar :: r => do
    let (e, r2) ← parseOrB f r
    match r2 with
    | .bRpar :: r3 => parseQuotes f e r3
    | _ => .error .unexpectedTok
  | _ + 1, _ => .error .unexpectedTok

/-- The postfix `atom "'"` inversions. -/
def parseQuotes : Nat → BExpr → List BTok → Except PErr (BExpr × List BTok)
  | 0, _, _ => .error .outOfFuel
  | f + 1, e, .bQuote :: r => parseQuotes f (.bnot e) r
  | _ + 1, e, r => .ok (e, r)

/-- `xor_expr "^" xor_expr` is ambiguous; LALR shift preference makes the
chain right-nested. -/
def parseXorB : Nat → List BTok → Except PErr (BExpr × List BTok)
  | 0, _ => .error .outOfFuel
  | f + 1, toks => do
    let (a, r) ← parseAtomB f toks
    match r with
    | .bCaret :: r2 => do
      let (b, r3) ← parseXorB f r2
      .ok (.bxor a b, r3)
    | _ => .ok (a, r)

/-- `and_expr: xor_expr ([ "&" | "*" ]? xor_expr)*`: the operator may be
omitted (juxtaposition); the LALR automaton shifts any token that starts an
atom, so the chain is consumed here, left-folded as `reduce(__and__)`. -/
def parseAndB : Nat → List BTok → Except PErr (BExpr × List BTok)
  | 0, _ => .error .outOfFuel
  | f + 1, toks => do
    let (a, r) ← parseXorB f toks
    parseAndLoop f a r

def parseAndLoop : Nat → BExpr → List BTok → Except PErr (BExpr × List BTok)
  | 0, _, _ => .error .outOfFuel
  | f + 1, acc, .bAmp :: r => do
    let (b, r2) ← parseXorB f r
    parseAndLoop f (.band acc b) r2
  | f + 1, acc, .bStar :: r => do
    let (b, r2) ← parseXorB f r
    parseAndLoop f (.band acc b) r2
  | f + 1, acc, .bname s :: r => do
    let (b, r2) ← parseXorB f (.bname s :: r)
    parseAndLoop f (.band acc b) r2
  | f + 1, acc, .bBang :: r => do
    let (b, r2) ← parseXorB f (.bBang :: r)
    parseAndLoop f (.band acc b) r2
  | f + 1, acc, .bLpar :: r => do
    let (b, r2) ← parseXorB f (.bLpar :: r)
    parseAndLoop f (.band acc b) r2
  | _ + 1, acc, r => .ok (acc, r)

/-- `or_expr: and_expr ([ "+" | "|" ] and_expr)*`: with shift preference the
optional-operator continuation never fires (an atom-starting token is taken
by the AND level first), so the loop continues only on `+` and `|`,
left-folded as `reduce(__or__)`. -/
def parseOrB : Nat → List BTok → Except PErr (BExpr × List BTok)
  | 0, _ => .error .outOfFuel
  | f + 1, toks => do
    let (a, r) ← parseAndB f toks
    parseOrLoop f a r

def parseOrLoop : Nat → BExpr → List BTok → Except PErr (BExpr × List BTok)
  | 0, _, _ => .error .outOfFuel
  | f + 1, acc, .bPlus :: r => do
    let (b, r2) ← parseAndB f r
    parseOrLoop f (.bor acc b) r2
  | f + 1, acc, .bPipe :: r => do
    let (b, r2) ← parseAndB f r
    parseOrLoop f (.bor acc b) r2
  | _ + 1, acc, r => .ok (acc, r)
end

/-- `parse_boolean_function`: lex, parse an `or_expr`, require the input to
be exhausted. -/
def parse_boolean_function (s : String) : Except PErr BExpr := do
  let toks ← (btokenizeF (s.data.length + 1) s.data).mapError .lexFail
  let (e, rest) ← parseOrB (8 * toks.length + 8) toks
  match rest with
  | [] => .ok e
  | _ => .error .unexpectedTok

/-! ## The array codec (src/liberty/arrays.py)

numpy doubles are modelled as exact rationals: the codec only formats with
`"{0:f}"` (fixed six decimal places, ties to even) and re-parses with
`np.fromstring(..., sep=',')`, and every claim about it concerns values, not
binary representations.  A 1-D input is promoted to one row. -/

inductive NpArr where
  | d1 (v : List ℚ)
  | d2 (m : List (List ℚ))

/-- Round to the nearest integer, ties to even (the rounding of `"{0:f}"`). -/
def roundHalfEven (q : ℚ) : Int :=
  if q - (⌊q⌋ : ℚ) < 1 / 2 then ⌊q⌋
  else if 1 / 2 < q - (⌊q⌋ : ℚ) then ⌊q⌋ + 1
  else if ⌊q⌋ % 2 = 0 then ⌊q⌋ else ⌊q⌋ + 1

/-- The value the fixed-six-decimal codec reproduces for an input `q`. -/
def decodeRound (q : ℚ) : ℚ := (roundHalfEven (q * 1000000) : ℚ) / 1000000

def padSix (n : Nat) : List Char :=
  let ds := natDigits n
  List.replicate (6 - ds.length) '0' ++ ds

/-- `"{0:f}".format(x)`: sign, integer part, six fraction digits.  (For a
negative value rounding to zero Python still prints the sign; the difference
is invisible to every claim, which only compare decoded values.) -/
def fmtFixed6 (q : ℚ) : List Char :=
  let n := roundHalfEven (q * 1000000)
  let sign : List Char := if n < 0 then ['-'] else []
  sign ++ natDigits (n.natAbs / 1000000) ++ '.' :: padSix (n.natAbs % 1000000)

/-- One encoded row: `", ".join("{0:f}".format(x) for x in row)`. -/
def rowChars (v : List ℚ) : List Char := joinComma (v.map fmtFixed6)

/-- `array_to_strings`. -/
def array_to_strings : NpArr → List (List Char)
  | .d1 v => [rowChars v]
  | .d2 m => m.map rowChars

/-- `s.replace("\\\n", "")`. -/
def stripBsNl : List Char → List Char
  | [] => []
  | '\\' :: '\n' :: rest => stripBsNl rest
  | c :: rest => c :: stripBsNl rest

/-- Parse one comma-separated piece as a decimal number (the number syntax
accepted by `np.fromstring` that the encoder can emit: optional spaces,
sign, digits, optional fraction). -/
def parsePiece (cs : List Char) : Option ℚ :=
  let cs1 := cs.dropWhile (· == ' ')
  let (sgn, cs2) :=
    match cs1 with
    | c :: rest => if c = '-' then (true, rest) else (false, cs1)
    | [] => (false, cs1)
  let (ip, cs3) := munchWhile isDigitCh cs2
  let (fp, cs4) :=
    match cs3 with
    | c :: r => if c = '.' then munchWhile isDigitCh r else ([], cs3)
    | [] => ([], cs3)
  if ip.isEmpty && fp.isEmpty then none
  else if !(cs4.dropWhile (· == ' ')).isEmpty then none
  else
    let mant : ℚ := (readDigits 0 (ip ++ fp) : ℚ) / (10 : ℚ) ^ fp.length
    some (if sgn then -mant else mant)

/-- Split on commas (the comma-separated scan of `np.fromstring`). -/
def splitComma : List Char → List (List Char)
  | [] => [[]]
  | c :: rest =>
    if c = ',' then [] :: splitComma rest
    else
      match splitComma rest with
      | [] => [[c]]
      | p :: ps => (c :: p) :: ps

/-- `strings_to_array`: strip continuations, split each row on commas, parse
every piece. -/
def strings_to_array (rows : List (List Char)) : Option (List (List ℚ)) :=
  rows.mapM fun r => (splitComma (stripBsNl r)).mapM parsePiece

/-- `Group.set_array`: store the encoded rows as a list of
`EscapedString`s under `key`. -/
def Group.set_array (g : Group) (key : String) (a : NpArr) : Group :=
  ⟨g.group_name, g.args,
    updateAssoc g.attributes key
      (.complexList ((array_to_strings a).map fun r => .escapedString (String.mk r))),
    g.subs, g.defines⟩

/-- The `.value` access of `get_array`: only an `EscapedString` entry has it. -/
def escData : Value → Option (List Char)
  | .escapedString s => some s.data
  | _ => none

/-- `Group.get_array`: read the attribute, take `.value` of each entry,
decode.  The Python failure modes (missing key, non-list value, an entry
without `.value`) collapse to `none`. -/
def Group.get_array (g : Group) (key : String) : Option (List (List ℚ)) :=
  match g.attributes.lookup key with
  | some (.complexList vs) => do
    let rows ← vs.mapM escData
    strings_to_array rows
  | _ => none

/-! ## Direct tree-level descriptions of what the selection helpers compute,
used to state their specifications against the plain tree rather than the
internal dict folds. -/

/-- Keep-first deduplication. -/
def dedupFirst : List String → List String
  | [] => []
  | s :: r => s :: (dedupFirst r).filter (· ≠ s)

/-- Does the group have a bare-identifier first argument? -/
def firstArgIdent (g : Group) : Bool :=
  match g.args with
  | .identifier _ :: _ => true
  | _ => false

def firstArgName (g : Group) : Option String :=
  match g.args with
  | .identifier s :: _ => some s
  | _ => none

/-- The cell names of a library: first arguments of its `cell` sub-groups. -/
def cellNames (lib : Group) : List String :=
  (lib.get_groups "cell" none).filterMap firstArgName

def pinNames (cell : Group) : List String :=
  (cell.get_groups "pin" none).filterMap firstArgName

/-- The `related_pin` value of a timing group, when it is a quoted string. -/
def relPinVal (g : Group) : Option String :=
  match g.attributes.lookup "related_pin" with
  | some (.scalar (.escapedString s)) => some s
  | _ => none

def relPins (pin : Group) : List String :=
  dedupFirst ((pin.get_groups "timing" none).filterMap relPinVal)

def relPinMatches (pin : Group) (r : String) : List Group :=
  (pin.get_groups "timing" none).filter fun g => relPinVal g == some r

/-- The `timing_type` value of a timing group, when it is a bare
identifier. -/
def ttVal (g : Group) : Option String :=
  match g.attributes.lookup "timing_type" with
  | some (.scalar (.identifier s)) => some s
  | _ => none

def ttVals (tgs : List Group) : List String := dedupFirst (tgs.filterMap ttVal)

/-- What the dict comprehension `{g['timing_type']: g for g in tgs}` builds:
keys in first-seen order, each mapped to the last group carrying it. -/
def ttDict (tgs : List Group) : List (PyKey × Group) :=
  (ttVals tgs).map fun s =>
    (.s s, (tgs.filter fun g => ttVal g == some s).getLastD defaultGroup)

/-- What `buildRelPin` builds: keys in first-seen order, each mapped to the
matching timing groups in source order. -/
def relPinDict (gs : List Group) : List (PyKey × List Group) :=
  (dedupFirst (gs.filterMap relPinVal)).map fun s =>
    (.s s, gs.filter fun g => relPinVal g == some s)

/-- Keep-last deduplication: the shape `firstArgSet` produces. -/
def dedupLast : List String → List String
  | [] => []
  | s :: r =>
    let d := dedupLast r
    if s ∈ d then d else s :: d

/-! Small concrete groups used to instantiate the theorems. -/

def subNoArgs : Group := ⟨"t", [], [], .nil, []⟩

def gWithEmptySub : Group := ⟨"g", [], [], .cons subNoArgs .nil, []⟩

def subT1 : Group := ⟨"t", [], [], .nil, []⟩

def gTwoSubs : Group := ⟨"g", [], [], .cons subT1 (.cons subT1 .nil), []⟩

def cellNoArgs : Group := ⟨"cell", [], [], .nil, []⟩

def libArglessCell : Group := ⟨"library", [.identifier "l"], [],
  .cons cellNoArgs .nil, []⟩

def cellX : Group := ⟨"cell", [.identifier "X"], [], .nil, []⟩

def libDupCells : Group := ⟨"library", [.identifier "l"], [],
  .cons cellX (.cons cellX .nil), []⟩

def cellA : Group := ⟨"cell", [.identifier "A"], [], .nil, []⟩

def cellB : Group := ⟨"cell", [.identifier "B"], [], .nil, []⟩

def libAB : Group := ⟨"library", [.identifier "l"], [],
  .cons cellB (.cons cellA .nil), []⟩

def timingBad : Group :=
  ⟨"timing", [], [("related_pin", .scalar (.identifier "A"))], .nil, []⟩

def pinBad : Group := ⟨"pin", [.identifier "Y"], [], .cons timingBad .nil, []⟩

def tblCellRise : Group := ⟨"cell_rise", [], [], .nil, []⟩

def timingA1 : Group :=
  ⟨"timing", [],
    [("related_pin", .scalar (.escapedString "A")),
     ("timing_type", .scalar (.identifier "combinational"))],
    .cons tblCellRise .nil, []⟩

def timingA2 : Group :=
  ⟨"timing", [],
    [("related_pin", .scalar (.escapedString "A")),
     ("timing_type", .scalar (.identifier "setup_rising"))],
    .nil, []⟩

def pinGood : Group :=
  ⟨"pin", [.identifier "Y"], [], .cons timingA1 (.cons timingA2 .nil), []⟩

/-! ## Serializability (the conditions under which `str` + reparse is
faithful), and a token/segment mirror of the serializer used to state and
prove the round-trip. -/

/-- A string that lexes back as one CNAME token. -/
def validCName (s : String) : Bool :=
  match s.data with
  | [] => false
  | c :: r => isIdentStart c && r.all isIdentCh

/-- A unit suffix that re-lexes as a separate CNAME after a number: a valid
identifier other than `define` that does not start like an exponent
(`e`/`E` followed by a digit would fuse into the number literal). -/
def unitOk (u : String) : Bool :=
  validCName u && u != "define" &&
    !(match u.data with
      | c :: c2 :: _ => (c == 'e' || c == 'E') && isDigitCh c2
      | _ => false)

/-- An `EscapedString` value whose rendering re-lexes to the same value: no
embedded quote (`__str__` does not re-escape), no newline (the lexer regex
cannot cross one), no trailing backslash (it would escape the closing
quote). -/
def esOk (s : String) : Bool :=
  !(s.data.any fun c => c == '"' || c == '\n') &&
    !(s.data.getLastD 'x' == '\\' && !s.data.isEmpty)

/-- The values whose rendering re-parses to the same value.  A finite
number must also be below the `float` overflow threshold: an overflowed
number renders as `inf`/`-inf`, which re-lexes as an identifier.  The
`pyInf`, `withUnitInf` and `numTree` values never round-trip (`inf`
re-lexes as a CNAME, a `Tree(...)` print-out is not even lexable), so they
are excluded outright. -/
def valueOk : Value → Bool
  | .identifier s => validCName s && s != "define"
  | .number d => d.canon && !(floatOverflow d)
  | .withUnit d u => d.canon && !(floatOverflow d) && unitOk u
  | .escapedString s => esOk s
  | _ => false

def attrOk : String × AttrValue → Bool
  | (k, .scalar v) => validCName k && k != "define" && valueOk v
  | (k, .complexList vs) => validCName k && k != "define" && vs.all valueOk

def argOk : Value → Bool
  | .identifier s => validCName s && s != "define"
  | _ => false

mutual
/-- The group trees whose serialization reparses faithfully: identifier
arguments, well-formed names and values, unique attribute keys, and no
defines (the serializer drops defines, see the counterexample). -/
def serializableB : Group → Bool
  | ⟨n, args, attrs, subs, defs⟩ =>
    validCName n && n != "define" && args.all argOk &&
      attrs.all attrOk && keysNodupB attrs && defs.isEmpty &&
      serializableBList subs

def serializableBList : GroupList → Bool
  | .nil => true
  | .cons g gs => serializableB g && serializableBList gs
end

/-- A lexical segment of the serialized text: one ignored character, a
backslash-newline continuation, or the characters of one token (a number
directly followed by its unit is one segment producing two tokens). -/
inductive Seg where
  | wsc (c : Char)
  | cont
  | punct (t : Tok) (c : Char)
  | name (s : String)
  | estr (s : String)
  | numb (d : Dec)
  | numUnit (d : Dec) (u : String)

def segChars : Seg → List Char
  | .wsc c => [c]
  | .cont => ['\\', '\n']
  | .punct _ c => [c]
  | .name s => s.data
  | .estr s => '"' :: s.data ++ ['"']
  | .numb d => decRender d
  | .numUnit d u => decRender d ++ u.data

def segToks : Seg → List Tok
  | .wsc _ => []
  | .cont => []
  | .punct t _ => [t]
  | .name s => [.cname s]
  | .estr s => [.str s]
  | .numb d => [.num d]
  | .numUnit d u => [.num d, .cname u]

def segsChars : List Seg → List Char
  | [] => []
  | s :: rest => segChars s ++ segsChars rest

def segsToks : List Seg → List Tok
  | [] => []
  | s :: rest => segToks s ++ segsToks rest

def punctOk : Tok → Char → Bool
  | .lbrace, c => c == '\x7b'
  | .rbrace, c => c == '\x7d'
  | .lpar, c => c == '('
  | .rpar, c => c == ')'
  | .comma, c => c == ','
  | .colon, c => c == ':'
  | .semi, c => c == ';'
  | _, _ => false

def segWF : Seg → Bool
  | .wsc c => isWsChar c
  | .cont => true
  | .punct t c => punctOk t c
  | .name s => validCName s && s != "define"
  | .estr s => esOk s
  | .numb d => d.canon
  | .numUnit d u => d.canon && unitOk u

/-- May this segment be followed by a character `oc` (the first character
after it)?  Identifier-ending segments must not be continued by an
identifier character, a number must not be continued by anything that the
maximal munch would swallow. -/
def segBoundary : Seg → Option Char → Bool
  | .name _, some c => !(isIdentCh c)
  | .numUnit _ _, some c => !(isIdentCh c) && !(c == '+') && !(c == '-')
  | .numb _, some c => !(isDigitCh c) && !(c == '.') && !(isIdentStart c)
  | _, _ => true

def segsWF : List Seg → Bool
  | [] => true
  | s :: rest => segWF s && segBoundary s (segsChars rest).head? && segsWF rest

/-- Segments whose boundary condition is vacuous. -/
def trivB : Seg → Bool
  | .wsc _ => true
  | .cont => true
  | .punct _ _ => true
  | .estr _ => true
  | _ => false

def endsTrivB : List Seg → Bool
  | [] => true
  | [s] => trivB s
  | _ :: rest => endsTrivB rest

/-! Token mirror of the serialized text. -/

def valueToks : Value → List Tok
  | .identifier s => [.cname s]
  | .number d => [.num d]
  | .withUnit d u => [.num d, .cname u]
  | .escapedString s => [.str s]
  | .pyInf neg => [.cname (pyInfStr neg)]
  | .withUnitInf neg u => [.cname (pyInfStr neg ++ u)]
  | .numTree ns => [.cname (String.mk (treeRepr ns))]

def valsToksTail : List Value → List Tok
  | [] => []
  | v :: rest => .comma :: (valueToks v ++ valsToksTail rest)

def valsToks : List Value → List Tok
  | [] => []
  | v :: rest => valueToks v ++ valsToksTail rest

def attrToks : String × AttrValue → List Tok
  | (k, .scalar v) => .cname k :: .colon :: valueToks v ++ [.semi]
  | (k, .complexList vs) => .cname k :: .lpar :: valsToks vs ++ [.rpar, .semi]

mutual
def groupToks : Group → List Tok
  | ⟨n, args, attrs, subs, _⟩ =>
    .cname n :: .lpar :: valsToks args ++ .rpar :: .lbrace ::
      ((attrs.mergeSort attrLe).flatMap attrToks ++ groupListToks subs)
      ++ [.rbrace]

def groupListToks : GroupList → List Tok
  | .nil => []
  | .cons g gs => groupToks g ++ groupListToks gs
end

/-! Segment mirror of the serialized text. -/

def valueSeg : Value → Seg
  | .identifier s => .name s
  | .number d => .numb d
  | .withUnit d u => .numUnit d u
  | .escapedString s => .estr s
  | .pyInf neg => .name (pyInfStr neg)
  | .withUnitInf neg u => .name (pyInfStr neg ++ u)
  | .numTree ns => .name (String.mk (treeRepr ns))

def valsSegs : List Value → List Seg
  | [] => []
  | [v] => [valueSeg v]
  | v :: rest => valueSeg v :: .punct .comma ',' :: .wsc ' ' :: valsSegs rest

def indentSegs (n : Nat) : List Seg := List.replicate n (.wsc ' ')

/-- `"\n".join` at the segment level. -/
def nlJoinSegs : List (List Seg) → List Seg
  | [] => []
  | [b] => b
  | b :: bs => b ++ .wsc '\n' :: nlJoinSegs bs

/-- The segments of the continuation lines of a multi-line complex
attribute: the backslash-newline continuation pair itself separates the
lines, the last line is followed by the plain newline before `);`. -/
def multiSegs (m : Nat) : List Value → List Seg
  | [] => []
  | [v] => indentSegs (m + 2) ++ [valueSeg v]
  | v :: rest =>
    indentSegs (m + 2) ++ [valueSeg v, .punct .comma ',', .wsc ' ', .cont]
      ++ multiSegs m rest

/-- One attribute as one segment block (its lines joined internally). -/
def attrSegs (m : Nat) : String × AttrValue → List Seg
  | (k, .scalar v) =>
    indentSegs m ++ .name k :: .punct .colon ':' :: .wsc ' ' :: valueSeg v
      :: [.punct .semi ';']
  | (k, .complexList vs) =>
    if vs.any isEscVal then
      indentSegs m ++ [.name k, .wsc ' ', .punct .lpar '(', .wsc '\n']
        ++ multiSegs m vs
        ++ .wsc '\n' :: indentSegs m ++ [.punct .rpar ')', .punct .semi ';']
    else
      indentSegs m ++ .name k :: .wsc ' ' :: .punct .lpar '(' :: valsSegs vs
        ++ [.punct .rpar ')', .punct .semi ';']

mutual
/-- The serialized lines of a group at absolute indent `n`, as one segment
block. -/
def emitGroupSegs (n : Nat) : Group → List Seg
  | ⟨gname, args, attrs, subs, _⟩ =>
    nlJoinSegs
      (((indentSegs n ++ .name gname :: .wsc ' ' :: .punct .lpar '(' ::
          valsSegs args ++ [.punct .rpar ')', .wsc ' ', .punct .lbrace '\x7b'])
        :: ((attrs.mergeSort attrLe).map (attrSegs (n + 2))
            ++ emitGroupListSegs (n + 2) subs))
        ++ [indentSegs n ++ [.punct .rbrace '\x7d']])

def emitGroupListSegs (n : Nat) : GroupList → List (List Seg)
  | .nil => []
  | .cons g gs => emitGroupSegs n g :: emitGroupListSegs n gs
end

/-! The reparse of the serialized text: attribute entries come back sorted
by key, defines are gone. -/

mutual
def sortedG : Group → Group
  | ⟨n, args, attrs, subs, _⟩ =>
    ⟨n, args, attrs.mergeSort attrLe, sortedGL subs, []⟩

def sortedGL : GroupList → GroupList
  | .nil => .nil
  | .cons g gs => .cons (sortedG g) (sortedGL gs)
end

def headDigit : List Char → Bool
  | [] => false
  | c :: _ => isDigitCh c

/-- Would an exponent attempt fail here (no digit after the optional
sign)? -/
def expFailsAt : List Char → Bool
  | [] => true
  | c2 :: rest2 =>
    if (c2 == '+') || (c2 == '-') then !(headDigit rest2)
    else !(isDigitCh c2)

/-- The characters after a number literal must not extend the maximal
munch: no digit, no dot, and no exponent (`e`/`E` with an optional sign
followed by a digit). -/
def numBoundaryL : List Char → Bool
  | [] => true
  | c :: rest =>
    !(isDigitCh c) && !(c == '.') &&
      (if (c == 'e') || (c == 'E') then expFailsAt rest else true)

/-- A character that can follow any token segment without extending its
maximal munch: not an identifier character, not a sign, not a dot. -/
def sepOk : Option Char → Bool
  | none => true
  | some c => !(isIdentCh c) && !(c == '+') && !(c == '-') && !(c == '.')

/-- Well-formedness of a segment list relative to the first character that
follows the whole list (`oc`): each segment may be followed by the first
character of the remaining text, falling back to `oc` at the end. -/
def segsWFB : List Seg → Option Char → Bool
  | [], _ => true
  | s :: rest, oc =>
    segWF s && segBoundary s (((segsChars rest).head?).or oc) &&
      segsWFB rest oc

/-- The next token is not a CNAME (so a preceding plain number cannot be
misread as a number-with-unit). -/
def headNotCname : List Tok → Bool
  | .cname _ :: _ => false
  | _ => true

/-- The statement list that the parser recovers from a serialized group
body: the sorted attributes, then the (recursively reparsed) sub-groups. -/
def emitSubStmts : GroupList → List Stmt
  | .nil => []
  | .cons g gs => .sub (sortedG g) :: emitSubStmts gs

/-- The reparsed sub-groups as a plain list. -/
def sortedSubs : GroupList → List Group
  | .nil => []
  | .cons g gs => sortedG g :: sortedSubs gs

/-! # Theorems -/

theorem exBindOk {ε α β : Type} (x : α) (f : α → Except ε β) :
    (Except.ok x >>= f) = f x := rfl


/-! Digit-level lemmas shared by the number codec proofs. -/

theorem digitVal_digitChar : ∀ d < 10, digitVal (digitChar d) = d := by decide

theorem isDigit_digitChar : ∀ d < 10, isDigitCh (digitChar d) = true := by decide

theorem readDigits_append (acc : Nat) (xs ys : List Char) :
    readDigits acc (xs ++ ys) = readDigits (readDigits acc xs) ys := by
  unfold readDigits
  rw [List.foldl_append]

theorem readDigits_acc (cs : List Char) : ∀ acc : Nat,
    readDigits acc cs = acc * 10 ^ cs.length + readDigits 0 cs := by
  induction cs with
  | nil => intro acc; simp [readDigits]
  | cons c r ih =>
    intro acc
    show readDigits (acc * 10 + digitVal c) r =
      acc * 10 ^ (r.length + 1) + readDigits (0 * 10 + digitVal c) r
    rw [ih (acc * 10 + digitVal c), ih (0 * 10 + digitVal c), pow_succ]
    ring

theorem readDigits_natDigits (n : Nat) : readDigits 0 (natDigits n) = n := by
  by_cases h0 : n = 0
  · subst h0; rfl
  · unfold natDigits
    rw [if_neg h0]
    have key : ∀ l : List Nat, (∀ d ∈ l, d < 10) →
        readDigits 0 (l.reverse.map digitChar) = Nat.ofDigits 10 l := by
      intro l
      induction l with
      | nil => intro _; rfl
      | cons d t ih =>
        intro hd
        rw [List.reverse_cons, List.map_append, readDigits_append,
          ih fun x hx => hd x (List.mem_cons_of_mem d hx)]
        show Nat.ofDigits 10 t * 10 + digitVal (digitChar d) = _
        rw [digitVal_digitChar d (hd d (List.mem_cons_self d t)),
          Nat.ofDigits_cons]
        ring
    rw [key _ fun d hd => Nat.digits_lt_base (by norm_num) hd]
    exact Nat.ofDigits_digits 10 n

theorem mem_natDigits_isDigit (n : Nat) :
    ∀ c ∈ natDigits n, isDigitCh c = true := by
  intro c hc
  unfold natDigits at hc
  by_cases h0 : n = 0
  · rw [if_pos h0, List.mem_singleton] at hc
    subst hc; rfl
  · rw [if_neg h0, List.mem_map] at hc
    obtain ⟨d, hd, rfl⟩ := hc
    exact isDigit_digitChar d
      (Nat.digits_lt_base (by norm_num) (List.mem_reverse.mp hd))

theorem natDigits_ne_nil (n : Nat) : natDigits n ≠ [] := by
  unfold natDigits
  by_cases h0 : n = 0
  · rw [if_pos h0]; exact List.cons_ne_nil _ _
  · rw [if_neg h0]
    intro hc
    rw [List.map_eq_nil, List.reverse_eq_nil_iff] at hc
    exact h0 (Nat.digits_eq_nil_iff_eq_zero.mp hc)

theorem natDigits_len_le6 (lo : Nat) (h : lo < 1000000) :
    (natDigits lo).length ≤ 6 := by
  unfold natDigits
  by_cases h0 : lo = 0
  · rw [if_pos h0]; simp
  · rw [if_neg h0, List.length_map, List.length_reverse,
      Nat.digits_len 10 lo (by norm_num) h0]
    have hlog : Nat.log 10 lo < 6 :=
      Nat.log_lt_of_lt_pow h0 (by norm_num; omega)
    omega

theorem readDigits_replicate_zero : ∀ k, readDigits 0 (List.replicate k '0') = 0 := by
  intro k
  induction k with
  | zero => rfl
  | succ k ih =>
    rw [List.replicate_succ]
    show readDigits (0 * 10 + digitVal '0') (List.replicate k '0') = 0
    exact ih

theorem padSix_spec (lo : Nat) (h : lo < 1000000) :
    readDigits 0 (padSix lo) = lo ∧ (padSix lo).length = 6 := by
  unfold padSix
  constructor
  · rw [readDigits_append, readDigits_replicate_zero, readDigits_natDigits]
  · rw [List.length_append, List.length_replicate]
    have := natDigits_len_le6 lo h
    omega

theorem mem_padSix_isDigit (lo : Nat) :
    ∀ c ∈ padSix lo, isDigitCh c = true := by
  intro c hc
  unfold padSix at hc
  rw [List.mem_append] at hc
  rcases hc with hc | hc
  · rw [List.eq_of_mem_replicate hc]; rfl
  · exact mem_natDigits_isDigit _ c hc

theorem munchWhile_exact (p : Char → Bool) (xs rest : List Char)
    (hxs : ∀ c ∈ xs, p c = true)
    (hr : ∀ c, rest.head? = some c → p c = false) :
    munchWhile p (xs ++ rest) = (xs, rest) := by
  induction xs with
  | nil =>
    cases rest with
    | nil => rfl
    | cons c r =>
      rw [List.nil_append, munchWhile, if_neg]
      rw [hr c rfl]
      exact Bool.false_ne_true
  | cons x t ih =>
    rw [List.cons_append]
    simp only [munchWhile, if_pos (hxs x (List.mem_cons_self x t)),
      ih fun c hc => hxs c (List.mem_cons_of_mem x hc)]

theorem roundHalfEven_abs (x : ℚ) : |x - (roundHalfEven x : ℚ)| ≤ 1 / 2 := by
  unfold roundHalfEven
  have h0 : (0 : ℚ) ≤ x - ⌊x⌋ := sub_nonneg.mpr (Int.floor_le x)
  have h1 : x - ⌊x⌋ < 1 := by
    have := Int.lt_floor_add_one x
    linarith
  by_cases hlt : x - (⌊x⌋ : ℚ) < 1 / 2
  · rw [if_pos hlt, abs_le]
    constructor <;> linarith
  · rw [if_neg hlt]
    by_cases hgt : (1 : ℚ) / 2 < x - ⌊x⌋
    · rw [if_pos hgt, abs_le]
      push_cast
      constructor <;> linarith
    · rw [if_neg hgt]
      have heq : x - (⌊x⌋ : ℚ) = 1 / 2 := by linarith
      by_cases hev : ⌊x⌋ % 2 = 0
      · rw [if_pos hev, abs_le]
        constructor <;> linarith
      · rw [if_neg hev, abs_le]
        push_cast
        constructor <;> linarith

theorem decodeRound_close (q : ℚ) : |q - decodeRound q| ≤ 1 / 1000000 := by
  unfold decodeRound
  have h := roundHalfEven_abs (q * 1000000)
  rw [show q - (roundHalfEven (q * 1000000) : ℚ) / 1000000 =
    (q * 1000000 - (roundHalfEven (q * 1000000) : ℚ)) / 1000000 by ring,
    abs_div, abs_of_pos (by norm_num : (0 : ℚ) < 1000000)]
  rw [div_le_div_iff (by norm_num) (by norm_num)]
  linarith

/-! Lemmas for the array codec. -/

theorem isDigit_ne_space {c : Char} (h : isDigitCh c = true) :
    (c == ' ') = false := by
  rcases hb : c == ' ' with - | -
  · rfl
  · rw [beq_iff_eq] at hb
    rw [hb] at h
    exact Bool.noConfusion h

theorem isDigit_ne_minus {c : Char} (h : isDigitCh c = true) : ¬ c = '-' := by
  intro he
  rw [he] at h
  exact Bool.noConfusion h

theorem parsePiece_core (ds fs : List Char)
    (hds : ∀ c ∈ ds, isDigitCh c = true) (hfs : ∀ c ∈ fs, isDigitCh c = true)
    (hne : ds ≠ []) :
    parsePiece (ds ++ '.' :: fs) =
      some ((readDigits 0 (ds ++ fs) : ℚ) / (10 : ℚ) ^ fs.length) := by
  rcases ds with - | ⟨d, ds'⟩
  · exact absurd rfl hne
  have hd := hds d (List.mem_cons_self d ds')
  have hm1 : munchWhile isDigitCh (d :: (ds' ++ '.' :: fs)) =
      (d :: ds', '.' :: fs) := by
    have hh := munchWhile_exact isDigitCh (d :: ds') ('.' :: fs) hds
      fun c hc => by
        have hc2 : ('.' : Char) = c := Option.some.inj hc
        rw [← hc2]
        rfl
    rwa [List.cons_append] at hh
  have hm2 : munchWhile isDigitCh fs = (fs, []) := by
    have hh := munchWhile_exact isDigitCh fs [] hfs fun c hc =>
      Option.noConfusion hc
    rwa [List.append_nil] at hh
  unfold parsePiece
  rw [List.cons_append, List.dropWhile_cons, isDigit_ne_space hd,
    if_neg Bool.false_ne_true]
  dsimp only
  rw [if_neg (isDigit_ne_minus hd)]
  dsimp only
  rw [hm1]
  dsimp only
  rw [if_pos rfl, hm2]
  dsimp only
  rfl

theorem parsePiece_neg (ds fs : List Char)
    (hds : ∀ c ∈ ds, isDigitCh c = true) (hfs : ∀ c ∈ fs, isDigitCh c = true)
    (hne : ds ≠ []) :
    parsePiece ('-' :: (ds ++ '.' :: fs)) =
      some (-((readDigits 0 (ds ++ fs) : ℚ) / (10 : ℚ) ^ fs.length)) := by
  rcases ds with - | ⟨d, ds'⟩
  · exact absurd rfl hne
  have hm1 : munchWhile isDigitCh (d :: (ds' ++ '.' :: fs)) =
      (d :: ds', '.' :: fs) := by
    have hh := munchWhile_exact isDigitCh (d :: ds') ('.' :: fs) hds
      fun c hc => by
        have hc2 : ('.' : Char) = c := Option.some.inj hc
        rw [← hc2]
        rfl
    rwa [List.cons_append] at hh
  have hm2 : munchWhile isDigitCh fs = (fs, []) := by
    have hh := munchWhile_exact isDigitCh fs [] hfs fun c hc =>
      Option.noConfusion hc
    rwa [List.append_nil] at hh
  unfold parsePiece
  rw [List.cons_append, List.dropWhile_cons,
    show (('-' : Char) == ' ') = false from rfl, if_neg Bool.false_ne_true]
  dsimp only
  rw [if_pos rfl]
  dsimp only
  rw [hm1]
  dsimp only
  rw [if_pos rfl, hm2]
  dsimp only
  rfl

theorem parsePiece_space (l : List Char) :
    parsePiece (' ' :: l) = parsePiece l := by
  have h : (' ' :: l).dropWhile (· == ' ') = l.dropWhile (· == ' ') := by
    rw [List.dropWhile_cons]
    simp
  unfold parsePiece
  rw [h]

/-- All characters `"{0:f}"` can emit. -/
theorem mem_fmtFixed6 (q : ℚ) :
    ∀ c ∈ fmtFixed6 q, c = '-' ∨ c = '.' ∨ isDigitCh c = true := by
  intro c hc
  unfold fmtFixed6 at hc
  rw [List.mem_append, List.mem_append] at hc
  rcases hc with (hc | hc) | hc
  · left
    by_cases hlt : roundHalfEven (q * 1000000) < 0
    · rw [if_pos hlt, List.mem_singleton] at hc
      exact hc
    · rw [if_neg hlt] at hc
      simp at hc
  · right; right
    exact mem_natDigits_isDigit _ c hc
  · rw [List.mem_cons] at hc
    rcases hc with hc | hc
    · right; left; exact hc
    · right; right
      exact mem_padSix_isDigit _ c hc

theorem parsePiece_fmt (q : ℚ) :
    parsePiece (fmtFixed6 q) = some (decodeRound q) := by
  unfold fmtFixed6
  dsimp only
  have hlo : (roundHalfEven (q * 1000000)).natAbs % 1000000 < 1000000 :=
    Nat.mod_lt _ (by norm_num)
  obtain ⟨hps, hpl⟩ := padSix_spec _ hlo
  have hval : (readDigits 0
      (natDigits ((roundHalfEven (q * 1000000)).natAbs / 1000000) ++
        padSix ((roundHalfEven (q * 1000000)).natAbs % 1000000)) : ℚ) =
      ((roundHalfEven (q * 1000000)).natAbs : ℚ) := by
    rw [readDigits_append, readDigits_natDigits, readDigits_acc, hps, hpl]
    rw [show (10 : Nat) ^ 6 = 1000000 by norm_num]
    rw [Nat.div_add_mod']
  by_cases hneg : roundHalfEven (q * 1000000) < 0
  · rw [if_pos hneg]
    rw [show (['-'] : List Char) ++
        natDigits ((roundHalfEven (q * 1000000)).natAbs / 1000000) ++
        '.' :: padSix ((roundHalfEven (q * 1000000)).natAbs % 1000000) =
      '-' :: (natDigits ((roundHalfEven (q * 1000000)).natAbs / 1000000) ++
        '.' :: padSix ((roundHalfEven (q * 1000000)).natAbs % 1000000)) from rfl]
    rw [parsePiece_neg _ _ (mem_natDigits_isDigit _) (mem_padSix_isDigit _)
      (natDigits_ne_nil _), hval, hpl]
    unfold decodeRound
    rw [Int.cast_natAbs, abs_of_neg (by exact_mod_cast hneg)]
    push_cast
    rw [Option.some.injEq]
    rw [neg_div, neg_neg]
    norm_num
  · rw [if_neg hneg]
    rw [List.nil_append]
    rw [parsePiece_core _ _ (mem_natDigits_isDigit _) (mem_padSix_isDigit _)
      (natDigits_ne_nil _), hval, hpl]
    unfold decodeRound
    rw [Int.cast_natAbs, abs_of_nonneg (by exact_mod_cast (not_lt.mp hneg))]
    rw [Option.some.injEq]
    norm_num

theorem fmtFixed6_no_comma (q : ℚ) : ∀ c ∈ fmtFixed6 q, ¬ c = ',' := by
  intro c hc he
  rcases mem_fmtFixed6 q c hc with h | h | h
  · rw [he] at h
    exact absurd h (by decide)
  · rw [he] at h
    exact absurd h (by decide)
  · rw [he] at h
    exact Bool.noConfusion h

theorem fmtFixed6_no_bs (q : ℚ) : ∀ c ∈ fmtFixed6 q, ¬ c = '\\' := by
  intro c hc he
  rcases mem_fmtFixed6 q c hc with h | h | h
  · rw [he] at h
    exact absurd h (by decide)
  · rw [he] at h
    exact absurd h (by decide)
  · rw [he] at h
    exact Bool.noConfusion h

theorem joinComma_mem (ls : List (List Char)) :
    ∀ c ∈ joinComma ls, c = ',' ∨ c = ' ' ∨ ∃ l ∈ ls, c ∈ l := by
  induction ls with
  | nil => intro c hc; exact absurd hc (List.not_mem_nil c)
  | cons x t ih =>
    cases t with
    | nil =>
      intro c hc
      exact Or.inr (Or.inr ⟨x, List.mem_cons_self x [], hc⟩)
    | cons y ys =>
      intro c hc
      rw [show joinComma (x :: y :: ys) =
        x ++ ',' :: ' ' :: joinComma (y :: ys) from rfl] at hc
      rw [List.mem_append, List.mem_cons, List.mem_cons] at hc
      rcases hc with hc | hc | hc | hc
      · exact Or.inr (Or.inr ⟨x, List.mem_cons_self x _, hc⟩)
      · exact Or.inl hc
      · exact Or.inr (Or.inl hc)
      · rcases ih c hc with h | h | ⟨l, hl, hcl⟩
        · exact Or.inl h
        · exact Or.inr (Or.inl h)
        · exact Or.inr (Or.inr ⟨l, List.mem_cons_of_mem x hl, hcl⟩)

theorem rowChars_no_bs (v : List ℚ) : ∀ c ∈ rowChars v, ¬ c = '\\' := by
  intro c hc he
  rcases joinComma_mem _ c hc with h | h | ⟨l, hl, hcl⟩
  · rw [he] at h
    exact absurd h (by decide)
  · rw [he] at h
    exact absurd h (by decide)
  · rcases List.mem_map.mp hl with ⟨q, _, rfl⟩
    exact fmtFixed6_no_bs q c hcl he

theorem stripBsNl_id (l : List Char) (h : ∀ c ∈ l, ¬ c = '\\') :
    stripBsNl l = l := by
  induction l with
  | nil => rfl
  | cons c rest ih =>
    have hc := h c (List.mem_cons_self c rest)
    have hr := ih fun d hd => h d (List.mem_cons_of_mem c hd)
    rw [stripBsNl.eq_def]
    split
    · rename_i heq
      exact List.noConfusion heq
    · rename_i r2 heq
      exact absurd (List.cons.inj heq).1 hc
    · rename_i c2 r2 hno heq
      obtain ⟨h1, h2⟩ := List.cons.inj heq
      rw [← h1, ← h2, hr]

theorem splitComma_cons (c : Char) (l : List Char) :
    splitComma (c :: l) =
      if c = ',' then [] :: splitComma l
      else
        match splitComma l with
        | [] => [[c]]
        | p :: ps => (c :: p) :: ps := rfl

theorem splitComma_no_comma (a : List Char) (ha : ∀ c ∈ a, ¬ c = ',') :
    splitComma a = [a] := by
  induction a with
  | nil => rfl
  | cons c a2 ih =>
    have hc := ha c (List.mem_cons_self c a2)
    have h2 := ih fun d hd => ha d (List.mem_cons_of_mem c hd)
    rw [splitComma_cons, if_neg hc, h2]

theorem splitComma_append_comma (a b : List Char) (ha : ∀ c ∈ a, ¬ c = ',') :
    splitComma (a ++ ',' :: b) = a :: splitComma b := by
  induction a with
  | nil =>
    rw [List.nil_append, splitComma_cons, if_pos rfl]
  | cons c a2 ih =>
    have hc := ha c (List.mem_cons_self c a2)
    have h2 := ih fun d hd => ha d (List.mem_cons_of_mem c hd)
    rw [List.cons_append, splitComma_cons, if_neg hc, h2]

theorem splitComma_cons_ne (c : Char) (l p : List Char) (ps : List (List Char))
    (hc : ¬ c = ',') (h : splitComma l = p :: ps) :
    splitComma (c :: l) = (c :: p) :: ps := by
  rw [splitComma_cons, if_neg hc, h]

theorem splitComma_rowChars (xs : List ℚ) :
    ∀ x, splitComma (rowChars (x :: xs)) =
      fmtFixed6 x :: xs.map (fun y => ' ' :: fmtFixed6 y) := by
  induction xs with
  | nil =>
    intro x
    exact splitComma_no_comma _ (fmtFixed6_no_comma x)
  | cons y ys ih =>
    intro x
    rw [show rowChars (x :: y :: ys) =
      fmtFixed6 x ++ ',' :: ' ' :: rowChars (y :: ys) from rfl]
    rw [splitComma_append_comma _ _ (fmtFixed6_no_comma x)]
    rw [splitComma_cons_ne ' ' _ _ _ (by decide) (ih y)]
    rw [List.map_cons]

theorem mapM_space_fmt (xs : List ℚ) :
    (xs.map (fun y => ' ' :: fmtFixed6 y)).mapM parsePiece =
      some (xs.map decodeRound) := by
  induction xs with
  | nil => rfl
  | cons y ys ih =>
    rw [List.map_cons, List.mapM_cons, parsePiece_space, parsePiece_fmt, ih,
      List.map_cons]
    rfl

theorem row_decode (x : ℚ) (xs : List ℚ) :
    (splitComma (stripBsNl (rowChars (x :: xs)))).mapM parsePiece =
      some ((x :: xs).map decodeRound) := by
  rw [stripBsNl_id _ (rowChars_no_bs _), splitComma_rowChars xs x,
    List.mapM_cons, parsePiece_fmt, mapM_space_fmt, List.map_cons]
  rfl

theorem mapM_rows (m : List (List ℚ)) (h : ∀ r ∈ m, r ≠ []) :
    (m.map rowChars).mapM
        (fun r => (splitComma (stripBsNl r)).mapM parsePiece) =
      some (m.map (List.map decodeRound)) := by
  induction m with
  | nil => rfl
  | cons r m2 ih =>
    have hr := h r (List.mem_cons_self r m2)
    have ih2 := ih fun s hs => h s (List.mem_cons_of_mem r hs)
    rcases r with - | ⟨x, xs⟩
    · exact absurd rfl hr
    · rw [List.map_cons, List.mapM_cons]
      rw [row_decode x xs, ih2, List.map_cons]
      rfl

theorem strings_to_array_d2 (m : List (List ℚ)) (h : ∀ r ∈ m, r ≠ []) :
    strings_to_array (array_to_strings (.d2 m)) =
      some (m.map (List.map decodeRound)) :=
  mapM_rows m h

theorem strings_to_array_d1 (x : ℚ) (xs : List ℚ) :
    strings_to_array (array_to_strings (.d1 (x :: xs))) =
      some [(x :: xs).map decodeRound] := by
  show ([rowChars (x :: xs)]).mapM
      (fun r => (splitComma (stripBsNl r)).mapM parsePiece) = _
  rw [List.mapM_cons]
  rw [row_decode x xs]
  rfl

theorem forall2_map_decode (m : List (List ℚ)) :
    List.Forall₂ (List.Forall₂ (fun a b => |a - b| ≤ 1 / 1000000)) m
      (m.map (List.map decodeRound)) := by
  induction m with
  | nil => exact .nil
  | cons r t ih =>
    refine List.Forall₂.cons ?hrow ih
    induction r with
    | nil => exact .nil
    | cons q qs ihq => exact .cons (decodeRound_close q) ihq

theorem lookup_updateAssoc (l : List (String × AttrValue)) (k : String)
    (v : AttrValue) : (updateAssoc l k v).lookup k = some v := by
  induction l with
  | nil => simp [updateAssoc, List.lookup]
  | cons p rest ih =>
    rcases p with ⟨k2, v2⟩
    unfold updateAssoc
    by_cases hk : k2 = k
    · rw [if_pos hk]
      simp [List.lookup, hk]
    · rw [if_neg hk]
      have hbe : (k == k2) = false :=
        beq_eq_false_iff_ne.mpr fun he => hk he.symm
      simp [List.lookup, hbe, ih]

theorem mapM_escData (l : List (List Char)) :
    ((l.map fun r => Value.escapedString (String.mk r)).mapM escData) =
      some l := by
  induction l with
  | nil => rfl
  | cons r t ih =>
    rw [List.map_cons, List.mapM_cons]
    have hh : escData ((fun r => Value.escapedString (String.mk r)) r) =
        some r := rfl
    rw [hh, ih]
    rfl

theorem roundHalfEven_intCast (n : ℤ) : roundHalfEven (n : ℚ) = n := by
  unfold roundHalfEven
  rw [Int.floor_intCast]
  rw [if_pos (by norm_num)]

theorem decodeRound_intCast (n : ℤ) : decodeRound (n : ℚ) = n := by
  unfold decodeRound
  rw [show ((n : ℚ) * 1000000) = ((n * 1000000 : ℤ) : ℚ) by push_cast; ring]
  rw [roundHalfEven_intCast]
  push_cast
  rw [mul_div_assoc]
  norm_num

theorem get_array_set_array (g : Group) (key : String) (m : List (List ℚ))
    (h : ∀ r ∈ m, r ≠ []) :
    (g.set_array key (.d2 m)).get_array key =
      some (m.map (List.map decodeRound)) := by
  have hlk : (g.set_array key (NpArr.d2 m)).attributes.lookup key =
      some (.complexList ((array_to_strings (.d2 m)).map
        fun r => .escapedString (String.mk r))) := by
    show (updateAssoc g.attributes key _).lookup key = _
    rw [lookup_updateAssoc]
  unfold Group.get_array
  rw [hlk]
  dsimp only
  rw [mapM_escData]
  show strings_to_array (array_to_strings (NpArr.d2 m)) = _
  exact strings_to_array_d2 m h

theorem decodeRound_natCast (n : ℕ) : decodeRound ((n : ℚ)) = (n : ℚ) := by
  have h := decodeRound_intCast (n : ℤ)
  push_cast at h
  exact h

/-- C5: for a matrix with at least one row and one column the array codec
round-trips within 1e-6 per element; a 1-D vector of length N decodes back
as one row of length N (shape (1, N)); and the concrete 2x3 matrix
[[1,2,3],[4,5,6]] stored with set_array reads back identically with
get_array. -/
theorem C5_array_codec :
    (∀ m : List (List ℚ), m ≠ [] → (∀ r ∈ m, r ≠ []) →
      ∃ m2, strings_to_array (array_to_strings (.d2 m)) = some m2 ∧
        List.Forall₂ (List.Forall₂ (fun a b => |a - b| ≤ 1 / 1000000)) m m2) ∧
    (∀ v : List ℚ, v ≠ [] →
      ∃ r2, strings_to_array (array_to_strings (.d1 v)) = some [r2] ∧
        r2.length = v.length) ∧
    (∀ (g : Group) (key : String),
      (g.set_array key (.d2 [[1, 2, 3], [4, 5, 6]])).get_array key =
        some [[1, 2, 3], [4, 5, 6]]) := by
  refine ⟨?hmat, ?hvec, ?hconc⟩
  · intro m _ hr
    exact ⟨m.map (List.map decodeRound), strings_to_array_d2 m hr,
      forall2_map_decode m⟩
  · intro v hv
    rcases v with - | ⟨x, xs⟩
    · exact absurd rfl hv
    · refine ⟨(x :: xs).map decodeRound, strings_to_array_d1 x xs, ?hlen⟩
      rw [List.length_map]
  · intro g key
    rw [get_array_set_array g key _ (by
      intro r hr
      rcases List.mem_cons.mp hr with h | h
      · rw [h]; exact fun hc => List.noConfusion hc
      · rcases List.mem_cons.mp h with h2 | h2
        · rw [h2]; exact fun hc => List.noConfusion hc
        · exact absurd h2 (List.not_mem_nil r))]
    have e1 := decodeRound_natCast 1
    have e2 := decodeRound_natCast 2
    have e3 := decodeRound_natCast 3
    have e4 := decodeRound_natCast 4
    have e5 := decodeRound_natCast 5
    have e6 := decodeRound_natCast 6
    push_cast at e1 e2 e3 e4 e5 e6
    simp [List.map_cons, List.map_nil, e1, e2, e3, e4, e5, e6]

theorem C5_witness :
    (∃ m2, strings_to_array (array_to_strings (.d2 [[(1 : ℚ)], [2]])) =
        some m2 ∧
      List.Forall₂ (List.Forall₂ (fun a b => |a - b| ≤ 1 / 1000000))
        [[(1 : ℚ)], [2]] m2) ∧
    (∃ r2, strings_to_array (array_to_strings (.d1 [(3 : ℚ), 4])) =
        some [r2] ∧ r2.length = [(3 : ℚ), 4].length) ∧
    ((⟨"lib", [], [], .nil, []⟩ : Group).set_array "tbl"
        (.d2 [[1, 2, 3], [4, 5, 6]])).get_array "tbl" =
      some [[1, 2, 3], [4, 5, 6]] := by
  refine ⟨C5_array_codec.1 _ (by simp) ?hrows,
    C5_array_codec.2.1 _ (by simp), C5_array_codec.2.2 _ _⟩
  intro r hr
  rcases List.mem_cons.mp hr with h | h
  · rw [h]; exact fun hc => List.noConfusion hc
  · rcases List.mem_cons.mp h with h2 | h2
    · rw [h2]; exact fun hc => List.noConfusion hc
    · exact absurd h2 (List.not_mem_nil r)

theorem lookup_updateAssoc_general (k2 : String) (v : AttrValue)
    (k : String) : ∀ l : List (String × AttrValue),
      (updateAssoc l k2 v).lookup k = if k2 = k then some v else l.lookup k := by
  intro l
  induction l with
  | nil =>
    by_cases hk : k2 = k
    · rw [if_pos hk]
      simp [updateAssoc, List.lookup, hk]
    · rw [if_neg hk]
      have hbe : (k == k2) = false :=
        beq_eq_false_iff_ne.mpr fun he => hk he.symm
      simp [updateAssoc, List.lookup, hbe]
  | cons p rest ih =>
    rcases p with ⟨k3, v3⟩
    unfold updateAssoc
    by_cases h32 : k3 = k2
    · rw [if_pos h32]
      by_cases hk : k2 = k
      · rw [if_pos hk]
        have hbe : (k == k3) = true :=
          beq_iff_eq.mpr (h32.trans hk).symm
        simp [List.lookup, hbe]
      · rw [if_neg hk]
        have hbe : (k == k3) = false :=
          beq_eq_false_iff_ne.mpr fun he => hk (h32.symm.trans he.symm)
        simp [List.lookup, hbe]
    · rw [if_neg h32]
      by_cases hk3 : k = k3
      · have hbe : (k == k3) = true := beq_iff_eq.mpr hk3
        have hk2 : ¬ k2 = k := fun he => h32 (he.trans hk3).symm
        rw [if_neg hk2]
        simp [List.lookup, hbe]
      · have hbe : (k == k3) = false := beq_eq_false_iff_ne.mpr hk3
        simp [List.lookup, hbe, ih]

theorem lookup_foldl_bodyStep (k : String) (body : List Stmt) :
    ∀ acc : List (String × AttrValue) × List Group × List Define,
      ((body.foldl bodyStep acc).1).lookup k =
        lastAttrFrom k (acc.1.lookup k) body := by
  induction body with
  | nil => intro acc; rfl
  | cons s rest ih =>
    intro acc
    rw [List.foldl_cons]
    rcases s with ⟨k2, v⟩ | g | d
    · rw [ih]
      show lastAttrFrom k ((updateAssoc acc.1 k2 v).lookup k) rest = _
      rw [lookup_updateAssoc_general]
      rfl
    · rw [ih]
      rfl
    · rw [ih]
      rfl

theorem lookup_makeGroup (name : String) (args : List Value)
    (body : List Stmt) (k : String) :
    (makeGroup name args body).attributes.lookup k = lastAttr k body := by
  show ((body.foldl bodyStep ([], [], [])).1).lookup k = _
  rw [lookup_foldl_bodyStep]
  rfl

theorem any_key_updateAssoc (k : String) (v : AttrValue) (k2 : String) :
    ∀ l : List (String × AttrValue),
      (updateAssoc l k v).any (fun p => p.1 == k2) =
        (l.any (fun p => p.1 == k2) || (k == k2)) := by
  intro l
  induction l with
  | nil => simp [updateAssoc]
  | cons p rest ih =>
    rcases p with ⟨k3, v3⟩
    unfold updateAssoc
    by_cases h3 : k3 = k
    · rw [if_pos h3, h3]
      rw [List.any_cons, List.any_cons]
      cases hb : (k == k2) <;> simp [hb]
    · rw [if_neg h3]
      rw [List.any_cons, List.any_cons, ih, Bool.or_assoc]

theorem keysNodupB_updateAssoc (k : String) (v : AttrValue) :
    ∀ l, keysNodupB l = true → keysNodupB (updateAssoc l k v) = true := by
  intro l
  induction l with
  | nil => intro _; rfl
  | cons p rest ih =>
    rcases p with ⟨k3, v3⟩
    intro h
    unfold keysNodupB at h
    rw [Bool.and_eq_true] at h
    obtain ⟨h1, h2⟩ := h
    unfold updateAssoc
    by_cases h3 : k3 = k
    · rw [if_pos h3]
      unfold keysNodupB
      rw [Bool.and_eq_true]
      exact ⟨h1, h2⟩
    · rw [if_neg h3]
      unfold keysNodupB
      rw [Bool.and_eq_true]
      constructor
      · rw [any_key_updateAssoc]
        have hke : (k == k3) = false :=
          beq_eq_false_iff_ne.mpr fun he => h3 he.symm
        rw [hke]
        cases hb : rest.any (fun q => q.1 == k3) with
        | false => rfl
        | true => rw [hb] at h1; exact Bool.noConfusion h1
      · exact ih h2

theorem keysNodupB_foldl (body : List Stmt) :
    ∀ acc, keysNodupB acc.1 = true →
      keysNodupB ((body.foldl bodyStep acc).1) = true := by
  induction body with
  | nil => intro acc h; exact h
  | cons s rest ih =>
    intro acc h
    rw [List.foldl_cons]
    apply ih
    rcases s with ⟨k2, v⟩ | g | d
    · exact keysNodupB_updateAssoc k2 v acc.1 h
    · exact h
    · exact h

theorem mem_foldl_subs (body : List Stmt) :
    ∀ acc g, g ∈ (body.foldl bodyStep acc).2.1 →
      g ∈ acc.2.1 ∨ Stmt.sub g ∈ body := by
  induction body with
  | nil => intro acc g h; exact Or.inl h
  | cons s rest ih =>
    intro acc g h
    rw [List.foldl_cons] at h
    rcases ih (bodyStep acc s) g h with h0 | h1
    · rcases s with ⟨k2, v⟩ | g2 | d
      · exact Or.inl h0
      · rcases List.mem_append.mp h0 with ha | hb
        · exact Or.inl ha
        · rw [List.mem_singleton] at hb
          exact Or.inr (by rw [hb]; exact List.mem_cons_self _ _)
      · exact Or.inl h0
    · exact Or.inr (List.mem_cons_of_mem s h1)

theorem groupListKeysOk_ofList (l : List Group)
    (h : ∀ g ∈ l, groupKeysOk g = true) :
    groupListKeysOk (GroupList.ofList l) = true := by
  induction l with
  | nil => rfl
  | cons g t ih =>
    show (groupKeysOk g && groupListKeysOk (GroupList.ofList t)) = true
    rw [Bool.and_eq_true]
    exact ⟨h g (List.mem_cons_self g t),
      ih fun g2 hg2 => h g2 (List.mem_cons_of_mem g hg2)⟩

theorem groupKeysOk_makeGroup (name : String) (args : List Value)
    (body : List Stmt)
    (h : ∀ g, Stmt.sub g ∈ body → groupKeysOk g = true) :
    groupKeysOk (makeGroup name args body) = true := by
  show (keysNodupB ((body.foldl bodyStep ([], [], [])).1) &&
    groupListKeysOk
      (GroupList.ofList ((body.foldl bodyStep ([], [], [])).2.1))) = true
  rw [Bool.and_eq_true]
  constructor
  · exact keysNodupB_foldl body ([], [], []) rfl
  · apply groupListKeysOk_ofList
    intro g hg
    rcases mem_foldl_subs body ([], [], []) g hg with h0 | hsub
    · exact absurd h0 (List.not_mem_nil g)
    · exact h g hsub

theorem bindStmts (f : Nat) (toks : List Tok) (ss : List Stmt)
    (r : List Tok)
    (h : (parseStmt f toks >>= fun p =>
        parseStmts f p.2 >>= fun q =>
          Except.ok (p.1 :: q.1, q.2)) = .ok (ss, r)) :
    ∃ s1 r2 ss2, parseStmt f toks = .ok (s1, r2) ∧
      parseStmts f r2 = .ok (ss2, r) ∧ ss = s1 :: ss2 := by
  rcases hs : parseStmt f toks with e | ⟨s1, r2⟩
  · rw [hs] at h
    exact Except.noConfusion h
  · rw [hs, exBindOk] at h
    dsimp only at h
    rcases hq : parseStmts f r2 with e | ⟨ss2, r3⟩
    · rw [hq] at h
      exact Except.noConfusion h
    · rw [hq, exBindOk] at h
      dsimp only at h
      obtain ⟨h1, h2⟩ := Prod.mk.inj (Except.ok.inj h)
      exact ⟨s1, r2, ss2, rfl, h2 ▸ hq, h1.symm⟩

theorem bindAttrScalar (k : String) (r : List Tok) (s : Stmt)
    (rr : List Tok)
    (h : (parseValue r >>= fun p =>
        match p.2 with
        | Tok.semi :: r3 => Except.ok (Stmt.attr k (.scalar p.1), r3)
        | _ => Except.error PErr.unexpectedTok) = .ok (s, rr)) :
    stmtOk s = true := by
  rcases hv : parseValue r with e | ⟨v, r2⟩
  · rw [hv] at h
    exact Except.noConfusion h
  · rw [hv, exBindOk] at h
    dsimp only at h
    rcases r2 with - | ⟨t, r3⟩
    · exact Except.noConfusion h
    · cases t
      case semi =>
        obtain ⟨h1, h2⟩ := Prod.mk.inj (Except.ok.inj h)
        rw [← h1]
        rfl
      all_goals exact Except.noConfusion h

theorem bindAttrComplex (f : Nat) (k : String) (r : List Tok) (s : Stmt)
    (rr : List Tok)
    (hss : ∀ toks ss r2, parseStmts f toks = .ok (ss, r2) →
      ∀ s2 ∈ ss, stmtOk s2 = true)
    (h : (parseArgList f r >>= fun p =>
        match p.2 with
        | Tok.semi :: r3 => Except.ok (Stmt.attr k (.complexList p.1), r3)
        | Tok.lbrace :: r3 =>
          parseStmts f r3 >>= fun q =>
            Except.ok (Stmt.sub (makeGroup k p.1 q.1), q.2)
        | _ => Except.error PErr.unexpectedTok) = .ok (s, rr)) :
    stmtOk s = true := by
  rcases ha : parseArgList f r with e | ⟨vs, r2⟩
  · rw [ha] at h
    exact Except.noConfusion h
  · rw [ha, exBindOk] at h
    dsimp only at h
    rcases r2 with - | ⟨t, r3⟩
    · exact Except.noConfusion h
    · cases t
      case semi =>
        obtain ⟨h1, h2⟩ := Prod.mk.inj (Except.ok.inj h)
        rw [← h1]
        rfl
      case lbrace =>
        dsimp only at h
        rcases hq : parseStmts f r3 with e | ⟨ss4, r4⟩
        · rw [hq] at h
          exact Except.noConfusion h
        · rw [hq, exBindOk] at h
          dsimp only at h
          obtain ⟨h1, h2⟩ := Prod.mk.inj (Except.ok.inj h)
          rw [← h1]
          show groupKeysOk (makeGroup k vs ss4) = true
          exact groupKeysOk_makeGroup k vs ss4 fun g hg =>
            hss r3 ss4 r4 hq (Stmt.sub g) hg
      all_goals exact Except.noConfusion h

theorem stmtInv : ∀ f : Nat,
    (∀ toks ss r, parseStmts f toks = .ok (ss, r) →
      ∀ s ∈ ss, stmtOk s = true) ∧
    (∀ toks s r, parseStmt f toks = .ok (s, r) → stmtOk s = true) := by
  intro f
  induction f with
  | zero =>
    constructor
    · intro toks ss r h
      rw [parseStmts.eq_def] at h
      exact Except.noConfusion h
    · intro toks s r h
      rw [parseStmt.eq_def] at h
      exact Except.noConfusion h
  | succ f ih =>
    obtain ⟨ihS, ihT⟩ := ih
    constructor
    · intro toks ss r h
      rw [parseStmts.eq_def] at h
      split at h
      · exact Except.noConfusion h
      · obtain ⟨h1, h2⟩ := Prod.mk.inj (Except.ok.inj h)
        intro s hs
        rw [← h1] at hs
        exact absurd hs (List.not_mem_nil s)
      · rename_i f2 heq hguard
        obtain rfl := Nat.succ.inj heq
        obtain ⟨s1, r2, ss2, hs1, hss2, hsseq⟩ := bindStmts f _ _ _ h
        intro s hs
        rw [hsseq] at hs
        rcases List.mem_cons.mp hs with he | he
        · rw [he]
          exact ihT _ _ _ hs1
        · exact ihS _ _ _ hss2 s he
    · intro toks s r h
      rw [parseStmt.eq_def] at h
      split at h
      · exact Except.noConfusion h
      · obtain ⟨h1, h2⟩ := Prod.mk.inj (Except.ok.inj h)
        rw [← h1]
        rfl
      · exact bindAttrScalar _ _ _ _ h
      · rename_i f2 k2 r2 heq
        obtain rfl := Nat.succ.inj heq
        exact bindAttrComplex f k2 r2 _ _ ihS h
      · exact Except.noConfusion h

theorem topInv (f : Nat) (toks : List Tok) (g : Group) (r : List Tok)
    (h : parseTop f toks = .ok (g, r)) : groupKeysOk g = true := by
  rw [parseTop.eq_def] at h
  split at h
  · rename_i n r1
    rcases ha : parseArgList f r1 with e | ⟨vs, r2⟩
    · rw [ha] at h
      exact Except.noConfusion h
    · rw [ha, exBindOk] at h
      dsimp only at h
      rcases r2 with - | ⟨t, r3⟩
      · exact Except.noConfusion h
      · cases t
        case lbrace =>
          dsimp only at h
          rcases hq : parseStmts f r3 with e | ⟨ss, r4⟩
          · rw [hq] at h
            exact Except.noConfusion h
          · rw [hq, exBindOk] at h
            dsimp only at h
            obtain ⟨h1, h2⟩ := Prod.mk.inj (Except.ok.inj h)
            rw [← h1]
            exact groupKeysOk_makeGroup _ _ _ fun g2 hg2 =>
              (stmtInv f).1 r3 ss r4 hq (Stmt.sub g2) hg2
        all_goals exact Except.noConfusion h
  · exact Except.noConfusion h

theorem parse_nodup (s : String) (T : Group)
    (h : parse_liberty s = .ok T) : groupKeysOk T = true := by
  unfold parse_liberty at h
  rcases ht : (tokenizeF (s.data.length + 1) s.data).mapError
      PErr.lexFail with e | toks
  · rw [ht] at h
    exact Except.noConfusion h
  · rw [ht, exBindOk] at h
    dsimp only at h
    rcases hp : parseTop (8 * toks.length + 8) toks with e | ⟨g, rest⟩
    · rw [hp] at h
      exact Except.noConfusion h
    · rw [hp, exBindOk] at h
      dsimp only at h
      rcases rest with - | ⟨t, r2⟩
      · rw [← Except.ok.inj h]
        exact topInv _ _ _ _ hp
      · exact Except.noConfusion h

/-- C9: every group built by a successful parse has pairwise-distinct
attribute keys at every level of the tree, and within one group body a
repeated attribute key takes the value of the last assignment in source
order (each repetition overwrites the previous one: looking an attribute up
in the constructed group returns the value of the last dict-style statement
carrying that key). -/
theorem C9_attr_keys :
    (∀ (s : String) (T : Group), parse_liberty s = .ok T →
      groupKeysOk T = true) ∧
    (∀ (name : String) (args : List Value) (body : List Stmt) (k : String),
      (makeGroup name args body).attributes.lookup k = lastAttr k body) :=
  ⟨parse_nodup, lookup_makeGroup⟩

theorem C9_witness :
    parse_liberty "a () \x7b x : p; x : q; \x7d" =
      Except.ok ⟨"a", [], [("x", AttrValue.scalar (Value.identifier "q"))],
        GroupList.nil, []⟩ ∧
    groupKeysOk ⟨"a", [], [("x", AttrValue.scalar (Value.identifier "q"))],
      GroupList.nil, []⟩ = true ∧
    (makeGroup "a" []
        [Stmt.attr "x" (AttrValue.scalar (Value.identifier "p")),
         Stmt.attr "x" (AttrValue.scalar (Value.identifier "q"))]).attributes.lookup
        "x" =
      lastAttr "x"
        [Stmt.attr "x" (AttrValue.scalar (Value.identifier "p")),
         Stmt.attr "x" (AttrValue.scalar (Value.identifier "q"))] := by
  refine ⟨rfl, ?hk, ?hl⟩
  · exact C9_attr_keys.1 "a () \x7b x : p; x : q; \x7d" _ rfl
  · exact C9_attr_keys.2 _ _ _ _

theorem stripTens_eq (a : Nat) (ha : a ≠ 0) (hm : a % 10 ≠ 0) :
    ∀ k, stripTens (a * 10 ^ k) = (a, k) := by
  intro k
  induction k with
  | zero =>
    rw [pow_zero, Nat.mul_one, stripTens.eq_def, dif_neg]
    exact fun hc => hm hc.2
  | succ k ih =>
    rw [stripTens.eq_def, dif_pos]
    · rw [show a * 10 ^ (k + 1) / 10 = a * 10 ^ k by
        rw [pow_succ, ← Nat.mul_assoc]
        exact Nat.mul_div_cancel _ (by norm_num)]
      rw [ih]
    · constructor
      · exact Nat.mul_ne_zero ha (pow_ne_zero _ (by norm_num))
      · rw [pow_succ, ← Nat.mul_assoc]
        exact Nat.mul_mod_left _ 10

theorem normDec_pow (m : Int) (hm : m ≠ 0) (h10 : m.natAbs % 10 ≠ 0)
    (e0 : Int) (j : Nat) :
    normDec (m * (10 : Int) ^ j) e0 = ⟨m, e0 + j⟩ := by
  have hm2 : m * (10 : Int) ^ j ≠ 0 :=
    mul_ne_zero hm (pow_ne_zero _ (by norm_num))
  unfold normDec
  rw [if_neg hm2]
  have hab : (m * (10 : Int) ^ j).natAbs = m.natAbs * 10 ^ j := by
    rw [Int.natAbs_mul, Int.natAbs_pow]
    rfl
  rw [hab, stripTens_eq m.natAbs (fun h0 => hm (Int.natAbs_eq_zero.mp h0)) h10 j]
  dsimp only
  by_cases hneg : m < 0
  · rw [if_pos (mul_neg_of_neg_of_pos hneg (by positivity))]
    rw [show -((m.natAbs : Int)) = m by omega]
  · rw [if_neg (not_lt.mpr (mul_nonneg (not_lt.mp hneg) (by positivity)))]
    rw [show ((m.natAbs : Int)) = m by omega]

theorem numVal_shape (sgnb : Bool) (I F : List Char) :
    numVal ⟨if sgnb then some '-' else none, I, some F, none⟩ =
      normDec
        (if sgnb then -(readDigits 0 (I ++ F) : Int)
         else (readDigits 0 (I ++ F) : Int))
        (0 - (F.length : Int)) := by
  cases sgnb <;> rfl

theorem ne_of_true_false {f : Char → Bool} {c x : Char} (h : f c = true)
    (hx : f x = false) : ¬ c = x := by
  intro he
  rw [he, hx] at h
  exact Bool.noConfusion h

theorem isWsChar_eq_false {c : Char} (h : isIdentCh c = true) :
    isWsChar c = false := by
  cases hws : isWsChar c with
  | false => rfl
  | true =>
    unfold isWsChar at hws
    simp only [Bool.or_eq_true] at hws
    rcases hws with ((((hc | hc) | hc) | hc) | hc) | hc <;>
      (rw [beq_iff_eq] at hc; rw [hc] at h; exact Bool.noConfusion h)

theorem isDigit_ne_plus {c : Char} (h : isDigitCh c = true) : ¬ c = '+' :=
  ne_of_true_false h rfl

theorem numBoundary_head {rest : List Char} (hb : numBoundaryL rest = true) :
    ∀ c, rest.head? = some c → isDigitCh c = false ∧ (c == '.') = false := by
  intro c hc
  rcases rest with - | ⟨c2, r2⟩
  · exact Option.noConfusion hc
  · obtain rfl : c2 = c := Option.some.inj hc
    unfold numBoundaryL at hb
    rw [Bool.and_eq_true, Bool.and_eq_true] at hb
    constructor
    · have h1 := hb.1.1
      cases hv : isDigitCh c2 with
      | false => rfl
      | true => rw [hv] at h1; exact Bool.noConfusion h1
    · have h1 := hb.1.2
      cases hv : (c2 == '.') with
      | false => rfl
      | true => rw [hv] at h1; exact Bool.noConfusion h1

theorem expSplit_boundary {rest : List Char} (hb : numBoundaryL rest = true) :
    expSplit rest = (none, rest) := by
  rcases rest with - | ⟨c, cs6⟩
  · rfl
  · unfold numBoundaryL at hb
    rw [Bool.and_eq_true, Bool.and_eq_true] at hb
    have hE := hb.2
    unfold expSplit
    dsimp only
    by_cases he : ((c == 'e') || (c == 'E')) = true
    · rw [he, if_pos rfl] at hE
      rw [he, if_pos rfl]
      have hq : (munchWhile isDigitCh (signSplit cs6).2).1.isEmpty = true := by
        rcases cs6 with - | ⟨c2, rest2⟩
        · rfl
        · have hE2 : (if ((c2 == '+') || (c2 == '-')) = true
              then !(headDigit rest2) else !(isDigitCh c2)) = true := hE
          unfold signSplit
          dsimp only
          by_cases hs2 : ((c2 == '+') || (c2 == '-')) = true
          · rw [hs2, if_pos rfl]
            rw [hs2, if_pos rfl] at hE2
            show (munchWhile isDigitCh rest2).1.isEmpty = true
            rcases rest2 with - | ⟨c3, rest3⟩
            · rfl
            · have hd3 : isDigitCh c3 = false := by
                cases hv : isDigitCh c3 with
                | false => rfl
                | true =>
                  rw [show headDigit (c3 :: rest3) = true from hv] at hE2
                  exact Bool.noConfusion hE2
              unfold munchWhile
              dsimp only
              rw [hd3]
              rw [if_neg Bool.false_ne_true]
              rfl
          · have hs2f : ((c2 == '+') || (c2 == '-')) = false := by
              cases hv : ((c2 == '+') || (c2 == '-')) with
              | false => rfl
              | true => exact absurd hv hs2
            rw [hs2f, if_neg Bool.false_ne_true]
            rw [hs2f, if_neg Bool.false_ne_true] at hE2
            show (munchWhile isDigitCh (c2 :: rest2)).1.isEmpty = true
            have hd2 : isDigitCh c2 = false := by
              cases hv : isDigitCh c2 with
              | false => rfl
              | true => rw [hv] at hE2; exact Bool.noConfusion hE2
            unfold munchWhile
            dsimp only
            rw [hd2]
            rw [if_neg Bool.false_ne_true]
            rfl
      rw [if_pos hq]
    · have hef : ((c == 'e') || (c == 'E')) = false := by
        cases hv : ((c == 'e') || (c == 'E')) with
        | false => rfl
        | true => exact absurd hv he
      rw [hef, if_neg Bool.false_ne_true]

theorem munchNum_core (I F rest : List Char)
    (hI : ∀ c ∈ I, isDigitCh c = true) (hF : ∀ c ∈ F, isDigitCh c = true)
    (hIne : I ≠ []) (hb : numBoundaryL rest = true) :
    munchNum (I ++ '.' :: (F ++ rest)) =
      some (⟨none, I, some F, none⟩, rest) := by
  rcases I with - | ⟨i0, I2⟩
  · exact absurd rfl hIne
  have hd0 := hI i0 (List.mem_cons_self i0 I2)
  have hmI2 : munchWhile isDigitCh (i0 :: (I2 ++ '.' :: (F ++ rest))) =
      (i0 :: I2, '.' :: (F ++ rest)) := by
    rw [← List.cons_append]
    exact munchWhile_exact isDigitCh (i0 :: I2) ('.' :: (F ++ rest)) hI
      fun c hc => by rw [← Option.some.inj hc]; rfl
  have hmF : munchWhile isDigitCh (F ++ rest) = (F, rest) :=
    munchWhile_exact isDigitCh F rest hF
      fun c hc => (numBoundary_head hb c hc).1
  have hsd : signSplit (i0 :: (I2 ++ '.' :: (F ++ rest))) =
      (none, i0 :: (I2 ++ '.' :: (F ++ rest))) := by
    have hcond : ((i0 == '+') || (i0 == '-')) = false := by
      rw [beq_eq_false_iff_ne.mpr (isDigit_ne_plus hd0),
        beq_eq_false_iff_ne.mpr (isDigit_ne_minus hd0)]
      rfl
    show (if ((i0 == '+') || (i0 == '-')) = true
        then (some i0, I2 ++ '.' :: (F ++ rest))
        else (none, i0 :: (I2 ++ '.' :: (F ++ rest)))) = _
    rw [hcond, if_neg Bool.false_ne_true]
  rw [List.cons_append]
  unfold munchNum
  rw [hsd]
  try dsimp only
  rw [hmI2]
  try dsimp only
  rw [if_pos rfl]
  try dsimp only
  rw [hmF]
  try dsimp only
  rw [if_neg (fun hc => Bool.noConfusion hc)]
  try dsimp only
  rw [expSplit_boundary hb]

theorem munchNum_neg (I F rest : List Char)
    (hI : ∀ c ∈ I, isDigitCh c = true) (hF : ∀ c ∈ F, isDigitCh c = true)
    (hIne : I ≠ []) (hb : numBoundaryL rest = true) :
    munchNum ('-' :: (I ++ '.' :: (F ++ rest))) =
      some (⟨some '-', I, some F, none⟩, rest) := by
  rcases I with - | ⟨i0, I2⟩
  · exact absurd rfl hIne
  have hmI2 : munchWhile isDigitCh (i0 :: (I2 ++ '.' :: (F ++ rest))) =
      (i0 :: I2, '.' :: (F ++ rest)) := by
    rw [← List.cons_append]
    exact munchWhile_exact isDigitCh (i0 :: I2) ('.' :: (F ++ rest)) hI
      fun c hc => by rw [← Option.some.inj hc]; rfl
  have hmF : munchWhile isDigitCh (F ++ rest) = (F, rest) :=
    munchWhile_exact isDigitCh F rest hF
      fun c hc => (numBoundary_head hb c hc).1
  have hsd : signSplit ('-' :: (i0 :: I2 ++ '.' :: (F ++ rest))) =
      (some '-', i0 :: I2 ++ '.' :: (F ++ rest)) := by
    show (if ((('-' : Char) == '+') || (('-' : Char) == '-')) = true
        then (some '-', i0 :: I2 ++ '.' :: (F ++ rest))
        else (none, '-' :: (i0 :: I2 ++ '.' :: (F ++ rest)))) = _
    rw [if_pos (show ((('-' : Char) == '+') || (('-' : Char) == '-')) = true
      from rfl)]
  unfold munchNum
  rw [hsd]
  try dsimp only
  rw [List.cons_append, hmI2]
  try dsimp only
  rw [if_pos rfl]
  try dsimp only
  rw [hmF]
  try dsimp only
  rw [if_neg (fun hc => Bool.noConfusion hc)]
  try dsimp only
  rw [expSplit_boundary hb]

theorem canon_facts (d : Dec) (hc : d.canon = true) :
    (d.m = 0 ∧ d.e = 0) ∨ (d.m ≠ 0 ∧ d.m.natAbs % 10 ≠ 0) := by
  unfold Dec.canon at hc
  rw [Bool.or_eq_true, Bool.and_eq_true, Bool.and_eq_true] at hc
  rcases hc with ⟨h1, h2⟩ | ⟨h1, h2⟩
  · exact Or.inl ⟨beq_iff_eq.mp h1, beq_iff_eq.mp h2⟩
  · rw [bne_iff_ne] at h1 h2
    refine Or.inr ⟨h1, ?hna⟩
    intro hna
    apply h2
    omega

theorem readDigits_zeros (a k : Nat) :
    readDigits a (List.replicate k '0') = a * 10 ^ k := by
  rw [readDigits_acc, readDigits_replicate_zero, List.length_replicate]
  ring

theorem readDigits_one_zero (a : Nat) : readDigits a ['0'] = a * 10 := rfl

theorem decRender_zero : decRender ⟨0, 0⟩ = ['0', '.', '0'] := rfl

theorem lexNum_assemble (m e : Int) (hm : m ≠ 0)
    (h10 : m.natAbs % 10 ≠ 0) (I F rest : List Char) (j : Nat)
    (hI : ∀ c ∈ I, isDigitCh c = true) (hF : ∀ c ∈ F, isDigitCh c = true)
    (hIne : I ≠ []) (hb : numBoundaryL rest = true)
    (hmant : readDigits 0 (I ++ F) = m.natAbs * 10 ^ j)
    (hj : (0 : Int) - F.length + j = e) :
    ∃ lit, munchNum ((if m < 0 then ['-'] else []) ++
        (I ++ '.' :: (F ++ rest))) = some (lit, rest) ∧
      numVal lit = ⟨m, e⟩ := by
  by_cases hneg : m < 0
  · rw [if_pos hneg]
    refine ⟨⟨some '-', I, some F, none⟩, ?_, ?_⟩
    · exact munchNum_neg I F rest hI hF hIne hb
    · have hnv : numVal ⟨some '-', I, some F, none⟩ =
          normDec (-(readDigits 0 (I ++ F) : Int)) (0 - (F.length : Int)) :=
        rfl
      rw [hnv, hmant]
      rw [show -((m.natAbs * 10 ^ j : Nat) : Int) = m * (10 : Int) ^ j by
        push_cast
        rw [abs_of_neg hneg]
        ring]
      rw [normDec_pow m hm h10 _ j]
      rw [Dec.mk.injEq]
      exact ⟨rfl, hj⟩
  · rw [if_neg hneg]
    refine ⟨⟨none, I, some F, none⟩, ?_, ?_⟩
    · rw [List.nil_append]
      exact munchNum_core I F rest hI hF hIne hb
    · have hnv : numVal ⟨none, I, some F, none⟩ =
          normDec ((readDigits 0 (I ++ F) : Int)) (0 - (F.length : Int)) :=
        rfl
      rw [hnv, hmant]
      rw [show ((m.natAbs * 10 ^ j : Nat) : Int) = m * (10 : Int) ^ j by
        push_cast
        rw [abs_of_nonneg (not_lt.mp hneg)]]
      rw [normDec_pow m hm h10 _ j]
      rw [Dec.mk.injEq]
      exact ⟨rfl, hj⟩

theorem lexNum (d : Dec) (hcan : d.canon = true) (rest : List Char)
    (hb : numBoundaryL rest = true) :
    ∃ lit, munchNum (decRender d ++ rest) = some (lit, rest) ∧
      numVal lit = d := by
  obtain ⟨m, e⟩ := d
  rcases canon_facts _ hcan with ⟨hm0, he0⟩ | ⟨hm, h10⟩
  · dsimp only at hm0 he0
    subst hm0
    subst he0
    refine ⟨⟨none, ['0'], some ['0'], none⟩, ?h1, ?h2⟩
    · have hmc := munchNum_core ['0'] ['0'] rest
        (by intro c hc; rw [List.mem_singleton] at hc; rw [hc]; rfl)
        (by intro c hc; rw [List.mem_singleton] at hc; rw [hc]; rfl)
        (List.cons_ne_nil _ _) hb
      rw [decRender_zero]
      exact hmc
    · rfl
  · dsimp only at hm h10
    have hds := mem_natDigits_isDigit m.natAbs
    have hdsne := natDigits_ne_nil m.natAbs
    by_cases he : (0 : Int) ≤ e
    · have hshape : decRender ⟨m, e⟩ ++ rest =
          (if m < 0 then ['-'] else []) ++
            ((natDigits m.natAbs ++ List.replicate e.toNat '0') ++
              '.' :: (['0'] ++ rest)) := by
        unfold decRender
        dsimp only
        rw [if_pos he]
        simp [List.append_assoc]
      rw [hshape]
      exact lexNum_assemble m e hm h10
        (natDigits m.natAbs ++ List.replicate e.toNat '0') ['0'] rest
        (e.toNat + 1)
        (by intro c hc
            rcases List.mem_append.mp hc with hc | hc
            · exact hds c hc
            · rw [List.eq_of_mem_replicate hc]; rfl)
        (by intro c hc; rw [List.mem_singleton] at hc; rw [hc]; rfl)
        (fun hnil => hdsne (List.append_eq_nil.mp hnil).1)
        hb
        (by rw [readDigits_append, readDigits_append, readDigits_natDigits,
              readDigits_zeros, readDigits_one_zero]
            ring)
        (by simp only [List.length_singleton]
            omega)
    · by_cases hk : (-e).toNat < (natDigits m.natAbs).length
      · have hshape : decRender ⟨m, e⟩ ++ rest =
            (if m < 0 then ['-'] else []) ++
              ((natDigits m.natAbs).take
                  ((natDigits m.natAbs).length - (-e).toNat) ++
                '.' :: ((natDigits m.natAbs).drop
                  ((natDigits m.natAbs).length - (-e).toNat) ++ rest)) := by
          unfold decRender
          dsimp only
          rw [if_neg he, if_pos hk]
          simp [List.append_assoc]
        rw [hshape]
        exact lexNum_assemble m e hm h10 _ _ rest 0
          (fun c hc => hds c (List.mem_of_mem_take hc))
          (fun c hc => hds c (List.mem_of_mem_drop hc))
          (by
            intro hnil
            have hlen := congrArg List.length hnil
            rw [List.length_take] at hlen
            simp only [List.length_nil] at hlen
            have hpos : 0 < (natDigits m.natAbs).length :=
              List.length_pos.mpr hdsne
            omega)
          hb
          (by rw [List.take_append_drop, readDigits_natDigits]; ring)
          (by rw [List.length_drop]; omega)
      · have hshape : decRender ⟨m, e⟩ ++ rest =
            (if m < 0 then ['-'] else []) ++
              (['0'] ++
                '.' :: ((List.replicate
                    ((-e).toNat - (natDigits m.natAbs).length) '0' ++
                  natDigits m.natAbs) ++ rest)) := by
          unfold decRender
          dsimp only
          rw [if_neg he, if_neg hk]
          simp [List.append_assoc]
        rw [hshape]
        exact lexNum_assemble m e hm h10 _ _ rest 0
          (by intro c hc; rw [List.mem_singleton] at hc; rw [hc]; rfl)
          (by intro c hc
              rcases List.mem_append.mp hc with hc | hc
              · rw [List.eq_of_mem_replicate hc]; rfl
              · exact hds c hc)
          (List.cons_ne_nil _ _)
          hb
          (by rw [readDigits_append, readDigits_append, readDigits_one_zero,
                readDigits_zeros, readDigits_acc, readDigits_natDigits]
              ring)
          (by rw [List.length_append, List.length_replicate]
              push_cast
              omega)

theorem esOk_facts {s : String} (h : esOk s = true) :
    (∀ c ∈ s.data, ¬ c = '"' ∧ ¬ c = '\n') ∧
      s.data.getLast? ≠ some '\\' := by
  unfold esOk at h
  rw [Bool.and_eq_true] at h
  constructor
  · intro c hc
    have h1 := h.1
    cases hv : s.data.any fun c => c == '"' || c == '\n' with
    | true => rw [hv] at h1; exact Bool.noConfusion h1
    | false =>
      rw [List.any_eq_false] at hv
      have := hv c hc
      constructor
      · intro he
        apply this
        rw [he]
        rfl
      · intro he
        apply this
        rw [he]
        rfl
  · intro hlast
    have h2 := h.2
    have hne : s.data ≠ [] := by
      intro hnil
      rw [hnil] at hlast
      exact Option.noConfusion hlast
    have hgd : s.data.getLastD 'x' = '\\' := by
      rw [List.getLastD_eq_getLast?, hlast]
      rfl
    rw [hgd] at h2
    have hemp : s.data.isEmpty = false := by
      rcases hd : s.data with - | ⟨a, b⟩
      · exact absurd hd hne
      · rfl
    rw [hemp] at h2
    exact Bool.noConfusion h2

theorem munchEString_exact : ∀ (inner : List Char),
    (∀ c ∈ inner, ¬ c = '"' ∧ ¬ c = '\n') →
    inner.getLast? ≠ some '\\' → ∀ cs,
    munchEString (inner ++ '"' :: cs) = some (inner, cs)
  | [], _, _, cs => by
    show munchEString ('"' :: cs) = some ([], cs)
    unfold munchEString
    rw [if_pos rfl]
  | c :: rest, h, hl, cs => by
    have hc := h c (List.mem_cons_self c rest)
    rw [List.cons_append]
    unfold munchEString
    rw [if_neg hc.1, if_neg hc.2]
    by_cases hbs : c = '\\'
    · rw [if_pos hbs]
      rcases rest with - | ⟨c2, rest2⟩
      · rw [hbs] at hl
        exact absurd rfl hl
      · have hc2 := h c2 (List.mem_cons_of_mem c (List.mem_cons_self c2 rest2))
        rw [List.cons_append]
        show (if c2 = '\n' then none
          else (munchEString (rest2 ++ '"' :: cs)).map
            fun p => (c :: c2 :: p.1, p.2)) = _
        rw [if_neg hc2.2]
        have hrec := munchEString_exact rest2
          (fun d hd => h d (List.mem_cons_of_mem c
            (List.mem_cons_of_mem c2 hd)))
          (by
            intro hlast
            apply hl
            rcases rest2 with - | ⟨c3, rest3⟩
            · exact absurd hlast (by intro hx; exact Option.noConfusion hx)
            · rw [List.getLast?_cons_cons, List.getLast?_cons_cons]
              exact hlast)
          cs
        rw [hrec]
        rfl
    · rw [if_neg hbs]
      have hrec := munchEString_exact rest
        (fun d hd => h d (List.mem_cons_of_mem c hd))
        (by
          intro hlast
          apply hl
          rcases rest with - | ⟨c2, rest2⟩
          · exact absurd hlast (by intro hx; exact Option.noConfusion hx)
          · rw [List.getLast?_cons_cons]
            exact hlast)
        cs
      rw [hrec]
      rfl

theorem unescape_id (l : List Char) (h : ∀ c ∈ l, ¬ c = '"') :
    unescape l = l := by
  induction l with
  | nil => rfl
  | cons c rest ih =>
    have hr := ih fun d hd => h d (List.mem_cons_of_mem c hd)
    rw [unescape.eq_def]
    split
    · rename_i heq
      exact List.noConfusion heq
    · rename_i r2 heq
      obtain ⟨h1, h2⟩ := List.cons.inj heq
      refine absurd rfl (h '"' ?hmem)
      rw [h2]
      exact List.mem_cons_of_mem _ (List.mem_cons_self _ _)
    · rename_i c2 r2 hno heq
      obtain ⟨h1, h2⟩ := List.cons.inj heq
      rw [← h1, ← h2, hr]

theorem lexStep_ws (f : Nat) (c : Char) (cs : List Char)
    (h : isWsChar c = true) :
    tokenizeF (f + 1) (c :: cs) = tokenizeF f cs := by
  unfold isWsChar at h
  simp only [Bool.or_eq_true] at h
  rcases h with ((((h | h) | h) | h) | h) | h <;>
    (rw [beq_iff_eq] at h; subst h; rfl)

theorem lexStep_cont (f : Nat) (cs : List Char) :
    tokenizeF (f + 1) ('\\' :: '\n' :: cs) = tokenizeF f cs := rfl

theorem lexStep_lbrace (f : Nat) (cs : List Char) :
    tokenizeF (f + 1) ('\x7b' :: cs) =
      (tokenizeF f cs).map (.lbrace :: ·) := rfl

theorem lexStep_rbrace (f : Nat) (cs : List Char) :
    tokenizeF (f + 1) ('\x7d' :: cs) =
      (tokenizeF f cs).map (.rbrace :: ·) := rfl

theorem lexStep_lpar (f : Nat) (cs : List Char) :
    tokenizeF (f + 1) ('(' :: cs) = (tokenizeF f cs).map (.lpar :: ·) := rfl

theorem lexStep_rpar (f : Nat) (cs : List Char) :
    tokenizeF (f + 1) (')' :: cs) = (tokenizeF f cs).map (.rpar :: ·) := rfl

theorem lexStep_comma (f : Nat) (cs : List Char) :
    tokenizeF (f + 1) (',' :: cs) = (tokenizeF f cs).map (.comma :: ·) := rfl

theorem lexStep_colon (f : Nat) (cs : List Char) :
    tokenizeF (f + 1) (':' :: cs) = (tokenizeF f cs).map (.colon :: ·) := rfl

theorem lexStep_semi (f : Nat) (cs : List Char) :
    tokenizeF (f + 1) (';' :: cs) = (tokenizeF f cs).map (.semi :: ·) := rfl

theorem validCName_facts {s : String} (hv : validCName s = true) :
    ∃ c0 r, s.data = c0 :: r ∧ isIdentStart c0 = true ∧
      ∀ c ∈ r, isIdentCh c = true := by
  unfold validCName at hv
  rcases hd : s.data with - | ⟨c0, r⟩
  · rw [hd] at hv
    exact Bool.noConfusion hv
  · rw [hd] at hv
    rw [Bool.and_eq_true] at hv
    exact ⟨c0, r, rfl, hv.1, List.all_eq_true.mp hv.2⟩

set_option maxHeartbeats 3200000 in
theorem lexStep_name (f : Nat) (s : String) (cs : List Char)
    (hv : validCName s = true) (hnd : ¬ s = "define")
    (hb : ∀ c, cs.head? = some c → isIdentCh c = false) :
    tokenizeF (f + 1) (s.data ++ cs) =
      (tokenizeF f cs).map (.cname s :: ·) := by
  obtain ⟨c0, r, hd, h0, hr⟩ := validCName_facts hv
  have hIC : isIdentCh c0 = true := by
    unfold isIdentCh
    rw [h0]
    rfl
  have hmw : munchWhile isIdentCh (r ++ cs) = (r, cs) :=
    munchWhile_exact isIdentCh r cs hr fun c hc => hb c hc
  have hws : isWsChar c0 = false := isWsChar_eq_false hIC
  rw [hd, List.cons_append]
  generalize hX : tokenizeF f cs = X
  unfold tokenizeF
  rw [if_neg (fun hcx => Bool.noConfusion (hws ▸ hcx))]
  rw [if_neg (ne_of_true_false h0 (show isIdentStart '\\' = false from rfl))]
  rw [if_neg (ne_of_true_false h0 (show isIdentStart '/' = false from rfl))]
  rw [if_neg (ne_of_true_false h0 (show isIdentStart '\x7b' = false from rfl))]
  rw [if_neg (ne_of_true_false h0 (show isIdentStart '\x7d' = false from rfl))]
  rw [if_neg (ne_of_true_false h0 (show isIdentStart '(' = false from rfl))]
  rw [if_neg (ne_of_true_false h0 (show isIdentStart ')' = false from rfl))]
  rw [if_neg (ne_of_true_false h0 (show isIdentStart ',' = false from rfl))]
  rw [if_neg (ne_of_true_false h0 (show isIdentStart ':' = false from rfl))]
  rw [if_neg (ne_of_true_false h0 (show isIdentStart ';' = false from rfl))]
  rw [if_neg (ne_of_true_false h0 (show isIdentStart '"' = false from rfl))]
  rw [if_pos h0]
  dsimp only
  rw [hmw]
  dsimp only
  have hsmk : String.mk (c0 :: r) = s := by
    rw [← hd]
  rw [hsmk]
  rw [if_neg hnd]
  rw [hX]

set_option maxHeartbeats 3200000 in
theorem lexStep_str (f : Nat) (s : String) (cs : List Char)
    (he : esOk s = true) :
    tokenizeF (f + 1) (('"' :: s.data ++ ['"']) ++ cs) =
      (tokenizeF f cs).map (.str s :: ·) := by
  obtain ⟨hin, hlast⟩ := esOk_facts he
  rw [List.cons_append, List.cons_append, List.append_assoc]
  show (match munchEString (s.data ++ ('"' :: cs)) with
    | some (inner, r2) =>
      (tokenizeF f r2).map (fun ts => Tok.str (String.mk (unescape inner)) :: ts)
    | none =>
      (tokenizeF f (s.data ++ ('"' :: cs))).map (fun ts => Tok.quote :: ts)) = _
  rw [munchEString_exact s.data hin hlast cs]
  show (tokenizeF f cs).map
    (fun ts => Tok.str (String.mk (unescape s.data)) :: ts) = _
  rw [unescape_id s.data fun c hc => (hin c hc).1]

theorem identStart_of_digit {c : Char} (h : isDigitCh c = true) :
    isIdentStart c = false := by
  unfold isDigitCh at h
  rw [Bool.and_eq_true] at h
  have h9 : c ≤ '9' := of_decide_eq_true h.2
  unfold isIdentStart
  have hu : (c == '_') = false := by
    cases hv : (c == '_') with
    | false => rfl
    | true =>
      rw [beq_iff_eq] at hv
      rw [hv] at h9
      exact absurd h9 (by decide)
  have ha : (decide (('a' : Char) ≤ c) && decide (c ≤ 'z')) = false := by
    cases hva : decide (('a' : Char) ≤ c) with
    | false => rfl
    | true => exact absurd (le_trans (of_decide_eq_true hva) h9) (by decide)
  have hA : (decide (('A' : Char) ≤ c) && decide (c ≤ 'Z')) = false := by
    cases hva : decide (('A' : Char) ≤ c) with
    | false => rfl
    | true => exact absurd (le_trans (of_decide_eq_true hva) h9) (by decide)
  rw [hu, ha, hA]
  rfl

theorem digit_false_of_identStart {c : Char} (h : isIdentStart c = true) :
    isDigitCh c = false := by
  cases hv : isDigitCh c with
  | false => rfl
  | true => rw [identStart_of_digit hv] at h; exact Bool.noConfusion h

theorem decRender_head (d : Dec) :
    ∃ c0 r, decRender d = c0 :: r ∧ (c0 = '-' ∨ isDigitCh c0 = true) := by
  unfold decRender
  dsimp only
  by_cases hneg : d.m < 0
  · rw [if_pos hneg]
    by_cases he : 0 ≤ d.e
    · rw [if_pos he]
      exact ⟨'-', _, rfl, Or.inl rfl⟩
    · rw [if_neg he]
      by_cases hk : (-d.e).toNat < (natDigits d.m.natAbs).length
      · rw [if_pos hk]
        exact ⟨'-', _, rfl, Or.inl rfl⟩
      · rw [if_neg hk]
        exact ⟨'-', _, rfl, Or.inl rfl⟩
  · rw [if_neg hneg]
    by_cases he : 0 ≤ d.e
    · rw [if_pos he]
      rcases hds : natDigits d.m.natAbs with - | ⟨c0, r⟩
      · exact absurd hds (natDigits_ne_nil _)
      · exact ⟨c0, _, rfl, Or.inr (mem_natDigits_isDigit _ c0
          (by rw [hds]; exact List.mem_cons_self _ _))⟩
    · rw [if_neg he]
      by_cases hk : (-d.e).toNat < (natDigits d.m.natAbs).length
      · rw [if_pos hk]
        rcases htk : (natDigits d.m.natAbs).take
            ((natDigits d.m.natAbs).length - (-d.e).toNat) with - | ⟨c0, r⟩
        · exfalso
          have hlen := congrArg List.length htk
          rw [List.length_take] at hlen
          simp only [List.length_nil] at hlen
          have hpos := List.length_pos.mpr (natDigits_ne_nil d.m.natAbs)
          omega
        · exact ⟨c0, _, rfl, Or.inr (mem_natDigits_isDigit _ c0
            (List.mem_of_mem_take
              (htk.symm ▸ List.mem_cons_self c0 r)))⟩
      · rw [if_neg hk]
        exact ⟨'0', _, rfl, Or.inr rfl⟩

set_option maxHeartbeats 3200000 in
theorem lexStep_num (f : Nat) (d : Dec) (cs : List Char)
    (hcan : d.canon = true) (hb : numBoundaryL cs = true) :
    tokenizeF (f + 1) (decRender d ++ cs) =
      (tokenizeF f cs).map (.num d :: ·) := by
  obtain ⟨lit, hmn, hnv⟩ := lexNum d hcan cs hb
  obtain ⟨c0, r, hdr, hcase⟩ := decRender_head d
  rw [hdr] at hmn ⊢
  rw [List.cons_append] at hmn ⊢
  rcases hcase with hC | hC
  · subst hC
    show (match munchNum ('-' :: (r ++ cs)) with
      | some (l2, r2) =>
        (tokenizeF f r2).map (fun ts => Tok.num (numVal l2) :: ts)
      | none => Except.error (LexErr.unexpectedChar '-')) = _
    rw [hmn]
    show (tokenizeF f cs).map (fun ts => Tok.num (numVal lit) :: ts) = _
    rw [hnv]
  · have hws : isWsChar c0 = false :=
      isWsChar_eq_false (by unfold isIdentCh; rw [hC, Bool.or_true])
    have hid : isIdentStart c0 = false := identStart_of_digit hC
    generalize hX : tokenizeF f cs = X
    unfold tokenizeF
    rw [if_neg (fun hcx => Bool.noConfusion (hws ▸ hcx))]
    rw [if_neg (ne_of_true_false hC (show isDigitCh '\\' = false from rfl))]
    rw [if_neg (ne_of_true_false hC (show isDigitCh '/' = false from rfl))]
    rw [if_neg (ne_of_true_false hC (show isDigitCh '\x7b' = false from rfl))]
    rw [if_neg (ne_of_true_false hC (show isDigitCh '\x7d' = false from rfl))]
    rw [if_neg (ne_of_true_false hC (show isDigitCh '(' = false from rfl))]
    rw [if_neg (ne_of_true_false hC (show isDigitCh ')' = false from rfl))]
    rw [if_neg (ne_of_true_false hC (show isDigitCh ',' = false from rfl))]
    rw [if_neg (ne_of_true_false hC (show isDigitCh ':' = false from rfl))]
    rw [if_neg (ne_of_true_false hC (show isDigitCh ';' = false from rfl))]
    rw [if_neg (ne_of_true_false hC (show isDigitCh '"' = false from rfl))]
    rw [if_neg (fun hcx => Bool.noConfusion (hid ▸ hcx))]
    rw [if_pos (show (isDigitCh c0 || decide (c0 = '+') || decide (c0 = '-')
        || decide (c0 = '.')) = true by rw [hC]; rfl)]
    rw [hmn]
    show (tokenizeF f cs).map (fun ts => Tok.num (numVal lit) :: ts) =
      X.map (fun ts => Tok.num d :: ts)
    rw [hnv, hX]

theorem unitOk_facts {u : String} (hu : unitOk u = true) :
    validCName u = true ∧ ¬ u = "define" ∧
      (match u.data with
        | c :: c2 :: _ => ((c == 'e') || (c == 'E')) && isDigitCh c2
        | _ => false) = false := by
  unfold unitOk at hu
  rw [Bool.and_eq_true, Bool.and_eq_true] at hu
  refine ⟨hu.1.1, bne_iff_ne.mp hu.1.2, ?hm⟩
  have h2 := hu.2
  cases hv : (match u.data with
      | c :: c2 :: _ => ((c == 'e') || (c == 'E')) && isDigitCh c2
      | _ => false) with
  | false => rfl
  | true => rw [hv] at h2; exact Bool.noConfusion h2

theorem unit_numBoundary (u : String) (hu : unitOk u = true) (cs : List Char)
    (hb : ∀ c, cs.head? = some c →
      isIdentCh c = false ∧ ¬ c = '+' ∧ ¬ c = '-') :
    numBoundaryL (u.data ++ cs) = true := by
  obtain ⟨hv, hnd, hfuse⟩ := unitOk_facts hu
  obtain ⟨c0, r, hd, h0, hr⟩ := validCName_facts hv
  rw [hd] at hfuse
  rw [hd, List.cons_append]
  unfold numBoundaryL
  try dsimp only
  rw [digit_false_of_identStart h0]
  rw [beq_eq_false_iff_ne.mpr (ne_of_true_false h0
    (show isIdentStart '.' = false from rfl))]
  by_cases he : ((c0 == 'e') || (c0 == 'E')) = true
  · rw [he, if_pos rfl]
    have hques : expFailsAt (r ++ cs) = true := by
      rcases r with - | ⟨c2, r2⟩
      · rcases cs with - | ⟨c3, cs3⟩
        · rfl
        · obtain ⟨hic, hp, hm⟩ := hb c3 rfl
          show (if ((c3 == '+') || (c3 == '-')) = true
              then !(headDigit cs3) else !(isDigitCh c3)) = true
          rw [beq_eq_false_iff_ne.mpr hp, beq_eq_false_iff_ne.mpr hm]
          rw [if_neg (fun hcc => Bool.noConfusion hcc)]
          have hdg : isDigitCh c3 = false := by
            cases hdgv : isDigitCh c3 with
            | false => rfl
            | true =>
              rw [show isIdentCh c3 = true by
                unfold isIdentCh; rw [hdgv, Bool.or_true]] at hic
              exact Bool.noConfusion hic
          rw [hdg]
          rfl
      · have hfuse2 : (((c0 == 'e') || (c0 == 'E')) && isDigitCh c2) = false :=
          hfuse
        rw [he, Bool.true_and] at hfuse2
        show (if ((c2 == '+') || (c2 == '-')) = true
            then !(headDigit (r2 ++ cs)) else !(isDigitCh c2)) = true
        have hc2 := hr c2 (List.mem_cons_self c2 r2)
        rw [beq_eq_false_iff_ne.mpr (ne_of_true_false hc2
            (show isIdentCh '+' = false from rfl)),
          beq_eq_false_iff_ne.mpr (ne_of_true_false hc2
            (show isIdentCh '-' = false from rfl))]
        rw [if_neg (fun hcc => Bool.noConfusion hcc)]
        rw [hfuse2]
        rfl
    rw [hques]
    rfl
  · have hef : ((c0 == 'e') || (c0 == 'E')) = false := by
      cases hv2 : ((c0 == 'e') || (c0 == 'E')) with
      | false => rfl
      | true => exact absurd hv2 he
    rw [hef, if_neg Bool.false_ne_true]
    rfl

theorem lexStep_numUnit (f : Nat) (d : Dec) (u : String) (cs : List Char)
    (hcan : d.canon = true) (hu : unitOk u = true)
    (hb : ∀ c, cs.head? = some c →
      isIdentCh c = false ∧ ¬ c = '+' ∧ ¬ c = '-') :
    tokenizeF (f + 1 + 1) ((decRender d ++ u.data) ++ cs) =
      (tokenizeF f cs).map (fun ts => Tok.num d :: Tok.cname u :: ts) := by
  obtain ⟨hv, hnd, hfuse⟩ := unitOk_facts hu
  rw [List.append_assoc]
  rw [lexStep_num (f + 1) d (u.data ++ cs) hcan (unit_numBoundary u hu cs hb)]
  rw [lexStep_name f u cs hv hnd (fun c hc => (hb c hc).1)]
  cases tokenizeF f cs <;> rfl

theorem bool_not_true {b : Bool} (h : (!b) = true) : b = false := by
  cases b with
  | false => rfl
  | true => exact Bool.noConfusion h

theorem numBoundary_of_head (cs : List Char)
    (h : ∀ c, cs.head? = some c → isDigitCh c = false ∧
      (c == '.') = false ∧ isIdentStart c = false) :
    numBoundaryL cs = true := by
  rcases cs with - | ⟨c, r⟩
  · rfl
  · obtain ⟨h1, h2, h3⟩ := h c rfl
    unfold numBoundaryL
    try dsimp only
    rw [h1, h2]
    have he : ((c == 'e') || (c == 'E')) = false := by
      rw [beq_eq_false_iff_ne.mpr
          (fun hx => by rw [hx] at h3; exact Bool.noConfusion h3),
        beq_eq_false_iff_ne.mpr
          (fun hx => by rw [hx] at h3; exact Bool.noConfusion h3)]
      rfl
    rw [he, if_neg Bool.false_ne_true]
    rfl

theorem lexSegs : ∀ (l : List Seg) (f : Nat), segsWF l = true →
    (segsChars l).length < f →
    tokenizeF f (segsChars l) = .ok (segsToks l) := by
  intro l
  induction l with
  | nil =>
    intro f _ hf
    rcases f with - | f2
    · exact absurd hf (by omega)
    · rfl
  | cons s rest ih =>
    intro f hwf hf
    unfold segsWF at hwf
    rw [Bool.and_eq_true, Bool.and_eq_true] at hwf
    obtain ⟨⟨hw, hbd⟩, hrest⟩ := hwf
    have hlen0 : (segChars s ++ segsChars rest).length < f := hf
    rw [List.length_append] at hlen0
    cases s with
    | wsc c =>
      rcases f with - | f2
      · exact absurd hf (by omega)
      · show tokenizeF (f2 + 1) (c :: segsChars rest) =
          Except.ok (segsToks rest)
        rw [lexStep_ws f2 c _ hw]
        exact ih f2 hrest (by
          have : (segChars (Seg.wsc c)).length = 1 := rfl
          omega)
    | cont =>
      rcases f with - | f2
      · exact absurd hf (by omega)
      · show tokenizeF (f2 + 1) ('\\' :: '\n' :: segsChars rest) =
          Except.ok (segsToks rest)
        rw [lexStep_cont f2 _]
        exact ih f2 hrest (by
          have : (segChars Seg.cont).length = 2 := rfl
          omega)
    | punct t c =>
      rcases f with - | f2
      · exact absurd hf (by omega)
      · have hlen2 : (segsChars rest).length < f2 := by
          have : (segChars (Seg.punct t c)).length = 1 := rfl
          omega
        have hih := ih f2 hrest hlen2
        cases t with
        | lbrace =>
          obtain rfl : c = '\x7b' := beq_iff_eq.mp hw
          show tokenizeF (f2 + 1) ('\x7b' :: segsChars rest) = _
          rw [lexStep_lbrace, hih]
          rfl
        | rbrace =>
          obtain rfl : c = '\x7d' := beq_iff_eq.mp hw
          show tokenizeF (f2 + 1) ('\x7d' :: segsChars rest) = _
          rw [lexStep_rbrace, hih]
          rfl
        | lpar =>
          obtain rfl : c = '(' := beq_iff_eq.mp hw
          show tokenizeF (f2 + 1) ('(' :: segsChars rest) = _
          rw [lexStep_lpar, hih]
          rfl
        | rpar =>
          obtain rfl : c = ')' := beq_iff_eq.mp hw
          show tokenizeF (f2 + 1) (')' :: segsChars rest) = _
          rw [lexStep_rpar, hih]
          rfl
        | comma =>
          obtain rfl : c = ',' := beq_iff_eq.mp hw
          show tokenizeF (f2 + 1) (',' :: segsChars rest) = _
          rw [lexStep_comma, hih]
          rfl
        | colon =>
          obtain rfl : c = ':' := beq_iff_eq.mp hw
          show tokenizeF (f2 + 1) (':' :: segsChars rest) = _
          rw [lexStep_colon, hih]
          rfl
        | semi =>
          obtain rfl : c = ';' := beq_iff_eq.mp hw
          show tokenizeF (f2 + 1) (';' :: segsChars rest) = _
          rw [lexStep_semi, hih]
          rfl
        | kwDefine => exact Bool.noConfusion hw
        | cname s2 => exact Bool.noConfusion hw
        | num d2 => exact Bool.noConfusion hw
        | str s2 => exact Bool.noConfusion hw
        | quote => exact Bool.noConfusion hw
    | name s2 =>
      rcases f with - | f2
      · exact absurd hf (by omega)
      · have hw2 : (validCName s2 && (s2 != "define")) = true := hw
        rw [Bool.and_eq_true] at hw2
        obtain ⟨c0, r, hd, h0, hr⟩ := validCName_facts hw2.1
        show tokenizeF (f2 + 1) (s2.data ++ segsChars rest) =
          Except.ok (Tok.cname s2 :: segsToks rest)
        rw [lexStep_name f2 s2 _ hw2.1 (bne_iff_ne.mp hw2.2) (by
          intro c hc
          rw [hc] at hbd
          exact bool_not_true hbd)]
        rw [ih f2 hrest (by
          have hpos : 1 ≤ s2.data.length := by
            rw [hd]
            simp
          have hsl : (segChars (Seg.name s2)).length = s2.data.length := rfl
          omega)]
        rfl
    | estr s2 =>
      rcases f with - | f2
      · exact absurd hf (by omega)
      · show tokenizeF (f2 + 1) (('"' :: s2.data ++ ['"']) ++ segsChars rest) =
          Except.ok (Tok.str s2 :: segsToks rest)
        rw [lexStep_str f2 s2 _ hw]
        rw [ih f2 hrest (by
          have hsl : (segChars (Seg.estr s2)).length = s2.data.length + 2 := by
            show ('"' :: s2.data ++ ['"']).length = _
            rw [List.cons_append, List.length_cons, List.length_append]
            rfl
          omega)]
        rfl
    | numb d =>
      rcases f with - | f2
      · exact absurd hf (by omega)
      · show tokenizeF (f2 + 1) (decRender d ++ segsChars rest) =
          Except.ok (Tok.num d :: segsToks rest)
        rw [lexStep_num f2 d _ hw (numBoundary_of_head _ (by
          intro c hc
          rw [hc] at hbd
          have hbd2 : (((!(isDigitCh c)) && (!(c == '.'))) &&
              (!(isIdentStart c))) = true := hbd
          rw [Bool.and_eq_true, Bool.and_eq_true] at hbd2
          exact ⟨bool_not_true hbd2.1.1, bool_not_true hbd2.1.2,
            bool_not_true hbd2.2⟩))]
        rw [ih f2 hrest (by
          have hpos : 1 ≤ (decRender d).length := by
            obtain ⟨c0, r, hdr, -⟩ := decRender_head d
            rw [hdr]
            simp
          have hsl : (segChars (Seg.numb d)).length = (decRender d).length :=
            rfl
          omega)]
        rfl
    | numUnit d u =>
      rcases f with - | f2
      · exact absurd hf (by omega)
      rcases f2 with - | f3
      · exfalso
        have hsl : (segChars (Seg.numUnit d u)).length =
            (decRender d).length + u.data.length := by
          show ((decRender d) ++ u.data).length = _
          rw [List.length_append]
        have hpos : 1 ≤ (decRender d).length := by
          obtain ⟨c0, r, hdr, -⟩ := decRender_head d
          rw [hdr]
          simp
        have hw2 : (d.canon && unitOk u) = true := hw
        rw [Bool.and_eq_true] at hw2
        obtain ⟨hvc, -, -⟩ := unitOk_facts hw2.2
        obtain ⟨c0, r, hd, -, -⟩ := validCName_facts hvc
        have hpos2 : 1 ≤ u.data.length := by
          rw [hd]
          simp
        omega
      · have hw2 : (d.canon && unitOk u) = true := hw
        rw [Bool.and_eq_true] at hw2
        show tokenizeF (f3 + 1 + 1) ((decRender d ++ u.data) ++ segsChars rest)
          = Except.ok (Tok.num d :: Tok.cname u :: segsToks rest)
        rw [lexStep_numUnit f3 d u _ hw2.1 hw2.2 (by
          intro c hc
          rw [hc] at hbd
          have hbd2 : (((!(isIdentCh c)) && (!(c == '+'))) &&
              (!(c == '-'))) = true := hbd
          rw [Bool.and_eq_true, Bool.and_eq_true] at hbd2
          exact ⟨bool_not_true hbd2.1.1,
            beq_eq_false_iff_ne.mp (bool_not_true hbd2.1.2),
            beq_eq_false_iff_ne.mp (bool_not_true hbd2.2)⟩)]
        rw [ih f3 hrest (by
          have hsl : (segChars (Seg.numUnit d u)).length =
              (decRender d).length + u.data.length := by
            show ((decRender d) ++ u.data).length = _
            rw [List.length_append]
          have hpos : 1 ≤ (decRender d).length := by
            obtain ⟨c0, r, hdr, -⟩ := decRender_head d
            rw [hdr]
            simp
          obtain ⟨hvc, -, -⟩ := unitOk_facts hw2.2
          obtain ⟨c0, r, hd, -, -⟩ := validCName_facts hvc
          have hpos2 : 1 ≤ u.data.length := by
            rw [hd]
            simp
          omega)]
        rfl

/-! Well-formedness of the emitted segment lists. -/

theorem option_or_none (o : Option Char) : o.or none = o := by
  cases o <;> rfl

theorem option_or_assoc (a b c : Option Char) :
    (a.or b).or c = a.or (b.or c) := by
  cases a <;> rfl

theorem head_append_or (l1 l2 : List Char) :
    (l1 ++ l2).head? = (l1.head?).or l2.head? := by
  cases l1 <;> rfl

theorem segsChars_append (l1 l2 : List Seg) :
    segsChars (l1 ++ l2) = segsChars l1 ++ segsChars l2 := by
  induction l1 with
  | nil => rfl
  | cons s rest ih =>
    show segChars s ++ segsChars (rest ++ l2) =
      (segChars s ++ segsChars rest) ++ segsChars l2
    rw [ih, List.append_assoc]

theorem segsToks_append (l1 l2 : List Seg) :
    segsToks (l1 ++ l2) = segsToks l1 ++ segsToks l2 := by
  induction l1 with
  | nil => rfl
  | cons s rest ih =>
    show segToks s ++ segsToks (rest ++ l2) =
      (segToks s ++ segsToks rest) ++ segsToks l2
    rw [ih, List.append_assoc]

theorem segsWFB_none (l : List Seg) : segsWFB l none = segsWF l := by
  induction l with
  | nil => rfl
  | cons s rest ih =>
    show (segWF s && segBoundary s (((segsChars rest).head?).or none) &&
      segsWFB rest none) = _
    rw [option_or_none, ih]
    rfl

theorem segsWFB_append (l1 l2 : List Seg) (oc : Option Char)
    (h1 : segsWFB l1 (((segsChars l2).head?).or oc) = true)
    (h2 : segsWFB l2 oc = true) : segsWFB (l1 ++ l2) oc = true := by
  induction l1 with
  | nil => exact h2
  | cons s rest ih =>
    have h1' : (segWF s &&
        segBoundary s (((segsChars rest).head?).or
          (((segsChars l2).head?).or oc)) &&
        segsWFB rest (((segsChars l2).head?).or oc)) = true := h1
    rw [Bool.and_eq_true, Bool.and_eq_true] at h1'
    show (segWF s &&
      segBoundary s (((segsChars (rest ++ l2)).head?).or oc) &&
      segsWFB (rest ++ l2) oc) = true
    rw [Bool.and_eq_true, Bool.and_eq_true]
    refine ⟨⟨h1'.1.1, ?_⟩, ih h1'.2⟩
    rw [segsChars_append, head_append_or, option_or_assoc]
    exact h1'.1.2

theorem segBoundary_of_sepOk (s : Seg) (oc : Option Char)
    (h : sepOk oc = true) : segBoundary s oc = true := by
  cases oc with
  | none => cases s <;> rfl
  | some c =>
    have h2 : ((((!(isIdentCh c)) && (!(c == '+'))) && (!(c == '-'))) &&
        (!(c == '.'))) = true := h
    rw [Bool.and_eq_true, Bool.and_eq_true, Bool.and_eq_true] at h2
    obtain ⟨⟨⟨hic, hpl⟩, hmi⟩, hdot⟩ := h2
    have hst : (!(isIdentStart c)) = true := by
      cases hx : isIdentStart c
      · rfl
      · exfalso
        have : isIdentCh c = true := by
          unfold isIdentCh
          rw [hx]
          rfl
        rw [this] at hic
        exact Bool.noConfusion hic
    have hdg : (!(isDigitCh c)) = true := by
      cases hx : isDigitCh c
      · rfl
      · exfalso
        have : isIdentCh c = true := by
          unfold isIdentCh
          rw [hx, Bool.or_true]
        rw [this] at hic
        exact Bool.noConfusion hic
    cases s with
    | wsc c2 => rfl
    | cont => rfl
    | punct t c2 => rfl
    | estr s2 => rfl
    | name s2 => exact hic
    | numb d =>
      show ((!(isDigitCh c)) && (!(c == '.')) && (!(isIdentStart c))) = true
      rw [hdg, hdot, hst]
      rfl
    | numUnit d u =>
      show ((!(isIdentCh c)) && (!(c == '+')) && (!(c == '-'))) = true
      rw [hic, hpl, hmi]
      rfl

theorem segBoundary_triv (s : Seg) (oc : Option Char)
    (ht : trivB s = true) : segBoundary s oc = true := by
  cases s <;> cases oc <;> first | rfl | exact Bool.noConfusion ht

theorem segsWFB_indent (n : Nat) (oc : Option Char) :
    segsWFB (indentSegs n) oc = true := by
  induction n with
  | zero => rfl
  | succ k ih =>
    show (segWF (Seg.wsc ' ') && segBoundary (Seg.wsc ' ')
        (((segsChars (indentSegs k)).head?).or oc) &&
      segsWFB (indentSegs k) oc) = true
    rw [ih, segBoundary_triv (Seg.wsc ' ') _ rfl]
    rfl

theorem segWF_valueSeg (v : Value) (hv : valueOk v = true) :
    segWF (valueSeg v) = true := by
  cases v with
  | number d =>
    have h : (d.canon && !floatOverflow d) = true := hv
    rw [Bool.and_eq_true] at h
    exact h.1
  | withUnit d u =>
    have h : (d.canon && !floatOverflow d && unitOk u) = true := hv
    rw [Bool.and_eq_true, Bool.and_eq_true] at h
    show (d.canon && unitOk u) = true
    rw [Bool.and_eq_true]
    exact ⟨h.1.1, h.2⟩
  | identifier s => exact hv
  | escapedString s => exact hv
  | pyInf neg => exact Bool.noConfusion hv
  | withUnitInf neg u => exact Bool.noConfusion hv
  | numTree ns => exact Bool.noConfusion hv

theorem valsSegs_wfb : ∀ (vs : List Value) (oc : Option Char),
    vs.all valueOk = true → sepOk oc = true →
    segsWFB (valsSegs vs) oc = true := by
  intro vs
  induction vs with
  | nil => intro oc _ _; rfl
  | cons v rest ih =>
    intro oc hall hoc
    rw [List.all_cons, Bool.and_eq_true] at hall
    cases rest with
    | nil =>
      have hbv := segBoundary_of_sepOk (valueSeg v)
        (((segsChars ([] : List Seg)).head?).or oc) hoc
      show (segWF (valueSeg v) &&
        segBoundary (valueSeg v) (((segsChars ([] : List Seg)).head?).or oc)
          && segsWFB ([] : List Seg) oc) = true
      rw [hbv, segWF_valueSeg v hall.1]
      rfl
    | cons v2 rest2 =>
      have hrec := ih oc hall.2 hoc
      have hcomma : sepOk (some ',') = true := rfl
      have hbv := segBoundary_of_sepOk (valueSeg v)
        (((segsChars (Seg.punct Tok.comma ',' :: Seg.wsc ' ' ::
          valsSegs (v2 :: rest2))).head?).or oc) hcomma
      show (segWF (valueSeg v) && segBoundary (valueSeg v)
          (((segsChars (Seg.punct Tok.comma ',' :: Seg.wsc ' ' ::
            valsSegs (v2 :: rest2))).head?).or oc) &&
        (segWF (Seg.punct Tok.comma ',') &&
          segBoundary (Seg.punct Tok.comma ',')
            (((segsChars (Seg.wsc ' ' ::
              valsSegs (v2 :: rest2))).head?).or oc) &&
        (segWF (Seg.wsc ' ') && segBoundary (Seg.wsc ' ')
            (((segsChars (valsSegs (v2 :: rest2))).head?).or oc) &&
          segsWFB (valsSegs (v2 :: rest2)) oc))) = true
      rw [hrec, segWF_valueSeg v hall.1, hbv,
        segBoundary_triv (Seg.punct Tok.comma ',') _ rfl,
        segBoundary_triv (Seg.wsc ' ') _ rfl]
      rfl

theorem valueOk_of_argOk (v : Value) (h : argOk v = true) :
    valueOk v = true := by
  cases v with
  | identifier s => exact h
  | number d => exact Bool.noConfusion h
  | withUnit d u => exact Bool.noConfusion h
  | escapedString s => exact Bool.noConfusion h
  | pyInf neg => exact Bool.noConfusion h
  | withUnitInf neg u => exact Bool.noConfusion h
  | numTree ns => exact Bool.noConfusion h

theorem all_valueOk_of_all_argOk : ∀ (l : List Value),
    l.all argOk = true → l.all valueOk = true := by
  intro l
  induction l with
  | nil => intro _; rfl
  | cons v rest ih =>
    intro h
    rw [List.all_cons, Bool.and_eq_true] at h
    rw [List.all_cons, Bool.and_eq_true]
    exact ⟨valueOk_of_argOk v h.1, ih h.2⟩

theorem segsWFB_of_triv : ∀ (l : List Seg) (oc : Option Char),
    (∀ s ∈ l, trivB s = true ∧ segWF s = true) → segsWFB l oc = true := by
  intro l
  induction l with
  | nil => intro oc _; rfl
  | cons s rest ih =>
    intro oc h
    have hs := h s (List.mem_cons_self s rest)
    show (segWF s && segBoundary s (((segsChars rest).head?).or oc) &&
      segsWFB rest oc) = true
    rw [hs.2, segBoundary_triv s _ hs.1,
      ih oc (fun s2 hs2 => h s2 (List.mem_cons_of_mem s hs2))]
    rfl

theorem segsWFB_single_val (v : Value) (oc : Option Char)
    (hv : valueOk v = true) (hoc : sepOk oc = true) :
    segsWFB [valueSeg v] oc = true := by
  have hbv := segBoundary_of_sepOk (valueSeg v)
    (((segsChars ([] : List Seg)).head?).or oc) hoc
  show (segWF (valueSeg v) && segBoundary (valueSeg v)
      (((segsChars ([] : List Seg)).head?).or oc) &&
    segsWFB ([] : List Seg) oc) = true
  rw [hbv, segWF_valueSeg v hv]
  rfl

theorem segsWFB_sep4 (v : Value) (X : Option Char) (hv : valueOk v = true) :
    segsWFB [valueSeg v, Seg.punct Tok.comma ',', Seg.wsc ' ', Seg.cont]
      X = true := by
  have hcm : sepOk (some ',') = true := rfl
  have hbv := segBoundary_of_sepOk (valueSeg v)
    (((segsChars [Seg.punct Tok.comma ',', Seg.wsc ' ',
      Seg.cont]).head?).or X) hcm
  show (segWF (valueSeg v) && segBoundary (valueSeg v)
      (((segsChars [Seg.punct Tok.comma ',', Seg.wsc ' ',
        Seg.cont]).head?).or X) &&
    (segWF (Seg.punct Tok.comma ',') && segBoundary (Seg.punct Tok.comma ',')
        (((segsChars [Seg.wsc ' ', Seg.cont]).head?).or X) &&
    (segWF (Seg.wsc ' ') && segBoundary (Seg.wsc ' ')
        (((segsChars [Seg.cont]).head?).or X) &&
    (segWF Seg.cont && segBoundary Seg.cont
        (((segsChars ([] : List Seg)).head?).or X) &&
      segsWFB ([] : List Seg) X)))) = true
  rw [hbv, segWF_valueSeg v hv,
    segBoundary_triv (Seg.punct Tok.comma ',') _ rfl,
    segBoundary_triv (Seg.wsc ' ') _ rfl,
    segBoundary_triv Seg.cont _ rfl]
  rfl

theorem multiSegs_wfb (m : Nat) : ∀ (vs : List Value) (oc : Option Char),
    vs.all valueOk = true → sepOk oc = true →
    segsWFB (multiSegs m vs) oc = true := by
  intro vs
  induction vs with
  | nil => intro oc _ _; rfl
  | cons v rest ih =>
    intro oc hall hoc
    rw [List.all_cons, Bool.and_eq_true] at hall
    cases rest with
    | nil =>
      show segsWFB (indentSegs (m + 2) ++ [valueSeg v]) oc = true
      exact segsWFB_append _ _ _ (segsWFB_indent _ _)
        (segsWFB_single_val v oc hall.1 hoc)
    | cons v2 rest2 =>
      show segsWFB ((indentSegs (m + 2) ++
        [valueSeg v, Seg.punct Tok.comma ',', Seg.wsc ' ', Seg.cont]) ++
        multiSegs m (v2 :: rest2)) oc = true
      rw [List.append_assoc]
      exact segsWFB_append _ _ _ (segsWFB_indent _ _)
        (segsWFB_append _ _ _ (segsWFB_sep4 v _ hall.1)
          (ih oc hall.2 hoc))

theorem segsWFB_hdr4 (k : String) (X : Option Char)
    (hwn : segWF (Seg.name k) = true) :
    segsWFB [Seg.name k, Seg.wsc ' ', Seg.punct Tok.lpar '(', Seg.wsc '\n']
      X = true := by
  have hsp : sepOk (some ' ') = true := rfl
  have hb1 := segBoundary_of_sepOk (Seg.name k)
    (((segsChars [Seg.wsc ' ', Seg.punct Tok.lpar '(',
      Seg.wsc '\n']).head?).or X) hsp
  show (segWF (Seg.name k) && segBoundary (Seg.name k)
      (((segsChars [Seg.wsc ' ', Seg.punct Tok.lpar '(',
        Seg.wsc '\n']).head?).or X) &&
    (segWF (Seg.wsc ' ') && segBoundary (Seg.wsc ' ') _ &&
    (segWF (Seg.punct Tok.lpar '(') && segBoundary (Seg.punct Tok.lpar '(') _
      &&
    (segWF (Seg.wsc '\n') && segBoundary (Seg.wsc '\n') _ &&
      segsWFB ([] : List Seg) X)))) = true
  rw [hb1, hwn, segBoundary_triv (Seg.wsc ' ') _ rfl,
    segBoundary_triv (Seg.punct Tok.lpar '(') _ rfl,
    segBoundary_triv (Seg.wsc '\n') _ rfl]
  rfl

theorem attrSegs_wfb (m : Nat) (kv : String × AttrValue) (oc : Option Char)
    (h : attrOk kv = true) : segsWFB (attrSegs m kv) oc = true := by
  obtain ⟨k, av⟩ := kv
  cases av with
  | scalar v =>
    have h2 : ((validCName k && (k != "define")) && valueOk v) = true := h
    rw [Bool.and_eq_true, Bool.and_eq_true] at h2
    obtain ⟨⟨hk, hkd⟩, hv⟩ := h2
    have hwn : segWF (Seg.name k) = true := by
      show (validCName k && (k != "define")) = true
      rw [hk, hkd]
      rfl
    refine segsWFB_append _ _ _ (segsWFB_indent _ _) ?_
    have hcol : sepOk (some ':') = true := rfl
    have hb1 := segBoundary_of_sepOk (Seg.name k)
      (((segsChars (Seg.punct Tok.colon ':' :: Seg.wsc ' ' :: valueSeg v ::
        [Seg.punct Tok.semi ';'])).head?).or oc) hcol
    have hsemi : sepOk (some ';') = true := rfl
    have hb2 := segBoundary_of_sepOk (valueSeg v)
      (((segsChars [Seg.punct Tok.semi ';']).head?).or oc) hsemi
    show (segWF (Seg.name k) && segBoundary (Seg.name k)
        (((segsChars (Seg.punct Tok.colon ':' :: Seg.wsc ' ' :: valueSeg v ::
          [Seg.punct Tok.semi ';'])).head?).or oc) &&
      (segWF (Seg.punct Tok.colon ':') &&
        segBoundary (Seg.punct Tok.colon ':') _ &&
      (segWF (Seg.wsc ' ') && segBoundary (Seg.wsc ' ') _ &&
      (segWF (valueSeg v) && segBoundary (valueSeg v)
          (((segsChars [Seg.punct Tok.semi ';']).head?).or oc) &&
      (segWF (Seg.punct Tok.semi ';') &&
        segBoundary (Seg.punct Tok.semi ';') _ &&
        segsWFB ([] : List Seg) oc))))) = true
    rw [hwn, hb1, hb2, segWF_valueSeg v hv,
      segBoundary_triv (Seg.punct Tok.colon ':') _ rfl,
      segBoundary_triv (Seg.wsc ' ') _ rfl,
      segBoundary_triv (Seg.punct Tok.semi ';') _ rfl]
    rfl
  | complexList vs =>
    have h2 : ((validCName k && (k != "define")) && vs.all valueOk) = true := h
    rw [Bool.and_eq_true, Bool.and_eq_true] at h2
    obtain ⟨⟨hk, hkd⟩, hvs⟩ := h2
    have hwn : segWF (Seg.name k) = true := by
      show (validCName k && (k != "define")) = true
      rw [hk, hkd]
      rfl
    cases hesc : vs.any isEscVal with
    | false =>
      have hred : attrSegs m (k, AttrValue.complexList vs) =
          indentSegs m ++ Seg.name k :: Seg.wsc ' ' ::
            Seg.punct Tok.lpar '(' :: valsSegs vs ++
            [Seg.punct Tok.rpar ')', Seg.punct Tok.semi ';'] := by
        show (if vs.any isEscVal = true then
            indentSegs m ++ [Seg.name k, Seg.wsc ' ', Seg.punct Tok.lpar '(',
              Seg.wsc '\n'] ++ multiSegs m vs ++
              Seg.wsc '\n' :: indentSegs m ++
              [Seg.punct Tok.rpar ')', Seg.punct Tok.semi ';']
          else
            indentSegs m ++ Seg.name k :: Seg.wsc ' ' ::
              Seg.punct Tok.lpar '(' :: valsSegs vs ++
              [Seg.punct Tok.rpar ')', Seg.punct Tok.semi ';']) = _
        rw [hesc, if_neg Bool.false_ne_true]
      rw [hred, List.append_assoc]
      refine segsWFB_append _ _ _ (segsWFB_indent _ _) ?_
      have hsp : sepOk (some ' ') = true := rfl
      have hb1 := segBoundary_of_sepOk (Seg.name k)
        (((segsChars (Seg.wsc ' ' :: Seg.punct Tok.lpar '(' ::
          (valsSegs vs ++ [Seg.punct Tok.rpar ')',
            Seg.punct Tok.semi ';']))).head?).or oc) hsp
      show (segWF (Seg.name k) && segBoundary (Seg.name k)
          (((segsChars (Seg.wsc ' ' :: Seg.punct Tok.lpar '(' ::
            (valsSegs vs ++ [Seg.punct Tok.rpar ')',
              Seg.punct Tok.semi ';']))).head?).or oc) &&
        (segWF (Seg.wsc ' ') && segBoundary (Seg.wsc ' ') _ &&
        (segWF (Seg.punct Tok.lpar '(') &&
          segBoundary (Seg.punct Tok.lpar '(') _ &&
          segsWFB (valsSegs vs ++ [Seg.punct Tok.rpar ')',
            Seg.punct Tok.semi ';']) oc))) = true
      rw [hwn, hb1, segBoundary_triv (Seg.wsc ' ') _ rfl,
        segBoundary_triv (Seg.punct Tok.lpar '(') _ rfl,
        segsWFB_append _ _ _
          (valsSegs_wfb vs _ hvs
            (show sepOk (((segsChars [Seg.punct Tok.rpar ')',
              Seg.punct Tok.semi ';']).head?).or oc) = true from rfl))
          (segsWFB_of_triv _ oc (by
            intro s hs
            rcases List.mem_cons.mp hs with rfl | hs2
            · exact ⟨rfl, rfl⟩
            rcases List.mem_cons.mp hs2 with rfl | hs3
            · exact ⟨rfl, rfl⟩
            · exact absurd hs3 (List.not_mem_nil s)))]
      rfl
    | true =>
      have hred : attrSegs m (k, AttrValue.complexList vs) =
          indentSegs m ++ ([Seg.name k, Seg.wsc ' ', Seg.punct Tok.lpar '(',
            Seg.wsc '\n'] ++ (multiSegs m vs ++
            ((Seg.wsc '\n' :: indentSegs m) ++
            [Seg.punct Tok.rpar ')', Seg.punct Tok.semi ';']))) := by
        show (if vs.any isEscVal = true then
            indentSegs m ++ [Seg.name k, Seg.wsc ' ', Seg.punct Tok.lpar '(',
              Seg.wsc '\n'] ++ multiSegs m vs ++
              Seg.wsc '\n' :: indentSegs m ++
              [Seg.punct Tok.rpar ')', Seg.punct Tok.semi ';']
          else
            indentSegs m ++ Seg.name k :: Seg.wsc ' ' ::
              Seg.punct Tok.lpar '(' :: valsSegs vs ++
              [Seg.punct Tok.rpar ')', Seg.punct Tok.semi ';']) = _
        rw [hesc, if_pos rfl, List.append_assoc, List.append_assoc,
          List.append_assoc]
      rw [hred]
      refine segsWFB_append _ _ _ (segsWFB_indent _ _) ?_
      refine segsWFB_append _ _ _ (segsWFB_hdr4 k _ hwn) ?_
      refine segsWFB_append _ _ _
        (multiSegs_wfb m vs _ hvs
          (show sepOk (((segsChars ((Seg.wsc '\n' :: indentSegs m) ++
            [Seg.punct Tok.rpar ')',
              Seg.punct Tok.semi ';'])).head?).or oc) = true from rfl)) ?_
      show (segWF (Seg.wsc '\n') && segBoundary (Seg.wsc '\n') _ &&
        segsWFB (indentSegs m ++ [Seg.punct Tok.rpar ')',
          Seg.punct Tok.semi ';']) oc) = true
      rw [segBoundary_triv (Seg.wsc '\n') _ rfl,
        segsWFB_append _ _ _ (segsWFB_indent _ _)
          (segsWFB_of_triv _ oc (by
            intro s hs
            rcases List.mem_cons.mp hs with rfl | hs2
            · exact ⟨rfl, rfl⟩
            rcases List.mem_cons.mp hs2 with rfl | hs3
            · exact ⟨rfl, rfl⟩
            · exact absurd hs3 (List.not_mem_nil s)))]
      rfl

theorem nlJoin_wfb : ∀ (bs : List (List Seg)),
    (∀ b ∈ bs, ∀ oc, segsWFB b oc = true) →
    ∀ oc, segsWFB (nlJoinSegs bs) oc = true := by
  intro bs
  induction bs with
  | nil => intro _ oc; rfl
  | cons b bs2 ih =>
    intro h oc
    cases bs2 with
    | nil => exact h b (List.mem_cons_self _ _) oc
    | cons b2 bs3 =>
      show segsWFB (b ++ Seg.wsc '\n' :: nlJoinSegs (b2 :: bs3)) oc = true
      refine segsWFB_append _ _ _ (h b (List.mem_cons_self _ _) _) ?_
      show (segWF (Seg.wsc '\n') && segBoundary (Seg.wsc '\n') _ &&
        segsWFB (nlJoinSegs (b2 :: bs3)) oc) = true
      rw [segBoundary_triv (Seg.wsc '\n') _ rfl,
        ih (fun b3 hb3 oc2 => h b3 (List.mem_cons_of_mem _ hb3) oc2) oc]
      rfl

theorem header_wfb (n : Nat) (gname : String) (args : List Value)
    (oc : Option Char) (hwn : segWF (Seg.name gname) = true)
    (hargs : args.all valueOk = true) :
    segsWFB (indentSegs n ++ Seg.name gname :: Seg.wsc ' ' ::
      Seg.punct Tok.lpar '(' :: valsSegs args ++
      [Seg.punct Tok.rpar ')', Seg.wsc ' ', Seg.punct Tok.lbrace '\x7b'])
      oc = true := by
  rw [List.append_assoc]
  refine segsWFB_append _ _ _ (segsWFB_indent _ _) ?_
  have hsp : sepOk (some ' ') = true := rfl
  have hb1 := segBoundary_of_sepOk (Seg.name gname)
    (((segsChars (Seg.wsc ' ' :: Seg.punct Tok.lpar '(' ::
      (valsSegs args ++ [Seg.punct Tok.rpar ')', Seg.wsc ' ',
        Seg.punct Tok.lbrace '\x7b']))).head?).or oc) hsp
  show (segWF (Seg.name gname) && segBoundary (Seg.name gname)
      (((segsChars (Seg.wsc ' ' :: Seg.punct Tok.lpar '(' ::
        (valsSegs args ++ [Seg.punct Tok.rpar ')', Seg.wsc ' ',
          Seg.punct Tok.lbrace '\x7b']))).head?).or oc) &&
    (segWF (Seg.wsc ' ') && segBoundary (Seg.wsc ' ') _ &&
    (segWF (Seg.punct Tok.lpar '(') &&
      segBoundary (Seg.punct Tok.lpar '(') _ &&
      segsWFB (valsSegs args ++ [Seg.punct Tok.rpar ')', Seg.wsc ' ',
        Seg.punct Tok.lbrace '\x7b']) oc))) = true
  rw [hwn, hb1, segBoundary_triv (Seg.wsc ' ') _ rfl,
    segBoundary_triv (Seg.punct Tok.lpar '(') _ rfl,
    segsWFB_append _ _ _
      (valsSegs_wfb args _ hargs
        (show sepOk (((segsChars [Seg.punct Tok.rpar ')', Seg.wsc ' ',
          Seg.punct Tok.lbrace '\x7b']).head?).or oc) = true from rfl))
      (segsWFB_of_triv _ oc (by
        intro s hs
        rcases List.mem_cons.mp hs with rfl | hs2
        · exact ⟨rfl, rfl⟩
        rcases List.mem_cons.mp hs2 with rfl | hs3
        · exact ⟨rfl, rfl⟩
        rcases List.mem_cons.mp hs3 with rfl | hs4
        · exact ⟨rfl, rfl⟩
        · exact absurd hs4 (List.not_mem_nil s)))]
  rfl

theorem footer_wfb (n : Nat) (oc : Option Char) :
    segsWFB (indentSegs n ++ [Seg.punct Tok.rbrace '\x7d']) oc = true := by
  refine segsWFB_append _ _ _ (segsWFB_indent _ _) ?_
  refine segsWFB_of_triv _ oc (by
    intro s hs
    rcases List.mem_cons.mp hs with rfl | hs2
    · exact ⟨rfl, rfl⟩
    · exact absurd hs2 (List.not_mem_nil s))

mutual
theorem emitGroupSegs_wfb (g : Group) (hg : serializableB g = true)
    (n : Nat) (oc : Option Char) : segsWFB (emitGroupSegs n g) oc = true := by
  obtain ⟨gname, args, attrs, subs, defs⟩ := g
  have hg3 : ((((((validCName gname && (gname != "define")) &&
      args.all argOk) && attrs.all attrOk) && keysNodupB attrs) &&
      defs.isEmpty) && serializableBList subs) = true := hg
  rw [Bool.and_eq_true, Bool.and_eq_true, Bool.and_eq_true,
    Bool.and_eq_true, Bool.and_eq_true, Bool.and_eq_true] at hg3
  obtain ⟨⟨⟨⟨⟨⟨hA, hB⟩, hC⟩, hD⟩, hE⟩, hF⟩, hG⟩ := hg3
  have hwn : segWF (Seg.name gname) = true := by
    show (validCName gname && (gname != "define")) = true
    rw [hA, hB]
    rfl
  refine nlJoin_wfb _ ?_ oc
  intro b hb oc2
  rcases List.mem_append.mp hb with hb1 | hb2
  · rcases List.mem_cons.mp hb1 with rfl | hb3
    · exact header_wfb n gname args oc2 hwn (all_valueOk_of_all_argOk _ hC)
    · rcases List.mem_append.mp hb3 with hba | hbs
      · obtain ⟨kv, hkv, rfl⟩ := List.mem_map.mp hba
        exact attrSegs_wfb (n + 2) kv oc2
          (List.all_eq_true.mp hD kv (List.mem_mergeSort.mp hkv))
      · exact emitGroupListSegs_wfb subs hG (n + 2) b hbs oc2
  · rcases List.mem_cons.mp hb2 with rfl | h0
    · exact footer_wfb n oc2
    · exact absurd h0 (List.not_mem_nil b)

theorem emitGroupListSegs_wfb (gs : GroupList)
    (hg : serializableBList gs = true) (n : Nat) :
    ∀ b ∈ emitGroupListSegs n gs, ∀ oc, segsWFB b oc = true := by
  cases gs with
  | nil => intro b hb; exact absurd hb (List.not_mem_nil b)
  | cons g gs2 =>
    have hg2 : (serializableB g && serializableBList gs2) = true := hg
    rw [Bool.and_eq_true] at hg2
    intro b hb oc
    rcases List.mem_cons.mp hb with rfl | hb2
    · exact emitGroupSegs_wfb g hg2.1 n oc
    · exact emitGroupListSegs_wfb gs2 hg2.2 n b hb2 oc
end

/-! Character-level equality between the segment emission and the
serializer `formatGroup`. -/

theorem segsChars_indent (n : Nat) :
    segsChars (indentSegs n) = List.replicate n ' ' := by
  induction n with
  | zero => rfl
  | succ k ih =>
    show ' ' :: segsChars (indentSegs k) = ' ' :: List.replicate k ' '
    rw [ih]

theorem valueSeg_chars (v : Value) :
    segChars (valueSeg v) = valueRender v := by
  cases v with
  | identifier s => rfl
  | number d => rfl
  | withUnit d u => rfl
  | escapedString s =>
    show '"' :: s.data ++ ['"'] = (escapedString_str s).data
    show _ = ("\"" ++ s ++ "\"").data
    rw [String.data_append, String.data_append]
    rfl
  | pyInf neg => rfl
  | withUnitInf neg u =>
    show (pyInfStr neg ++ u).data = (pyInfStr neg).data ++ u.data
    rw [String.data_append]
  | numTree ns => rfl

theorem valsSegs_chars : ∀ (vs : List Value),
    segsChars (valsSegs vs) = joinComma (vs.map valueRender) := by
  intro vs
  induction vs with
  | nil => rfl
  | cons v rest ih =>
    cases rest with
    | nil =>
      show segChars (valueSeg v) ++ segsChars ([] : List Seg) =
        joinComma [valueRender v]
      rw [valueSeg_chars]
      exact List.append_nil _
    | cons v2 rest2 =>
      show segChars (valueSeg v) ++ (',' :: (' ' ::
          (segsChars (valsSegs (v2 :: rest2))))) =
        valueRender v ++ ',' :: ' ' :: joinComma ((v2 :: rest2).map valueRender)
      rw [valueSeg_chars, ih]

theorem joinNL_cons_ne (a : List Char) (l : List (List Char)) (h : l ≠ []) :
    joinNL (a :: l) = a ++ '\n' :: joinNL l := by
  cases l with
  | nil => exact absurd rfl h
  | cons b l2 => rfl

theorem joinNL_append : ∀ (l1 l2 : List (List Char)), l1 ≠ [] → l2 ≠ [] →
    joinNL (l1 ++ l2) = joinNL l1 ++ '\n' :: joinNL l2 := by
  intro l1
  induction l1 with
  | nil => intro l2 h1 _; exact absurd rfl h1
  | cons a r ih =>
    intro l2 _ h2
    cases r with
    | nil =>
      show joinNL (a :: l2) = a ++ '\n' :: joinNL l2
      exact joinNL_cons_ne a l2 h2
    | cons b r2 =>
      rw [List.cons_append,
        joinNL_cons_ne a ((b :: r2) ++ l2) (by
          intro hc
          exact List.noConfusion hc),
        joinNL_cons_ne a (b :: r2) (fun hc => List.noConfusion hc),
        ih l2 (fun hc => List.noConfusion hc) h2, List.append_assoc]
      rfl

theorem flatten_ne_nil (lgs : List (List (List Char))) (h : lgs ≠ [])
    (hall : ∀ lg ∈ lgs, lg ≠ []) : lgs.flatten ≠ [] := by
  cases lgs with
  | nil => exact absurd rfl h
  | cons lg rest =>
    have h1 := hall lg (List.mem_cons_self _ _)
    cases lg with
    | nil => exact absurd rfl h1
    | cons x xs =>
      show ((x :: xs) ++ rest.flatten) ≠ []
      intro hc
      exact List.noConfusion hc

theorem joinNL_flatten : ∀ (lgs : List (List (List Char))),
    (∀ lg ∈ lgs, lg ≠ []) →
    joinNL lgs.flatten = joinNL (lgs.map joinNL) := by
  intro lgs
  induction lgs with
  | nil => intro _; rfl
  | cons lg rest ih =>
    intro h
    have h1 := h lg (List.mem_cons_self _ _)
    have h2 : ∀ lg2 ∈ rest, lg2 ≠ [] :=
      fun lg2 hm => h lg2 (List.mem_cons_of_mem _ hm)
    cases rest with
    | nil =>
      show joinNL (lg ++ []) = joinNL [joinNL lg]
      rw [List.append_nil]
      rfl
    | cons lg2 rest2 =>
      show joinNL (lg ++ (lg2 :: rest2).flatten) = _
      rw [joinNL_append lg (lg2 :: rest2).flatten h1
          (flatten_ne_nil _ (fun hc => List.noConfusion hc) h2),
        ih h2]
      show _ = joinNL (joinNL lg :: (lg2 :: rest2).map joinNL)
      exact (joinNL_cons_ne (joinNL lg) ((lg2 :: rest2).map joinNL)
        (fun hc => List.noConfusion hc)).symm

theorem segsChars_nlJoin : ∀ (bs : List (List Seg)),
    segsChars (nlJoinSegs bs) = joinNL (bs.map segsChars) := by
  intro bs
  induction bs with
  | nil => rfl
  | cons b rest ih =>
    cases rest with
    | nil => rfl
    | cons b2 rest2 =>
      show segsChars (b ++ Seg.wsc '\n' :: nlJoinSegs (b2 :: rest2)) =
        joinNL (segsChars b :: (b2 :: rest2).map segsChars)
      rw [segsChars_append,
        joinNL_cons_ne (segsChars b) ((b2 :: rest2).map segsChars)
          (fun hc => List.noConfusion hc),
        show segsChars (Seg.wsc '\n' :: nlJoinSegs (b2 :: rest2)) =
          '\n' :: segsChars (nlJoinSegs (b2 :: rest2)) from rfl,
        ih]

theorem multiLines_ne_nil (ind : List Char) (x : List Char)
    (xs : List (List Char)) : multiLines ind (x :: xs) ≠ [] := by
  cases xs with
  | nil => intro hc; exact List.noConfusion hc
  | cons y ys => intro hc; exact List.noConfusion hc

theorem replicate_sp_two (m : Nat) :
    List.replicate (m + 2) ' ' = List.replicate m ' ' ++ "  ".data := by
  rw [List.replicate_add]
  rfl

theorem multiSegs_chars (m : Nat) : ∀ (vs : List Value),
    segsChars (multiSegs m vs) =
      joinNL ((multiLines ("  ".data) (vs.map valueRender)).map
        (List.replicate m ' ' ++ ·)) := by
  intro vs
  induction vs with
  | nil => rfl
  | cons v rest ih =>
    cases rest with
    | nil =>
      show segsChars (indentSegs (m + 2) ++ [valueSeg v]) =
        joinNL [List.replicate m ' ' ++ ("  ".data ++ valueRender v)]
      rw [segsChars_append, segsChars_indent, replicate_sp_two]
      show _ ++ (segChars (valueSeg v) ++ segsChars ([] : List Seg)) = _
      rw [valueSeg_chars,
        show segsChars ([] : List Seg) = ([] : List Char) from rfl,
        List.append_nil, List.append_assoc]
      rfl
    | cons v2 rest2 =>
      show segsChars ((indentSegs (m + 2) ++
          [valueSeg v, Seg.punct Tok.comma ',', Seg.wsc ' ', Seg.cont]) ++
          multiSegs m (v2 :: rest2)) =
        joinNL ((List.replicate m ' ' ++
            ("  ".data ++ valueRender v ++ [',', ' ', '\\'])) ::
          (multiLines ("  ".data) ((v2 :: rest2).map valueRender)).map
            (List.replicate m ' ' ++ ·))
      rw [joinNL_cons_ne _ _ (by
          intro hc
          obtain ⟨x2, xs2, hx⟩ : ∃ x2 xs2,
              (v2 :: rest2).map valueRender = x2 :: xs2 :=
            ⟨valueRender v2, rest2.map valueRender, rfl⟩
          rw [hx] at hc
          exact absurd (List.map_eq_nil_iff.mp hc)
            (multiLines_ne_nil _ x2 xs2)),
        segsChars_append, segsChars_append, segsChars_indent,
        replicate_sp_two, ih]
      show (List.replicate m ' ' ++ "  ".data) ++
          (segChars (valueSeg v) ++ (',' :: (' ' :: ('\\' :: ('\n' ::
            segsChars ([] : List Seg)))))) ++ _ = _
      rw [valueSeg_chars]
      simp only [segsChars, List.append_assoc, List.cons_append,
        List.nil_append, List.append_nil]

theorem attrLines_ne_nil (ind : List Char) (kv : String × AttrValue) :
    attrLines ind kv ≠ [] := by
  obtain ⟨k, av⟩ := kv
  cases av with
  | scalar v => intro hc; exact List.noConfusion hc
  | complexList vs =>
    show (if vs.any isEscVal = true then _ else _) ≠ []
    cases hesc : vs.any isEscVal with
    | false =>
      rw [if_neg Bool.false_ne_true]
      intro hc
      exact List.noConfusion hc
    | true =>
      rw [if_pos rfl]
      intro hc
      exact List.noConfusion hc

theorem attrSegs_chars (m : Nat) (kv : String × AttrValue) :
    segsChars (attrSegs m kv) =
      joinNL ((attrLines ("  ".data) kv).map (List.replicate m ' ' ++ ·)) := by
  obtain ⟨k, av⟩ := kv
  cases av with
  | scalar v =>
    show segsChars (indentSegs m ++ (Seg.name k :: Seg.punct Tok.colon ':' ::
        Seg.wsc ' ' :: valueSeg v :: [Seg.punct Tok.semi ';'])) =
      joinNL [List.replicate m ' ' ++
        (k.data ++ ':' :: ' ' :: valueRender v ++ [';'])]
    rw [segsChars_append, segsChars_indent]
    simp only [segsChars]
    rw [valueSeg_chars]
    simp only [segChars, joinNL, List.append_assoc, List.cons_append,
      List.nil_append, List.append_nil]
  | complexList vs =>
    cases hesc : vs.any isEscVal with
    | false =>
      have hredS : attrSegs m (k, AttrValue.complexList vs) =
          indentSegs m ++ Seg.name k :: Seg.wsc ' ' ::
            Seg.punct Tok.lpar '(' :: valsSegs vs ++
            [Seg.punct Tok.rpar ')', Seg.punct Tok.semi ';'] := by
        show (if vs.any isEscVal = true then _ else _) = _
        rw [hesc, if_neg Bool.false_ne_true]
      have hredL : attrLines ("  ".data) (k, AttrValue.complexList vs) =
          [k.data ++ ' ' :: '(' :: joinComma (vs.map valueRender) ++
            [')', ';']] := by
        show (if vs.any isEscVal = true then _ else _) = _
        rw [hesc, if_neg Bool.false_ne_true]
      rw [hredS, hredL, List.append_assoc, segsChars_append,
        segsChars_indent]
      show _ ++ segsChars (Seg.name k :: Seg.wsc ' ' ::
        Seg.punct Tok.lpar '(' :: (valsSegs vs ++
          [Seg.punct Tok.rpar ')', Seg.punct Tok.semi ';'])) = _
      simp only [segsChars, segChars, List.append_assoc, List.cons_append,
        List.nil_append, List.append_nil, segsChars_append, valsSegs_chars,
        joinNL]
    | true =>
      have hredS : attrSegs m (k, AttrValue.complexList vs) =
          ((indentSegs m ++ [Seg.name k, Seg.wsc ' ', Seg.punct Tok.lpar '(',
            Seg.wsc '\n']) ++ multiSegs m vs) ++
            ((Seg.wsc '\n' :: indentSegs m) ++
            [Seg.punct Tok.rpar ')', Seg.punct Tok.semi ';']) := by
        show (if vs.any isEscVal = true then _ else _) = _
        rw [hesc, if_pos rfl, List.append_assoc]
      have hredL : attrLines ("  ".data) (k, AttrValue.complexList vs) =
          (k.data ++ " (".data) ::
            multiLines ("  ".data) (vs.map valueRender) ++ [");".data] := by
        show (if vs.any isEscVal = true then _ else _) = _
        rw [hesc, if_pos rfl]
      cases vs with
      | nil => exact Bool.noConfusion hesc
      | cons v0 vs0 =>
        have hml : multiLines ("  ".data)
            ((v0 :: vs0).map valueRender) ≠ [] := by
          show multiLines ("  ".data)
            (valueRender v0 :: vs0.map valueRender) ≠ []
          exact multiLines_ne_nil _ _ _
        rw [hredS, hredL]
        rw [List.map_append]
        have hA : List.map (fun x => List.replicate m ' ' ++ x)
              ((k.data ++ " (".data) ::
                multiLines ("  ".data) (List.map valueRender (v0 :: vs0))) ++
            List.map (fun x => List.replicate m ' ' ++ x) [");".data] =
            (List.replicate m ' ' ++ (k.data ++ " (".data)) ::
              (List.map (fun x => List.replicate m ' ' ++ x)
                (multiLines ("  ".data)
                  (List.map valueRender (v0 :: vs0))) ++
                [List.replicate m ' ' ++ ");".data]) := rfl
        rw [hA,
          joinNL_cons_ne _ _ (by
            intro hc
            exact hml (List.map_eq_nil_iff.mp
              (List.append_eq_nil.mp hc).1)),
          joinNL_append _ _ (fun hc => hml (List.map_eq_nil_iff.mp hc))
            (fun hc => List.noConfusion hc)]
        rw [segsChars_append, segsChars_append, segsChars_append,
          segsChars_append, segsChars_indent, multiSegs_chars]
        rw [show (" (".data) = [' ', '('] from rfl,
          show (");".data) = [')', ';'] from rfl]
        simp only [segsChars, segChars, segsChars_indent, joinNL,
          List.map_cons, List.map_nil, List.append_assoc,
          List.cons_append, List.nil_append, List.append_nil]

theorem header_chars (n : Nat) (gname : String) (args : List Value) :
    segsChars (indentSegs n ++ Seg.name gname :: Seg.wsc ' ' ::
      Seg.punct Tok.lpar '(' :: valsSegs args ++
      [Seg.punct Tok.rpar ')', Seg.wsc ' ', Seg.punct Tok.lbrace '\x7b']) =
    List.replicate n ' ' ++ (gname.data ++ ' ' :: '(' ::
      joinComma (args.map valueRender) ++ [')', ' ', '\x7b']) := by
  rw [List.append_assoc, segsChars_append, segsChars_indent]
  show _ ++ segsChars (Seg.name gname :: Seg.wsc ' ' ::
    Seg.punct Tok.lpar '(' :: (valsSegs args ++
      [Seg.punct Tok.rpar ')', Seg.wsc ' ',
        Seg.punct Tok.lbrace '\x7b'])) = _
  simp only [segsChars, segChars, segsChars_append, valsSegs_chars,
    List.append_assoc, List.cons_append, List.nil_append, List.append_nil]

theorem footer_chars (n : Nat) :
    segsChars (indentSegs n ++ [Seg.punct Tok.rbrace '\x7d']) =
      List.replicate n ' ' ++ ['\x7d'] := by
  rw [segsChars_append, segsChars_indent]
  rfl

theorem argStrs_map : ∀ (args : List Value), args.all argOk = true →
    argStrs args = some (args.map valueRender) := by
  intro args
  induction args with
  | nil => intro _; rfl
  | cons v rest ih =>
    intro h
    rw [List.all_cons, Bool.and_eq_true] at h
    cases v with
    | identifier s =>
      show (argStrs rest).map (s.data :: ·) = _
      rw [ih h.2]
      rfl
    | number d => exact Bool.noConfusion h.1
    | withUnit d u => exact Bool.noConfusion h.1
    | escapedString s => exact Bool.noConfusion h.1
    | pyInf neg => exact Bool.noConfusion h.1
    | withUnitInf neg u => exact Bool.noConfusion h.1
    | numTree ns => exact Bool.noConfusion h.1

theorem group_chars_assemble (n : Nat) (gname : String) (args : List Value)
    (al : List (String × AttrValue)) (subBs : List (List Seg))
    (Lgs : List (List (List Char)))
    (hne : ∀ lg ∈ Lgs, lg ≠ [])
    (hsub : subBs.map segsChars = Lgs.map (fun lg =>
      joinNL (lg.map (fun x => List.replicate (n + 2) ' ' ++ x)))) :
    segsChars (nlJoinSegs
      (((indentSegs n ++ Seg.name gname :: Seg.wsc ' ' ::
          Seg.punct Tok.lpar '(' :: valsSegs args ++
          [Seg.punct Tok.rpar ')', Seg.wsc ' ', Seg.punct Tok.lbrace '\x7b'])
        :: (al.map (attrSegs (n + 2)) ++ subBs))
        ++ [indentSegs n ++ [Seg.punct Tok.rbrace '\x7d']])) =
    joinNL (((gname.data ++ ' ' :: '(' :: joinComma (args.map valueRender) ++
        [')', ' ', '\x7b']) ::
        (al.flatMap (attrLines ("  ".data)) ++ Lgs.flatten).map
          ("  ".data ++ ·) ++ [['\x7d']]).map
      (fun x => List.replicate n ' ' ++ x)) := by
  have hfun : (fun x => List.replicate n ' ' ++ ("  ".data ++ x)) =
      fun x => List.replicate (n + 2) ' ' ++ x := by
    funext x
    rw [← List.append_assoc, ← replicate_sp_two]
  calc segsChars (nlJoinSegs
      (((indentSegs n ++ Seg.name gname :: Seg.wsc ' ' ::
          Seg.punct Tok.lpar '(' :: valsSegs args ++
          [Seg.punct Tok.rpar ')', Seg.wsc ' ', Seg.punct Tok.lbrace '\x7b'])
        :: (al.map (attrSegs (n + 2)) ++ subBs))
        ++ [indentSegs n ++ [Seg.punct Tok.rbrace '\x7d']]))
      = joinNL (List.map segsChars
        (((indentSegs n ++ Seg.name gname :: Seg.wsc ' ' ::
            Seg.punct Tok.lpar '(' :: valsSegs args ++
            [Seg.punct Tok.rpar ')', Seg.wsc ' ',
              Seg.punct Tok.lbrace '\x7b'])
          :: (al.map (attrSegs (n + 2)) ++ subBs))
          ++ [indentSegs n ++ [Seg.punct Tok.rbrace '\x7d']])) :=
        segsChars_nlJoin _
    _ = joinNL ((([List.replicate n ' ' ++ (gname.data ++ ' ' :: '(' ::
          joinComma (args.map valueRender) ++ [')', ' ', '\x7b'])] ::
          (al.map (fun kv => (attrLines ("  ".data) kv).map
            (fun x => List.replicate (n + 2) ' ' ++ x)) ++
          Lgs.map (List.map (fun x => List.replicate (n + 2) ' ' ++ x)))) ++
          [[List.replicate n ' ' ++ ['\x7d']]]).map joinNL) := by
        refine congrArg joinNL ?_
        have ha1 : List.map segsChars (al.map (attrSegs (n + 2))) =
            al.map (fun kv => joinNL ((attrLines ("  ".data) kv).map
              (fun x => List.replicate (n + 2) ' ' ++ x))) := by
          rw [List.map_map]
          exact List.map_congr_left (fun kv _ => attrSegs_chars (n + 2) kv)
        have ha2 : List.map joinNL (al.map (fun kv =>
            (attrLines ("  ".data) kv).map
              (fun x => List.replicate (n + 2) ' ' ++ x))) =
            al.map (fun kv => joinNL ((attrLines ("  ".data) kv).map
              (fun x => List.replicate (n + 2) ' ' ++ x))) := by
          rw [List.map_map]
          exact List.map_congr_left (fun kv _ => rfl)
        have ha3 : List.map joinNL (Lgs.map
            (List.map (fun x => List.replicate (n + 2) ' ' ++ x))) =
            Lgs.map (fun lg => joinNL (List.map
              (fun x => List.replicate (n + 2) ' ' ++ x) lg)) := by
          rw [List.map_map]
          exact List.map_congr_left (fun lg _ => rfl)
        simp only [List.map_append, List.map_cons, List.map_nil,
          header_chars, footer_chars, hsub, ha1, ha2, ha3, joinNL]
    _ = joinNL ((([List.replicate n ' ' ++ (gname.data ++ ' ' :: '(' ::
          joinComma (args.map valueRender) ++ [')', ' ', '\x7b'])] ::
          (al.map (fun kv => (attrLines ("  ".data) kv).map
            (fun x => List.replicate (n + 2) ' ' ++ x)) ++
          Lgs.map (List.map (fun x => List.replicate (n + 2) ' ' ++ x)))) ++
          [[List.replicate n ' ' ++ ['\x7d']]]).flatten) := by
        refine (joinNL_flatten _ ?_).symm
        intro lg hlg
        rcases List.mem_append.mp hlg with h1 | h2
        · rcases List.mem_cons.mp h1 with rfl | h3
          · exact fun hc => List.noConfusion hc
          · rcases List.mem_append.mp h3 with ha | hs
            · obtain ⟨kv, -, rfl⟩ := List.mem_map.mp ha
              intro hc
              exact attrLines_ne_nil ("  ".data) kv
                (List.map_eq_nil_iff.mp hc)
            · obtain ⟨lg0, hlg0, rfl⟩ := List.mem_map.mp hs
              intro hc
              exact hne lg0 hlg0 (List.map_eq_nil_iff.mp hc)
        · rcases List.mem_cons.mp h2 with rfl | h0
          · exact fun hc => List.noConfusion hc
          · exact absurd h0 (List.not_mem_nil lg)
    _ = joinNL (((gname.data ++ ' ' :: '(' ::
          joinComma (args.map valueRender) ++ [')', ' ', '\x7b']) ::
          (al.flatMap (attrLines ("  ".data)) ++ Lgs.flatten).map
            ("  ".data ++ ·) ++ [['\x7d']]).map
        (fun x => List.replicate n ' ' ++ x)) := by
        refine congrArg joinNL ?_
        have hfun2 : ((fun x => List.replicate n ' ' ++ x) ∘
            fun x => ' ' :: ' ' :: x) =
            fun x : List Char => List.replicate (n + 2) ' ' ++ x := by
          funext x
          show List.replicate n ' ' ++ (' ' :: ' ' :: x) = _
          rw [show (' ' :: ' ' :: x) = "  ".data ++ x from rfl,
            ← List.append_assoc, ← replicate_sp_two]
        simp only [List.flatten_append, List.flatten_cons, List.flatten_nil,
          List.map_append, List.map_cons, List.map_nil, List.map_map,
          List.map_flatMap, hfun2, List.append_nil,
          List.nil_append, List.cons_append, List.append_assoc]
        rw [← List.flatMap_def, ← List.map_flatten]

mutual
theorem emitGroupSegs_chars (g : Group) (hg : serializableB g = true) :
    ∃ L, formatGroup g = some L ∧ L ≠ [] ∧ ∀ n,
      segsChars (emitGroupSegs n g) =
        joinNL (L.map (fun x => List.replicate n ' ' ++ x)) := by
  obtain ⟨gname, args, attrs, subs, defs⟩ := g
  have hg3 : ((((((validCName gname && (gname != "define")) &&
      args.all argOk) && attrs.all attrOk) && keysNodupB attrs) &&
      defs.isEmpty) && serializableBList subs) = true := hg
  rw [Bool.and_eq_true, Bool.and_eq_true, Bool.and_eq_true,
    Bool.and_eq_true, Bool.and_eq_true, Bool.and_eq_true] at hg3
  obtain ⟨⟨⟨⟨⟨⟨hA, hB⟩, hC⟩, hD⟩, hE⟩, hF⟩, hG⟩ := hg3
  obtain ⟨Lgs, hfmtL, hne, hchars⟩ := emitGroupListSegs_chars subs hG
  have hargl := argStrs_map args hC
  refine ⟨(gname.data ++ ' ' :: '(' :: joinComma (args.map valueRender) ++
      [')', ' ', '\x7b']) ::
      ((attrs.mergeSort attrLe).flatMap (attrLines ("  ".data)) ++
        Lgs.flatten).map ("  ".data ++ ·) ++ [['\x7d']],
    ?_, fun hc => List.noConfusion hc, fun n => ?_⟩
  · show (do
      let argl ← argStrs args
      let subLines ← formatGroupList subs
      let attrL := (attrs.mergeSort attrLe).flatMap (attrLines "  ".data)
      some ((gname.data ++ ' ' :: '(' :: joinComma argl ++
          [')', ' ', '\x7b'])
        :: (attrL ++ subLines).map ("  ".data ++ ·) ++ [['\x7d']])) = _
    rw [hargl, hfmtL]
    rfl
  · exact group_chars_assemble n gname args (attrs.mergeSort attrLe)
      (emitGroupListSegs (n + 2) subs) Lgs hne (hchars (n + 2))

theorem emitGroupListSegs_chars (gs : GroupList)
    (hg : serializableBList gs = true) :
    ∃ Lgs : List (List (List Char)),
      formatGroupList gs = some Lgs.flatten ∧
      (∀ lg ∈ Lgs, lg ≠ []) ∧ ∀ n,
      (emitGroupListSegs n gs).map segsChars =
        Lgs.map (fun lg => joinNL (lg.map
          (fun x => List.replicate n ' ' ++ x))) := by
  cases gs with
  | nil =>
    exact ⟨[], rfl, fun lg hlg => absurd hlg (List.not_mem_nil lg),
      fun n => rfl⟩
  | cons g gs2 =>
    have hg2 : (serializableB g && serializableBList gs2) = true := hg
    rw [Bool.and_eq_true] at hg2
    obtain ⟨L, hfg, hLne, hchar⟩ := emitGroupSegs_chars g hg2.1
    obtain ⟨Lgs, hfgl, hne, hchars⟩ := emitGroupListSegs_chars gs2 hg2.2
    refine ⟨L :: Lgs, ?_, ?_, ?_⟩
    · show (do
        let l ← formatGroup g
        let ls ← formatGroupList gs2
        some (l ++ ls)) = _
      rw [hfg, hfgl]
      rfl
    · intro lg hlg
      rcases List.mem_cons.mp hlg with rfl | h2
      · exact hLne
      · exact hne lg h2
    · intro n
      show segsChars (emitGroupSegs n g) ::
        (emitGroupListSegs n gs2).map segsChars = _
      rw [hchar n, hchars n]
      rfl
end

/-! Token-level equality between the segment emission and the token mirror
of the serializer. -/

theorem segsToks_indent (n : Nat) : segsToks (indentSegs n) = [] := by
  induction n with
  | zero => rfl
  | succ k ih =>
    show segToks (Seg.wsc ' ') ++ segsToks (indentSegs k) = []
    rw [ih]
    rfl

theorem valueSeg_toks (v : Value) : segToks (valueSeg v) = valueToks v := by
  cases v <;> rfl

theorem valsSegs_toks : ∀ (vs : List Value),
    segsToks (valsSegs vs) = valsToks vs := by
  intro vs
  induction vs with
  | nil => rfl
  | cons v rest ih =>
    cases rest with
    | nil =>
      show segToks (valueSeg v) ++ segsToks ([] : List Seg) =
        valueToks v ++ valsToksTail []
      rw [valueSeg_toks]
      rfl
    | cons v2 rest2 =>
      show segToks (valueSeg v) ++ ([Tok.comma] ++ ([] ++
          segsToks (valsSegs (v2 :: rest2)))) =
        valueToks v ++ (Tok.comma :: (valueToks v2 ++ valsToksTail rest2))
      rw [valueSeg_toks, ih]
      rfl

theorem multiSegs_toks (m : Nat) : ∀ (vs : List Value),
    segsToks (multiSegs m vs) = valsToks vs := by
  intro vs
  induction vs with
  | nil => rfl
  | cons v rest ih =>
    cases rest with
    | nil =>
      show segsToks (indentSegs (m + 2) ++ [valueSeg v]) =
        valueToks v ++ valsToksTail []
      rw [segsToks_append, segsToks_indent,
        show segsToks [valueSeg v] =
          segToks (valueSeg v) ++ segsToks ([] : List Seg) from rfl,
        valueSeg_toks]
      rfl
    | cons v2 rest2 =>
      show segsToks ((indentSegs (m + 2) ++
          [valueSeg v, Seg.punct Tok.comma ',', Seg.wsc ' ', Seg.cont]) ++
          multiSegs m (v2 :: rest2)) =
        valueToks v ++ (Tok.comma :: (valueToks v2 ++ valsToksTail rest2))
      rw [segsToks_append, segsToks_append, segsToks_indent, ih,
        show segsToks [valueSeg v, Seg.punct Tok.comma ',', Seg.wsc ' ',
            Seg.cont] = segToks (valueSeg v) ++ [Tok.comma] from rfl,
        valueSeg_toks]
      simp only [List.nil_append, List.append_assoc, List.cons_append]
      rfl

theorem attrSegs_toks (m : Nat) (kv : String × AttrValue) :
    segsToks (attrSegs m kv) = attrToks kv := by
  obtain ⟨k, av⟩ := kv
  cases av with
  | scalar v =>
    show segsToks (indentSegs m ++ (Seg.name k :: Seg.punct Tok.colon ':' ::
      Seg.wsc ' ' :: valueSeg v :: [Seg.punct Tok.semi ';'])) = _
    rw [segsToks_append, segsToks_indent]
    simp only [segsToks]
    rw [valueSeg_toks]
    simp only [segToks, List.nil_append, List.append_nil, List.cons_append,
      List.append_assoc]
    rfl
  | complexList vs =>
    cases hesc : vs.any isEscVal with
    | false =>
      have hredS : attrSegs m (k, AttrValue.complexList vs) =
          indentSegs m ++ Seg.name k :: Seg.wsc ' ' ::
            Seg.punct Tok.lpar '(' :: valsSegs vs ++
            [Seg.punct Tok.rpar ')', Seg.punct Tok.semi ';'] := by
        show (if vs.any isEscVal = true then _ else _) = _
        rw [hesc, if_neg Bool.false_ne_true]
      rw [hredS, List.append_assoc, segsToks_append, segsToks_indent]
      show [] ++ segsToks (Seg.name k :: Seg.wsc ' ' ::
        Seg.punct Tok.lpar '(' :: (valsSegs vs ++
          [Seg.punct Tok.rpar ')', Seg.punct Tok.semi ';'])) = _
      simp only [segsToks, segToks, segsToks_append, valsSegs_toks,
        List.nil_append, List.append_nil, List.cons_append,
        List.append_assoc]
      rfl
    | true =>
      have hredS : attrSegs m (k, AttrValue.complexList vs) =
          ((indentSegs m ++ [Seg.name k, Seg.wsc ' ', Seg.punct Tok.lpar '(',
            Seg.wsc '\n']) ++ multiSegs m vs) ++
            ((Seg.wsc '\n' :: indentSegs m) ++
            [Seg.punct Tok.rpar ')', Seg.punct Tok.semi ';']) := by
        show (if vs.any isEscVal = true then _ else _) = _
        rw [hesc, if_pos rfl, List.append_assoc]
      rw [hredS, segsToks_append, segsToks_append, segsToks_append,
        segsToks_indent, multiSegs_toks,
        show segsToks [Seg.name k, Seg.wsc ' ', Seg.punct Tok.lpar '(',
          Seg.wsc '\n'] = [Tok.cname k, Tok.lpar] from rfl,
        show segsToks ((Seg.wsc '\n' :: indentSegs m) ++
            [Seg.punct Tok.rpar ')', Seg.punct Tok.semi ';']) =
          segsToks (indentSegs m) ++ [Tok.rpar, Tok.semi] from (by
            rw [show segsToks ((Seg.wsc '\n' :: indentSegs m) ++
                [Seg.punct Tok.rpar ')', Seg.punct Tok.semi ';']) =
              segsToks (Seg.wsc '\n' :: (indentSegs m ++
                [Seg.punct Tok.rpar ')', Seg.punct Tok.semi ';'])) from rfl]
            show [] ++ segsToks (indentSegs m ++
              [Seg.punct Tok.rpar ')', Seg.punct Tok.semi ';']) = _
            rw [segsToks_append]
            rfl),
        segsToks_indent]
      simp only [List.nil_append, List.append_nil, List.cons_append,
        List.append_assoc]
      rfl

theorem segsToks_nlJoin : ∀ (bs : List (List Seg)),
    segsToks (nlJoinSegs bs) = (bs.map segsToks).flatten := by
  intro bs
  induction bs with
  | nil => rfl
  | cons b rest ih =>
    cases rest with
    | nil =>
      show segsToks b = segsToks b ++ List.flatten []
      rw [List.flatten_nil, List.append_nil]
    | cons b2 rest2 =>
      show segsToks (b ++ Seg.wsc '\n' :: nlJoinSegs (b2 :: rest2)) =
        segsToks b ++ ((b2 :: rest2).map segsToks).flatten
      rw [segsToks_append,
        show segsToks (Seg.wsc '\n' :: nlJoinSegs (b2 :: rest2)) =
          [] ++ segsToks (nlJoinSegs (b2 :: rest2)) from rfl,
        List.nil_append, ih]

theorem header_toks (n : Nat) (gname : String) (args : List Value) :
    segsToks (indentSegs n ++ Seg.name gname :: Seg.wsc ' ' ::
      Seg.punct Tok.lpar '(' :: valsSegs args ++
      [Seg.punct Tok.rpar ')', Seg.wsc ' ', Seg.punct Tok.lbrace '\x7b']) =
    Tok.cname gname :: Tok.lpar ::
      (valsToks args ++ [Tok.rpar, Tok.lbrace]) := by
  rw [List.append_assoc, segsToks_append, segsToks_indent]
  show [] ++ segsToks (Seg.name gname :: Seg.wsc ' ' ::
    Seg.punct Tok.lpar '(' :: (valsSegs args ++
      [Seg.punct Tok.rpar ')', Seg.wsc ' ',
        Seg.punct Tok.lbrace '\x7b'])) = _
  simp only [segsToks, segToks, segsToks_append, valsSegs_toks,
    List.nil_append, List.append_nil, List.cons_append, List.append_assoc]

theorem footer_toks (n : Nat) :
    segsToks (indentSegs n ++ [Seg.punct Tok.rbrace '\x7d']) =
      [Tok.rbrace] := by
  rw [segsToks_append, segsToks_indent]
  rfl

mutual
theorem emitGroupSegs_toks (g : Group) (n : Nat) :
    segsToks (emitGroupSegs n g) = groupToks g := by
  obtain ⟨gname, args, attrs, subs, defs⟩ := g
  show segsToks (nlJoinSegs
    (((indentSegs n ++ Seg.name gname :: Seg.wsc ' ' ::
        Seg.punct Tok.lpar '(' :: valsSegs args ++
        [Seg.punct Tok.rpar ')', Seg.wsc ' ', Seg.punct Tok.lbrace '\x7b'])
      :: ((attrs.mergeSort attrLe).map (attrSegs (n + 2)) ++
          emitGroupListSegs (n + 2) subs))
      ++ [indentSegs n ++ [Seg.punct Tok.rbrace '\x7d']])) = _
  rw [segsToks_nlJoin, List.map_append, List.map_cons, List.map_append,
    List.map_map, List.map_cons, List.map_nil, header_toks, footer_toks]
  have hat : List.map (segsToks ∘ attrSegs (n + 2))
      (attrs.mergeSort attrLe) =
      List.map attrToks (attrs.mergeSort attrLe) :=
    List.map_congr_left (fun kv _ => attrSegs_toks (n + 2) kv)
  rw [hat,
    List.flatten_append, List.flatten_cons, List.flatten_append,
    ← List.flatMap_def, emitGroupListSegs_toks subs (n + 2),
    List.flatten_cons, List.flatten_nil, List.append_nil]
  show _ = (Tok.cname gname :: Tok.lpar :: valsToks args ++
    Tok.rpar :: Tok.lbrace ::
      ((attrs.mergeSort attrLe).flatMap attrToks ++ groupListToks subs))
    ++ [Tok.rbrace]
  simp only [List.nil_append, List.append_nil, List.cons_append,
    List.append_assoc]

theorem emitGroupListSegs_toks (gs : GroupList) (n : Nat) :
    ((emitGroupListSegs n gs).map segsToks).flatten = groupListToks gs := by
  cases gs with
  | nil => rfl
  | cons g gs2 =>
    show (segsToks (emitGroupSegs n g) ::
      (emitGroupListSegs n gs2).map segsToks).flatten =
      groupToks g ++ groupListToks gs2
    rw [List.flatten_cons, emitGroupSegs_toks g n,
      emitGroupListSegs_toks gs2 n]
end

/-! Parser inversion on emitted tokens. -/

theorem valueToks_len (v : Value) : 1 ≤ (valueToks v).length := by
  cases v <;> simp [valueToks]

theorem valsToks_len : ∀ (vs : List Value),
    vs.length ≤ (valsToks vs).length := by
  intro vs
  induction vs with
  | nil => exact Nat.le_refl 0
  | cons v rest ih =>
    cases rest with
    | nil =>
      show 1 ≤ (valueToks v ++ valsToksTail []).length
      rw [List.length_append]
      have := valueToks_len v
      omega
    | cons v2 rest2 =>
      show (v2 :: rest2).length + 1 ≤
        (valueToks v ++ (Tok.comma :: (valueToks v2 ++
          valsToksTail rest2))).length
      have h2 : valsToks (v2 :: rest2) = valueToks v2 ++ valsToksTail rest2 :=
        rfl
      rw [← h2]
      simp only [List.length_append, List.length_cons]
      have h3 := valueToks_len v
      have ih2 := ih
      simp only [List.length_cons] at ih2
      omega

theorem numValue_fin (d : Dec) (h : floatOverflow d = false) :
    numValue d = Value.number d := by
  unfold numValue
  rw [h]
  rfl

theorem unitValue_fin (d : Dec) (u : String) (h : floatOverflow d = false) :
    unitValue d u = Value.withUnit d u := by
  unfold unitValue
  rw [h]
  rfl

theorem parseValue_num (d : Dec) (r : List Tok)
    (hr : headNotCname r = true) :
    parseValue (Tok.num d :: r) = .ok (numValue d, r) := by
  cases r with
  | nil => rfl
  | cons t r2 => cases t <;> first | exact Bool.noConfusion hr | rfl

theorem parseValue_emit (v : Value) (r : List Tok)
    (hr : headNotCname r = true) (hv : valueOk v = true) :
    parseValue (valueToks v ++ r) = .ok (v, r) := by
  cases v with
  | identifier s => rfl
  | escapedString s => rfl
  | withUnit d u =>
    have h : (d.canon && !floatOverflow d && unitOk u) = true := hv
    rw [Bool.and_eq_true, Bool.and_eq_true] at h
    show Except.ok (unitValue d u, r) = _
    rw [unitValue_fin d u (bool_not_true h.1.2)]
  | number d =>
    have h : (d.canon && !floatOverflow d) = true := hv
    rw [Bool.and_eq_true] at h
    show parseValue (Tok.num d :: r) = _
    rw [parseValue_num d r hr, numValue_fin d (bool_not_true h.2)]
  | pyInf neg => exact Bool.noConfusion hv
  | withUnitInf neg u => exact Bool.noConfusion hv
  | numTree ns => exact Bool.noConfusion hv

theorem parseValsLoop_emit : ∀ (vs : List Value) (f : Nat) (r : List Tok),
    vs.length < f → vs.all valueOk = true →
    parseValsLoop f (valsToksTail vs ++ Tok.rpar :: r) = .ok (vs, r) := by
  intro vs
  induction vs with
  | nil =>
    intro f r hf _
    rcases f with - | f2
    · exact absurd hf (by omega)
    · rfl
  | cons v rest ih =>
    intro f r hf hall
    rw [List.all_cons, Bool.and_eq_true] at hall
    rcases f with - | f2
    · exact absurd hf (by omega)
    · show parseValsLoop (f2 + 1) (Tok.comma ::
        ((valueToks v ++ valsToksTail rest) ++ Tok.rpar :: r)) =
        Except.ok (v :: rest, r)
      rw [List.append_assoc]
      show (do
        let (v2, r2) ← parseValue (valueToks v ++
          (valsToksTail rest ++ Tok.rpar :: r))
        let (vs2, r3) ← parseValsLoop f2 r2
        Except.ok (v2 :: vs2, r3)) = Except.ok (v :: rest, r)
      rw [parseValue_emit v (valsToksTail rest ++ Tok.rpar :: r) (by
          cases rest with
          | nil => rfl
          | cons v2 rest2 => rfl) hall.1,
        exBindOk]
      show (do
        let (vs2, r3) ← parseValsLoop f2
          (valsToksTail rest ++ Tok.rpar :: r)
        Except.ok (v :: vs2, r3)) = Except.ok (v :: rest, r)
      rw [ih f2 r (by
          have : (v :: rest).length = rest.length + 1 := rfl
          omega) hall.2,
        exBindOk]

theorem parseArgList_emit (vs : List Value) (f : Nat) (r : List Tok)
    (hf : vs.length < f) (hall : vs.all valueOk = true) :
    parseArgList f (valsToks vs ++ Tok.rpar :: r) = .ok (vs, r) := by
  cases vs with
  | nil => rfl
  | cons v rest =>
    rw [List.all_cons, Bool.and_eq_true] at hall
    have hrest : rest.length < f := by
      have : (v :: rest).length = rest.length + 1 := rfl
      omega
    have hnc : headNotCname (valsToksTail rest ++ Tok.rpar :: r) = true := by
      cases rest with
      | nil => rfl
      | cons v2 rest2 => rfl
    cases v with
    | identifier s =>
      show (do
        let (v2, r2) ← parseValue (Tok.cname s ::
          ((valsToksTail rest) ++ Tok.rpar :: r))
        let (vs2, r3) ← parseValsLoop f r2
        Except.ok (v2 :: vs2, r3)) = Except.ok (Value.identifier s :: rest, r)
      rw [show parseValue (Tok.cname s ::
          ((valsToksTail rest) ++ Tok.rpar :: r)) =
          Except.ok (Value.identifier s,
            valsToksTail rest ++ Tok.rpar :: r) from rfl,
        exBindOk]
      show (do
        let (vs2, r3) ← parseValsLoop f
          (valsToksTail rest ++ Tok.rpar :: r)
        Except.ok (Value.identifier s :: vs2, r3)) = _
      rw [parseValsLoop_emit rest f r hrest hall.2, exBindOk]
    | escapedString s =>
      show (do
        let (v2, r2) ← parseValue (Tok.str s ::
          ((valsToksTail rest) ++ Tok.rpar :: r))
        let (vs2, r3) ← parseValsLoop f r2
        Except.ok (v2 :: vs2, r3)) =
        Except.ok (Value.escapedString s :: rest, r)
      rw [show parseValue (Tok.str s ::
          ((valsToksTail rest) ++ Tok.rpar :: r)) =
          Except.ok (Value.escapedString s,
            valsToksTail rest ++ Tok.rpar :: r) from rfl,
        exBindOk]
      show (do
        let (vs2, r3) ← parseValsLoop f
          (valsToksTail rest ++ Tok.rpar :: r)
        Except.ok (Value.escapedString s :: vs2, r3)) = _
      rw [parseValsLoop_emit rest f r hrest hall.2, exBindOk]
    | withUnit d u =>
      show (do
        let (v2, r2) ← parseValue (Tok.num d :: Tok.cname u ::
          ((valsToksTail rest) ++ Tok.rpar :: r))
        let (vs2, r3) ← parseValsLoop f r2
        Except.ok (v2 :: vs2, r3)) =
        Except.ok (Value.withUnit d u :: rest, r)
      rw [show parseValue (Tok.num d :: Tok.cname u ::
          ((valsToksTail rest) ++ Tok.rpar :: r)) =
          Except.ok (Value.withUnit d u,
            valsToksTail rest ++ Tok.rpar :: r) from
          parseValue_emit (Value.withUnit d u) _ hnc hall.1,
        exBindOk]
      show (do
        let (vs2, r3) ← parseValsLoop f
          (valsToksTail rest ++ Tok.rpar :: r)
        Except.ok (Value.withUnit d u :: vs2, r3)) = _
      rw [parseValsLoop_emit rest f r hrest hall.2, exBindOk]
    | number d =>
      show (do
        let (v2, r2) ← parseValue (Tok.num d ::
          ((valsToksTail rest) ++ Tok.rpar :: r))
        let (vs2, r3) ← parseValsLoop f r2
        Except.ok (v2 :: vs2, r3)) = Except.ok (Value.number d :: rest, r)
      rw [show parseValue (Tok.num d ::
          ((valsToksTail rest) ++ Tok.rpar :: r)) =
          Except.ok (Value.number d,
            valsToksTail rest ++ Tok.rpar :: r) from
          parseValue_emit (Value.number d) _ hnc hall.1,
        exBindOk]
      show (do
        let (vs2, r3) ← parseValsLoop f
          (valsToksTail rest ++ Tok.rpar :: r)
        Except.ok (Value.number d :: vs2, r3)) = _
      rw [parseValsLoop_emit rest f r hrest hall.2, exBindOk]
    | pyInf neg => exact Bool.noConfusion hall.1
    | withUnitInf neg u => exact Bool.noConfusion hall.1
    | numTree ns => exact Bool.noConfusion hall.1

theorem attrToks_len (kv : String × AttrValue) :
    4 ≤ (attrToks kv).length := by
  obtain ⟨k, av⟩ := kv
  cases av with
  | scalar v =>
    show 4 ≤ ((Tok.cname k :: Tok.colon :: valueToks v) ++
      [Tok.semi]).length
    simp only [List.length_append, List.length_cons]
    have := valueToks_len v
    omega
  | complexList vs =>
    show 4 ≤ ((Tok.cname k :: Tok.lpar :: valsToks vs) ++
      [Tok.rpar, Tok.semi]).length
    simp only [List.length_append, List.length_cons]
    omega

theorem groupToks_len (g : Group) : 5 ≤ (groupToks g).length := by
  obtain ⟨gname, args, attrs, subs, defs⟩ := g
  show 5 ≤ (((Tok.cname gname :: Tok.lpar :: valsToks args) ++
    (Tok.rpar :: Tok.lbrace ::
      ((attrs.mergeSort attrLe).flatMap attrToks ++ groupListToks subs))) ++
    [Tok.rbrace]).length
  simp only [List.length_append, List.length_cons]
  omega

theorem parseStmt_attr_scalar (k : String) (v : Value) (f : Nat)
    (r : List Tok) (hv : valueOk v = true) :
    parseStmt (f + 1) (attrToks (k, AttrValue.scalar v) ++ r) =
      .ok (.attr k (.scalar v), r) := by
  show parseStmt (f + 1) (Tok.cname k :: Tok.colon ::
    ((valueToks v ++ [Tok.semi]) ++ r)) = _
  rw [List.append_assoc,
    show ([Tok.semi] ++ r) = Tok.semi :: r from rfl]
  show (do
    let (v2, r2) ← parseValue (valueToks v ++ Tok.semi :: r)
    match r2 with
    | Tok.semi :: r3 => Except.ok (Stmt.attr k (AttrValue.scalar v2), r3)
    | _ => Except.error PErr.unexpectedTok) = _
  rw [parseValue_emit v (Tok.semi :: r) rfl hv, exBindOk]

theorem parseStmt_attr_complex (k : String) (vs : List Value) (f : Nat)
    (r : List Tok) (hf : vs.length < f) (hall : vs.all valueOk = true) :
    parseStmt (f + 1) (attrToks (k, AttrValue.complexList vs) ++ r) =
      .ok (.attr k (.complexList vs), r) := by
  show parseStmt (f + 1) (Tok.cname k :: Tok.lpar ::
    ((valsToks vs ++ [Tok.rpar, Tok.semi]) ++ r)) = _
  rw [List.append_assoc,
    show ([Tok.rpar, Tok.semi] ++ r) = Tok.rpar :: Tok.semi :: r from rfl]
  show (do
    let (vs2, r2) ← parseArgList f (valsToks vs ++ Tok.rpar :: Tok.semi :: r)
    match r2 with
    | Tok.semi :: r3 =>
      Except.ok (Stmt.attr k (AttrValue.complexList vs2), r3)
    | Tok.lbrace :: r3 => do
      let (ss, r4) ← parseStmts f r3
      Except.ok (Stmt.sub (makeGroup k vs2 ss), r4)
    | _ => Except.error PErr.unexpectedTok) = _
  rw [parseArgList_emit vs f (Tok.semi :: r) hf hall, exBindOk]

/-! Rebuilding the group from the reparsed statements. -/

theorem updateAssoc_fresh (k : String) (v : AttrValue) :
    ∀ (l : List (String × AttrValue)),
    l.any (fun q => q.1 == k) = false →
    updateAssoc l k v = l ++ [(k, v)] := by
  intro l
  induction l with
  | nil => intro _; rfl
  | cons p rest ih =>
    obtain ⟨k2, v2⟩ := p
    intro h
    rw [List.any_cons, Bool.or_eq_false_iff] at h
    have hne : ¬ (k2 = k) := by
      intro he
      have h1 := h.1
      rw [show ((k2, v2).1 == k) = (k2 == k) from rfl, he,
        beq_self_eq_true k] at h1
      exact Bool.noConfusion h1
    show (if k2 = k then _ else _) = _
    rw [if_neg hne, ih h.2]
    rfl

theorem foldl_bodyStep_attrs :
    ∀ (al : List (String × AttrValue)) (a : List (String × AttrValue))
      (b : List Group) (c : List Define),
    keysNodupB al = true →
    (∀ k2, al.any (fun q => q.1 == k2) = true →
      a.any (fun q => q.1 == k2) = false) →
    (al.map (fun kv => Stmt.attr kv.1 kv.2)).foldl bodyStep (a, b, c) =
      (a ++ al, b, c) := by
  intro al
  induction al with
  | nil =>
    intro a b c _ _
    show (a, b, c) = (a ++ [], b, c)
    rw [List.append_nil]
  | cons kv rest ih =>
    obtain ⟨k0, v0⟩ := kv
    intro a b c hnd hfr
    have hnd2 : ((!(rest.any fun q => q.1 == k0)) && keysNodupB rest) =
      true := hnd
    rw [Bool.and_eq_true] at hnd2
    have hfr0 : a.any (fun q => q.1 == k0) = false := hfr k0 (by
      rw [List.any_cons,
        show (((k0, v0)).1 == k0) = true from beq_self_eq_true k0]
      rfl)
    show (rest.map (fun kv => Stmt.attr kv.1 kv.2)).foldl bodyStep
      (updateAssoc a k0 v0, b, c) = (a ++ (k0, v0) :: rest, b, c)
    rw [updateAssoc_fresh k0 v0 a hfr0]
    rw [ih (a ++ [(k0, v0)]) b c hnd2.2 (by
      intro k2 hk2
      have hk0 : (k0 == k2) = false := by
        cases hx : k0 == k2
        · rfl
        · exfalso
          have he : k0 = k2 := beq_iff_eq.mp hx
          rw [← he] at hk2
          have hfalse := bool_not_true hnd2.1
          rw [hk2] at hfalse
          exact Bool.noConfusion hfalse
      rw [List.any_append,
        hfr k2 (by rw [List.any_cons, hk2, Bool.or_true]),
        List.any_cons,
        show (((k0, v0)).1 == k2) = (k0 == k2) from rfl, hk0]
      rfl)]
    rw [List.append_assoc]
    rfl

theorem foldl_bodyStep_subs :
    ∀ (gl : List Group) (a : List (String × AttrValue)) (b : List Group)
      (c : List Define),
    (gl.map Stmt.sub).foldl bodyStep (a, b, c) = (a, b ++ gl, c) := by
  intro gl
  induction gl with
  | nil =>
    intro a b c
    show (a, b, c) = (a, b ++ [], c)
    rw [List.append_nil]
  | cons g rest ih =>
    intro a b c
    show (rest.map Stmt.sub).foldl bodyStep (a, b ++ [g], c) =
      (a, b ++ g :: rest, c)
    rw [ih, List.append_assoc]
    rfl

theorem emitSubStmts_eq_map : ∀ (gs : GroupList),
    emitSubStmts gs = (sortedSubs gs).map Stmt.sub
  | .nil => rfl
  | .cons g gs2 => by
    show Stmt.sub (sortedG g) :: emitSubStmts gs2 =
      Stmt.sub (sortedG g) :: (sortedSubs gs2).map Stmt.sub
    rw [emitSubStmts_eq_map gs2]

theorem ofList_sortedSubs : ∀ (gs : GroupList),
    GroupList.ofList (sortedSubs gs) = sortedGL gs
  | .nil => rfl
  | .cons g gs2 => by
    show GroupList.cons (sortedG g) (GroupList.ofList (sortedSubs gs2)) =
      GroupList.cons (sortedG g) (sortedGL gs2)
    rw [ofList_sortedSubs gs2]

theorem makeGroup_emit (gname : String) (args : List Value)
    (al : List (String × AttrValue)) (gs : GroupList)
    (hnd : keysNodupB al = true) :
    makeGroup gname args (al.map (fun kv => Stmt.attr kv.1 kv.2) ++
      emitSubStmts gs) = ⟨gname, args, al, sortedGL gs, []⟩ := by
  have hfold : (al.map (fun kv => Stmt.attr kv.1 kv.2) ++
      emitSubStmts gs).foldl bodyStep
        (([] : List (String × AttrValue)), ([] : List Group),
          ([] : List Define)) = (al, sortedSubs gs, []) := by
    rw [List.foldl_append, foldl_bodyStep_attrs al [] [] [] hnd
        (fun k2 _ => rfl),
      emitSubStmts_eq_map, foldl_bodyStep_subs]
    rw [List.nil_append, List.nil_append]
  show (⟨gname, args,
    ((al.map (fun kv => Stmt.attr kv.1 kv.2) ++
      emitSubStmts gs).foldl bodyStep ([], [], [])).1,
    GroupList.ofList (((al.map (fun kv => Stmt.attr kv.1 kv.2) ++
      emitSubStmts gs).foldl bodyStep ([], [], [])).2.1),
    ((al.map (fun kv => Stmt.attr kv.1 kv.2) ++
      emitSubStmts gs).foldl bodyStep ([], [], [])).2.2⟩ : Group) = _
  rw [hfold, ofList_sortedSubs]

/-! Equality modulo attribute order between the reparsed and the original
tree. -/

theorem elem_bridge {α : Type} [BEq α] [LawfulBEq α] [DecidableEq α] :
    ∀ (l : List α) (a : α),
    List.elem a l = @List.elem α instBEqOfDecidableEq a l := by
  intro l a
  induction l with
  | nil => rfl
  | cons b bs ih =>
    rw [List.elem_cons, @List.elem_cons α b bs instBEqOfDecidableEq a]
    by_cases hab : a = b
    · rw [show (a == b) = true from beq_iff_eq.mpr hab,
        show (@BEq.beq α instBEqOfDecidableEq a b) = true from
          decide_eq_true hab]
    · rw [show (a == b) = false from beq_eq_false_iff_ne.mpr hab,
        show (@BEq.beq α instBEqOfDecidableEq a b) = false from
          decide_eq_false hab]
      exact ih

theorem erase_bridge {α : Type} [BEq α] [LawfulBEq α] [DecidableEq α] :
    ∀ (l : List α) (a : α),
    l.erase a = @List.erase α instBEqOfDecidableEq l a := by
  intro l a
  induction l with
  | nil => rfl
  | cons b bs ih =>
    rw [List.erase_cons, @List.erase_cons α instBEqOfDecidableEq a b bs]
    by_cases hba : b = a
    · rw [if_pos (show (b == a) = true from beq_iff_eq.mpr hba),
        if_pos (show (@BEq.beq α instBEqOfDecidableEq b a) = true from
          decide_eq_true hba)]
    · rw [if_neg (show ¬ ((b == a) = true) from fun hc =>
          hba (beq_iff_eq.mp hc)),
        if_neg (show ¬ ((@BEq.beq α instBEqOfDecidableEq b a) = true) from
          fun hc => hba (of_decide_eq_true hc)), ih]

theorem isPerm_bridge {α : Type} [BEq α] [LawfulBEq α] [DecidableEq α] :
    ∀ (l l2 : List α),
    l.isPerm l2 = @List.isPerm α instBEqOfDecidableEq l l2 := by
  intro l
  induction l with
  | nil => intro l2; rfl
  | cons a l1 ih =>
    intro l2
    show (l2.contains a && l1.isPerm (l2.erase a)) = _
    rw [show l2.contains a = List.elem a l2 from rfl, elem_bridge,
      erase_bridge, ih]
    rfl

theorem mergeSort_isPerm {α : Type} [BEq α] [LawfulBEq α] [DecidableEq α]
    (l : List α) (le : α → α → Bool) :
    (l.mergeSort le).isPerm l = true := by
  rw [isPerm_bridge]
  exact List.isPerm_iff.mpr (List.mergeSort_perm l le)

theorem keysNodupB_iff_nodup : ∀ (l : List (String × AttrValue)),
    keysNodupB l = true ↔ (l.map Prod.fst).Nodup := by
  intro l
  induction l with
  | nil =>
    constructor
    · intro _; exact List.nodup_nil
    · intro _; rfl
  | cons p rest ih =>
    obtain ⟨k, v⟩ := p
    show ((!(rest.any fun q => q.1 == k)) && keysNodupB rest) = true ↔
      (k :: rest.map Prod.fst).Nodup
    rw [Bool.and_eq_true, List.nodup_cons, ih]
    constructor
    · rintro ⟨h1, h2⟩
      refine ⟨?_, h2⟩
      intro hmem
      obtain ⟨q, hq, hq2⟩ := List.mem_map.mp hmem
      have hany : rest.any (fun q => q.1 == k) = true :=
        List.any_eq_true.mpr ⟨q, hq, by rw [hq2]; exact beq_self_eq_true k⟩
      rw [hany] at h1
      exact Bool.noConfusion h1
    · rintro ⟨h1, h2⟩
      refine ⟨?_, h2⟩
      cases hx : rest.any fun q => q.1 == k
      · rfl
      · exact absurd (List.mem_map.mpr
          ((fun ⟨q, hq, hq2⟩ => ⟨q, hq, beq_iff_eq.mp hq2⟩ :
            (∃ q ∈ rest, (q.1 == k) = true) → ∃ q ∈ rest, q.1 = k)
            (List.any_eq_true.mp hx))) h1

theorem keysNodupB_mergeSort (l : List (String × AttrValue))
    (h : keysNodupB l = true) :
    keysNodupB (l.mergeSort attrLe) = true := by
  rw [keysNodupB_iff_nodup] at h ⊢
  exact (((List.mergeSort_perm l attrLe).map Prod.fst).nodup_iff).mpr h

mutual
theorem eqMod_sortedG : ∀ (g : Group), serializableB g = true →
    eqMod (sortedG g) g = true
  | ⟨gname, args, attrs, subs, defs⟩ => by
    intro hg
    have hg3 : ((((((validCName gname && (gname != "define")) &&
        args.all argOk) && attrs.all attrOk) && keysNodupB attrs) &&
        defs.isEmpty) && serializableBList subs) = true := hg
    rw [Bool.and_eq_true, Bool.and_eq_true, Bool.and_eq_true,
      Bool.and_eq_true, Bool.and_eq_true, Bool.and_eq_true] at hg3
    obtain ⟨⟨⟨⟨⟨⟨hA, hB⟩, hC⟩, hD⟩, hE⟩, hF⟩, hG⟩ := hg3
    obtain rfl : defs = [] := by
      cases defs with
      | nil => rfl
      | cons d ds => exact Bool.noConfusion hF
    show ((gname == gname) && (args == args) &&
      ((attrs.mergeSort attrLe).isPerm attrs) &&
      eqModList (sortedGL subs) subs &&
      (([] : List Define) == ([] : List Define))) = true
    rw [beq_self_eq_true, beq_self_eq_true, mergeSort_isPerm,
      eqModList_sortedGL subs hG, beq_self_eq_true]
    rfl

theorem eqModList_sortedGL : ∀ (gs : GroupList),
    serializableBList gs = true → eqModList (sortedGL gs) gs = true
  | .nil => fun _ => rfl
  | .cons g gs2 => by
    intro hg
    have hg2 : (serializableB g && serializableBList gs2) = true := hg
    rw [Bool.and_eq_true] at hg2
    show (eqMod (sortedG g) g && eqModList (sortedGL gs2) gs2) = true
    rw [eqMod_sortedG g hg2.1, eqModList_sortedGL gs2 hg2.2]
    rfl
end

theorem all_attrOk_mergeSort (attrs : List (String × AttrValue))
    (h : attrs.all attrOk = true) :
    (attrs.mergeSort attrLe).all attrOk = true := by
  rw [List.all_eq_true] at h ⊢
  intro x hx
  exact h x (List.mem_mergeSort.mp hx)

theorem parseInvStrong : ∀ f : Nat,
    (∀ (g : Group) (r : List Tok), serializableB g = true →
      (groupToks g).length ≤ f →
      parseStmt f (groupToks g ++ r) = .ok (.sub (sortedG g), r)) ∧
    (∀ (al : List (String × AttrValue)) (gs : GroupList) (r : List Tok),
      serializableBList gs = true → al.all attrOk = true →
      (al.flatMap attrToks ++ groupListToks gs).length + 1 ≤ f →
      parseStmts f (al.flatMap attrToks ++ (groupListToks gs ++
        Tok.rbrace :: r)) =
        .ok (al.map (fun kv => Stmt.attr kv.1 kv.2) ++
          emitSubStmts gs, r)) := by
  intro f
  induction f using Nat.strong_induction_on with
  | _ f ih =>
    constructor
    · intro g r hg hf
      obtain ⟨gname, args, attrs, subs, defs⟩ := g
      have hg3 : ((((((validCName gname && (gname != "define")) &&
          args.all argOk) && attrs.all attrOk) && keysNodupB attrs) &&
          defs.isEmpty) && serializableBList subs) = true := hg
      rw [Bool.and_eq_true, Bool.and_eq_true, Bool.and_eq_true,
        Bool.and_eq_true, Bool.and_eq_true, Bool.and_eq_true] at hg3
      obtain ⟨⟨⟨⟨⟨⟨hA, hB⟩, hC⟩, hD⟩, hE⟩, hF⟩, hG⟩ := hg3
      have hlen : (groupToks
          (⟨gname, args, attrs, subs, defs⟩ : Group)).length =
          (valsToks args).length +
          ((attrs.mergeSort attrLe).flatMap attrToks ++
            groupListToks subs).length + 5 := by
        show (((Tok.cname gname :: Tok.lpar :: valsToks args) ++
          (Tok.rpar :: Tok.lbrace ::
            ((attrs.mergeSort attrLe).flatMap attrToks ++
              groupListToks subs))) ++ [Tok.rbrace]).length = _
        simp only [List.length_append, List.length_cons, List.length_nil]
        omega
      rw [hlen] at hf
      have hvl := valsToks_len args
      rcases f with - | f2
      · exact absurd hf (by omega)
      · have hfa : args.length < f2 := by omega
        have hfs : ((attrs.mergeSort attrLe).flatMap attrToks ++
            groupListToks subs).length + 1 ≤ f2 := by omega
        have hshape : (groupToks
            (⟨gname, args, attrs, subs, defs⟩ : Group)) ++ r =
            Tok.cname gname :: Tok.lpar :: (valsToks args ++
              (Tok.rpar :: (Tok.lbrace ::
                ((attrs.mergeSort attrLe).flatMap attrToks ++
                  (groupListToks subs ++ Tok.rbrace :: r))))) := by
          show (((Tok.cname gname :: Tok.lpar :: valsToks args) ++
            (Tok.rpar :: Tok.lbrace ::
              ((attrs.mergeSort attrLe).flatMap attrToks ++
                groupListToks subs))) ++ [Tok.rbrace]) ++ r = _
          simp only [List.cons_append, List.append_assoc, List.nil_append]
        rw [hshape]
        show (do
          let (vs2, r2) ← parseArgList f2 (valsToks args ++
            (Tok.rpar :: (Tok.lbrace ::
              ((attrs.mergeSort attrLe).flatMap attrToks ++
                (groupListToks subs ++ Tok.rbrace :: r)))))
          match r2 with
          | Tok.semi :: r3 =>
            Except.ok (Stmt.attr gname (AttrValue.complexList vs2), r3)
          | Tok.lbrace :: r3 => do
            let (ss, r4) ← parseStmts f2 r3
            Except.ok (Stmt.sub (makeGroup gname vs2 ss), r4)
          | _ => Except.error PErr.unexpectedTok) = _
        rw [parseArgList_emit args f2 (Tok.lbrace ::
            ((attrs.mergeSort attrLe).flatMap attrToks ++
              (groupListToks subs ++ Tok.rbrace :: r))) hfa
            (all_valueOk_of_all_argOk args hC),
          exBindOk]
        show (do
          let (ss, r4) ← parseStmts f2
            ((attrs.mergeSort attrLe).flatMap attrToks ++
              (groupListToks subs ++ Tok.rbrace :: r))
          Except.ok (Stmt.sub (makeGroup gname args ss), r4)) = _
        rw [(ih f2 (by omega)).2 (attrs.mergeSort attrLe) subs r hG
            (all_attrOk_mergeSort attrs hD) hfs,
          exBindOk]
        show Except.ok (Stmt.sub (makeGroup gname args
          (List.map (fun kv => Stmt.attr kv.1 kv.2)
            (attrs.mergeSort attrLe) ++ emitSubStmts subs)), r) = _
        rw [makeGroup_emit gname args (attrs.mergeSort attrLe) subs
          (keysNodupB_mergeSort attrs hE)]
        rfl
    · intro al gs r hgs hal hf
      cases al with
      | cons kv al2 =>
        obtain ⟨k, av⟩ := kv
        rw [List.all_cons, Bool.and_eq_true] at hal
        cases av with
        | scalar v =>
          have hkv : (validCName k && (k != "define") && valueOk v) =
              true := hal.1
          rw [Bool.and_eq_true] at hkv
          have hfm : ((k, AttrValue.scalar v) :: al2).flatMap attrToks =
              attrToks (k, AttrValue.scalar v) ++ al2.flatMap attrToks :=
            rfl
          rw [hfm, List.append_assoc, List.length_append] at hf
          have ha4 := attrToks_len (k, AttrValue.scalar v)
          rcases f with - | f2
          · exact absurd hf (by omega)
          rcases f2 with - | f3
          · exact absurd hf (by omega)
          show parseStmts (f3 + 1 + 1)
            ((attrToks (k, AttrValue.scalar v) ++ al2.flatMap attrToks) ++
              (groupListToks gs ++ Tok.rbrace :: r)) = _
          rw [List.append_assoc]
          show (do
            let (s, r2) ← parseStmt (f3 + 1)
              (attrToks (k, AttrValue.scalar v) ++
                (al2.flatMap attrToks ++
                  (groupListToks gs ++ Tok.rbrace :: r)))
            let (ss, r3) ← parseStmts (f3 + 1) r2
            Except.ok (s :: ss, r3)) = _
          rw [parseStmt_attr_scalar k v f3
              (al2.flatMap attrToks ++ (groupListToks gs ++
                Tok.rbrace :: r)) hkv.2,
            exBindOk]
          show (do
            let (ss, r3) ← parseStmts (f3 + 1)
              (al2.flatMap attrToks ++
                (groupListToks gs ++ Tok.rbrace :: r))
            Except.ok (Stmt.attr k (AttrValue.scalar v) :: ss, r3)) = _
          rw [(ih (f3 + 1) (by omega)).2 al2 gs r hgs hal.2 (by omega),
            exBindOk]
          all_goals rfl
        | complexList vs =>
          have hkv : (validCName k && (k != "define") &&
              vs.all valueOk) = true := hal.1
          rw [Bool.and_eq_true] at hkv
          have hfm : ((k, AttrValue.complexList vs) :: al2).flatMap
              attrToks = attrToks (k, AttrValue.complexList vs) ++
              al2.flatMap attrToks := rfl
          rw [hfm, List.append_assoc, List.length_append] at hf
          have ha4 := attrToks_len (k, AttrValue.complexList vs)
          have hacl : (attrToks (k, AttrValue.complexList vs)).length =
              (valsToks vs).length + 4 := by
            show ((Tok.cname k :: Tok.lpar :: valsToks vs) ++
              [Tok.rpar, Tok.semi]).length = _
            simp only [List.length_append, List.length_cons,
              List.length_nil]
          have hvl := valsToks_len vs
          rcases f with - | f2
          · exact absurd hf (by omega)
          rcases f2 with - | f3
          · exact absurd hf (by omega)
          show parseStmts (f3 + 1 + 1)
            ((attrToks (k, AttrValue.complexList vs) ++
              al2.flatMap attrToks) ++
              (groupListToks gs ++ Tok.rbrace :: r)) = _
          rw [List.append_assoc]
          show (do
            let (s, r2) ← parseStmt (f3 + 1)
              (attrToks (k, AttrValue.complexList vs) ++
                (al2.flatMap attrToks ++
                  (groupListToks gs ++ Tok.rbrace :: r)))
            let (ss, r3) ← parseStmts (f3 + 1) r2
            Except.ok (s :: ss, r3)) = _
          rw [parseStmt_attr_complex k vs f3
              (al2.flatMap attrToks ++ (groupListToks gs ++
                Tok.rbrace :: r)) (by omega) hkv.2,
            exBindOk]
          show (do
            let (ss, r3) ← parseStmts (f3 + 1)
              (al2.flatMap attrToks ++
                (groupListToks gs ++ Tok.rbrace :: r))
            Except.ok (Stmt.attr k (AttrValue.complexList vs) :: ss, r3)) =
            _
          rw [(ih (f3 + 1) (by omega)).2 al2 gs r hgs hal.2 (by omega),
            exBindOk]
          all_goals rfl
      | nil =>
        cases gs with
        | nil =>
          rcases f with - | f2
          · exact absurd hf (by
              have h0 : ((([] : List (String × AttrValue)).flatMap
                  attrToks ++ groupListToks GroupList.nil)).length = 0 :=
                rfl
              omega)
          · rfl
        | cons g1 gs2 =>
          obtain ⟨gname1, args1, attrs1, subs1, defs1⟩ := g1
          have hgs2 : (serializableB
              (⟨gname1, args1, attrs1, subs1, defs1⟩ : Group) &&
              serializableBList gs2) = true := hgs
          rw [Bool.and_eq_true] at hgs2
          have hgl : (([] : List (String × AttrValue)).flatMap attrToks ++
              groupListToks (GroupList.cons
                (⟨gname1, args1, attrs1, subs1, defs1⟩ : Group) gs2)) =
              groupToks (⟨gname1, args1, attrs1, subs1, defs1⟩ : Group) ++
                groupListToks gs2 := rfl
          rw [hgl, List.length_append] at hf
          have ht5 := groupToks_len
            (⟨gname1, args1, attrs1, subs1, defs1⟩ : Group)
          rcases f with - | f2
          · exact absurd hf (by omega)
          · show parseStmts (f2 + 1)
              ((groupToks (⟨gname1, args1, attrs1, subs1, defs1⟩ :
                Group) ++ groupListToks gs2) ++ Tok.rbrace :: r) = _
            rw [List.append_assoc]
            show (do
              let (s, r2) ← parseStmt f2
                (groupToks (⟨gname1, args1, attrs1, subs1, defs1⟩ :
                  Group) ++ (groupListToks gs2 ++ Tok.rbrace :: r))
              let (ss, r3) ← parseStmts f2 r2
              Except.ok (s :: ss, r3)) = _
            rw [(ih f2 (by omega)).1
                (⟨gname1, args1, attrs1, subs1, defs1⟩ : Group)
                (groupListToks gs2 ++ Tok.rbrace :: r) hgs2.1 (by omega),
              exBindOk]
            show (do
              let (ss, r3) ← parseStmts f2
                (groupListToks gs2 ++ Tok.rbrace :: r)
              Except.ok (Stmt.sub (sortedG
                (⟨gname1, args1, attrs1, subs1, defs1⟩ : Group)) :: ss,
                r3)) = _
            have hq := (ih f2 (by omega)).2 [] gs2 r hgs2.2 rfl (by
              have h0 : ((([] : List (String × AttrValue)).flatMap
                  attrToks ++ groupListToks gs2)).length =
                  (groupListToks gs2).length := rfl
              omega)
            have hq2 : parseStmts f2
                (groupListToks gs2 ++ Tok.rbrace :: r) =
                Except.ok (emitSubStmts gs2, r) := hq
            rw [hq2, exBindOk]
            rfl

theorem map_replicate_zero : ∀ (l : List (List Char)),
    l.map (fun x => List.replicate 0 ' ' ++ x) = l := by
  intro l
  induction l with
  | nil => rfl
  | cons a t iht =>
    show (List.replicate 0 ' ' ++ a) :: t.map
      (fun x => List.replicate 0 ' ' ++ x) = a :: t
    rw [iht]
    rfl

theorem parseTop_emit (g : Group) (hg : serializableB g = true) (f : Nat)
    (hf : (groupToks g).length + 1 ≤ f) :
    parseTop f (groupToks g) = .ok (sortedG g, []) := by
  obtain ⟨gname, args, attrs, subs, defs⟩ := g
  have hg3 : ((((((validCName gname && (gname != "define")) &&
      args.all argOk) && attrs.all attrOk) && keysNodupB attrs) &&
      defs.isEmpty) && serializableBList subs) = true := hg
  rw [Bool.and_eq_true, Bool.and_eq_true, Bool.and_eq_true,
    Bool.and_eq_true, Bool.and_eq_true, Bool.and_eq_true] at hg3
  obtain ⟨⟨⟨⟨⟨⟨hA, hB⟩, hC⟩, hD⟩, hE⟩, hF⟩, hG⟩ := hg3
  have hlen : (groupToks
      (⟨gname, args, attrs, subs, defs⟩ : Group)).length =
      (valsToks args).length +
      ((attrs.mergeSort attrLe).flatMap attrToks ++
        groupListToks subs).length + 5 := by
    show (((Tok.cname gname :: Tok.lpar :: valsToks args) ++
      (Tok.rpar :: Tok.lbrace ::
        ((attrs.mergeSort attrLe).flatMap attrToks ++
          groupListToks subs))) ++ [Tok.rbrace]).length = _
    simp only [List.length_append, List.length_cons, List.length_nil]
    omega
  rw [hlen] at hf
  have hvl := valsToks_len args
  have hfa : args.length < f := by omega
  have hfs : ((attrs.mergeSort attrLe).flatMap attrToks ++
      groupListToks subs).length + 1 ≤ f := by omega
  have hshape : groupToks (⟨gname, args, attrs, subs, defs⟩ : Group) =
      Tok.cname gname :: Tok.lpar :: (valsToks args ++
        (Tok.rpar :: (Tok.lbrace ::
          ((attrs.mergeSort attrLe).flatMap attrToks ++
            (groupListToks subs ++ Tok.rbrace :: []))))) := by
    show ((Tok.cname gname :: Tok.lpar :: valsToks args) ++
      (Tok.rpar :: Tok.lbrace ::
        ((attrs.mergeSort attrLe).flatMap attrToks ++
          groupListToks subs))) ++ [Tok.rbrace] = _
    simp only [List.cons_append, List.append_assoc, List.nil_append]
  rw [hshape]
  show (do
    let (vs2, r2) ← parseArgList f (valsToks args ++
      (Tok.rpar :: (Tok.lbrace ::
        ((attrs.mergeSort attrLe).flatMap attrToks ++
          (groupListToks subs ++ Tok.rbrace :: [])))))
    match r2 with
    | Tok.lbrace :: r3 => do
      let (ss, r4) ← parseStmts f r3
      Except.ok (makeGroup gname vs2 ss, r4)
    | _ => Except.error PErr.unexpectedTok) = _
  rw [parseArgList_emit args f (Tok.lbrace ::
      ((attrs.mergeSort attrLe).flatMap attrToks ++
        (groupListToks subs ++ Tok.rbrace :: []))) hfa
      (all_valueOk_of_all_argOk args hC),
    exBindOk]
  show (do
    let (ss, r4) ← parseStmts f
      ((attrs.mergeSort attrLe).flatMap attrToks ++
        (groupListToks subs ++ Tok.rbrace :: []))
    Except.ok (makeGroup gname args ss, r4)) = _
  rw [(parseInvStrong f).2 (attrs.mergeSort attrLe) subs [] hG
      (all_attrOk_mergeSort attrs hD) hfs,
    exBindOk]
  show Except.ok (makeGroup gname args
    (List.map (fun kv => Stmt.attr kv.1 kv.2)
      (attrs.mergeSort attrLe) ++ emitSubStmts subs), []) = _
  rw [makeGroup_emit gname args (attrs.mergeSort attrLe) subs
    (keysNodupB_mergeSort attrs hE)]
  rfl

/-- C1 (amended): a parsed group tree that is serializable — identifier
arguments, well-formed names, units and strings, finite canonical numbers
(an overflowed `float` renders as `inf` and reparses as an identifier), no
raw `Tree(\x27numbers\x27, ...)` values (their rendering does not reparse),
unique attribute keys, and no `define` statements — serializes via `str()`
and reparses to a tree equal to the original up to attribute ordering (the
reparsed attributes come back key-sorted, compared here as a
permutation). -/
theorem C1_amended (s : String) (T : Group)
    (hp : parse_liberty s = .ok T) (hser : serializableB T = true) :
    ∃ (out : String) (T2 : Group), T.toText = some out ∧
      parse_liberty out = .ok T2 ∧ eqMod T2 T = true := by
  obtain ⟨L, hfmt, hLne, hchars⟩ := emitGroupSegs_chars T hser
  refine ⟨String.mk (joinNL L), sortedG T, ?_, ?_, eqMod_sortedG T hser⟩
  · show (formatGroup T).map (fun ls => String.mk (joinNL ls)) = _
    rw [hfmt]
    rfl
  · have hdata : (String.mk (joinNL L)).data =
        segsChars (emitGroupSegs 0 T) := by
      show joinNL L = _
      rw [hchars 0, map_replicate_zero L]
    have hwf : segsWF (emitGroupSegs 0 T) = true := by
      rw [← segsWFB_none]
      exact emitGroupSegs_wfb T hser 0 none
    have htok : tokenizeF ((segsChars (emitGroupSegs 0 T)).length + 1)
        (segsChars (emitGroupSegs 0 T)) = .ok (groupToks T) := by
      rw [lexSegs (emitGroupSegs 0 T)
        ((segsChars (emitGroupSegs 0 T)).length + 1) hwf (by omega),
        emitGroupSegs_toks T 0]
    show (do
      let toks ← (tokenizeF ((String.mk (joinNL L)).data.length + 1)
        (String.mk (joinNL L)).data).mapError PErr.lexFail
      let (g, rest) ← parseTop (8 * toks.length + 8) toks
      match rest with
      | [] => Except.ok g
      | _ => Except.error PErr.unexpectedTok) = Except.ok (sortedG T)
    rw [hdata, htok]
    show (do
      let (g, rest) ← parseTop (8 * (groupToks T).length + 8) (groupToks T)
      match rest with
      | [] => Except.ok g
      | _ => Except.error PErr.unexpectedTok) = Except.ok (sortedG T)
    rw [parseTop_emit T hser (8 * (groupToks T).length + 8) (by omega),
      exBindOk]

/-- C1 (counterexample): the serializer never emits `define` statements, so
the parse → str → parse round trip is not the identity: a group parsed
with a define reparses without it, and the trees differ (already modulo
attribute order). -/
theorem C1_cex :
    parse_liberty "a () \x7b define (x, y, z); \x7d" =
      .ok ⟨"a", [], [], .nil, [⟨"x", "y", "z"⟩]⟩ ∧
    Group.toText (⟨"a", [], [], .nil, [⟨"x", "y", "z"⟩]⟩ : Group) =
      some "a () \x7b\n\x7d" ∧
    parse_liberty "a () \x7b\n\x7d" = .ok ⟨"a", [], [], .nil, []⟩ ∧
    eqMod (⟨"a", [], [], .nil, []⟩ : Group)
      (⟨"a", [], [], .nil, [⟨"x", "y", "z"⟩]⟩ : Group) = false := by
  refine ⟨rfl, ?_, rfl, rfl⟩
  have hfmt : formatGroup
      (⟨"a", [], [], .nil, [⟨"x", "y", "z"⟩]⟩ : Group) =
      some [['a', ' ', '(', ')', ' ', '\x7b'], ['\x7d']] := by
    show (do
      let argl ← argStrs []
      let subLines ← formatGroupList .nil
      let attrL := (([] : List (String × AttrValue)).mergeSort
        attrLe).flatMap (attrLines "  ".data)
      some (("a".data ++ ' ' :: '(' :: joinComma argl ++
          [')', ' ', '\x7b'])
        :: (attrL ++ subLines).map ("  ".data ++ ·) ++ [['\x7d']])) = _
    rw [List.mergeSort_nil]
    rfl
  show (formatGroup (⟨"a", [], [], .nil, [⟨"x", "y", "z"⟩]⟩ : Group)).map
    (fun ls => String.mk (joinNL ls)) = _
  rw [hfmt]
  rfl

theorem C1_witness :
    ∃ (out : String) (T2 : Group),
      Group.toText (⟨"a", [],
        [("x", AttrValue.scalar (Value.identifier "p"))],
        GroupList.nil, []⟩ : Group) = some out ∧
      parse_liberty out = .ok T2 ∧
      eqMod T2 (⟨"a", [],
        [("x", AttrValue.scalar (Value.identifier "p"))],
        GroupList.nil, []⟩ : Group) = true :=
  C1_amended "a () \x7b x : p; \x7d"
    (⟨"a", [], [("x", AttrValue.scalar (Value.identifier "p"))],
      GroupList.nil, []⟩ : Group) rfl rfl

/-- A quote with no closing quote on its own line is lexed as the bare
quote terminal, which routes the value through the `numbers` production:
the file still parses, leaving the raw `Tree(\x27numbers\x27, [])` as the
attribute value.  Such a tree is excluded from `serializableB` (its
rendering `Tree(...)` does not even re-lex). -/
theorem numbers_path_example :
    parse_liberty "a () \x7b x : \"\n\"; \x7d" =
      .ok ⟨"a", [], [("x", AttrValue.scalar (Value.numTree []))],
        GroupList.nil, []⟩ := rfl

/-- Python `float("1e999")` saturates to `inf`; the resulting attribute value
renders as `inf`, which re-parses as an identifier, so overflowed numbers
are likewise excluded from `serializableB`. -/
theorem float_overflow_example :
    numValue ⟨1, 999⟩ = Value.pyInf false ∧
    valueRender (Value.pyInf false) = "inf".data := by
  constructor
  · show (if floatOverflow ⟨1, 999⟩ then Value.pyInf ((1 : Int) < 0)
      else Value.number ⟨1, 999⟩) = Value.pyInf false
    rw [if_pos (by decide)]
    rfl
  · rfl

/-- C3: the boolean expression parser implements invert > XOR > AND > OR:
a postfix invert binds before `+`, XOR binds before `*`, and plain
juxtaposition is AND. -/
theorem C3_boolean_precedence :
    parse_boolean_function "A'+B" = .ok (.bor (.bnot (.var "A")) (.var "B")) ∧
    parse_boolean_function "A^B*C" =
      .ok (.band (.bxor (.var "A") (.var "B")) (.var "C")) ∧
    parse_boolean_function "A B" = .ok (.band (.var "A") (.var "B")) :=
  ⟨rfl, rfl, rfl⟩

/-- C2: the claim (and the module's own docstring) says the literal tokens
`0`/`1` belong to the accepted operator set and denote the boolean
constants; but `boolean_function_grammar` has no production for digits, so
an input containing a literal `0` or `1` dies in the lexer with an
unexpected-character error. -/
theorem C2_boolean_literals_rejected :
    parse_boolean_function "0" = .error (.lexFail (.unexpectedChar '0')) ∧
    parse_boolean_function "A+1" = .error (.lexFail (.unexpectedChar '1')) ∧
    parse_boolean_function "A" = .ok (.var "A") :=
  ⟨rfl, rfl, rfl⟩

/-- C10: with an argument filter, `get_groups` never returns a sub-group
with an empty argument list; without a filter such a sub-group is
returned whenever its name matches. -/
theorem C10_get_groups_arg_filter (g : Group) (t a : String) :
    (∀ h ∈ g.get_groups t (some a), h.args ≠ []) ∧
    (∀ h ∈ g.groups, h.group_name = t → h.args = [] → h ∈ g.get_groups t none) := by
  constructor
  · intro h hmem
    rw [Group.get_groups, List.mem_filter] at hmem
    obtain ⟨-, hp⟩ := hmem
    intro hargs
    rw [hargs] at hp
    simp at hp
  · intro h hmem hname hargs
    rw [Group.get_groups, List.mem_filter]
    exact ⟨hmem, by simp [hname]⟩

theorem C10_witness : subNoArgs ∈ gWithEmptySub.get_groups "t" none :=
  (C10_get_groups_arg_filter gWithEmptySub "t" "a").2 subNoArgs
    (List.mem_singleton.mpr rfl) rfl rfl

/-- C6: `get_group` demands exactly one match: zero matches fail with the
missing-group error, two or more with the ambiguous-group error, both
reporting the type name and the count, and a unique match is returned. -/
theorem C6_get_group_exactly_one (g : Group) (t : String) (a : Option String) :
    ((g.get_groups t a).length = 0 → g.get_group t a = .error (.missingGroup t 0)) ∧
    (2 ≤ (g.get_groups t a).length →
      g.get_group t a = .error (.ambiguousGroup t (g.get_groups t a).length)) ∧
    ∀ x, g.get_groups t a = [x] → g.get_group t a = .ok x := by
  refine ⟨fun h0 => ?_, fun h2 => ?_, fun x hx => ?_⟩
  · have h : g.get_groups t a = [] := List.eq_nil_of_length_eq_zero h0
    simp [Group.get_group, h]
  · rcases h : g.get_groups t a with - | ⟨x, - | ⟨y, l⟩⟩
    · rw [h] at h2; simp at h2
    · rw [h] at h2; simp at h2
    · simp [Group.get_group, h, List.isEmpty]
  · simp [Group.get_group, hx]

theorem C6_witness :
    gTwoSubs.get_group "t" none = .error (.ambiguousGroup "t" 2) ∧
    gTwoSubs.get_group "u" none = .error (.missingGroup "u" 0) ∧
    gTwoSubs.get_group "t" (some "a") = .error (.missingGroup "t" 0) :=
  ⟨(C6_get_group_exactly_one gTwoSubs "t" none).2.1 (by decide),
   (C6_get_group_exactly_one gTwoSubs "u" none).1 (by decide),
   (C6_get_group_exactly_one gTwoSubs "t" (some "a")).1 (by decide)⟩

-- `escQuotes` does nothing on a quote-free string.
theorem escQuotes_id (l : List Char) (h : '"' ∉ l) : escQuotes l = l := by
  induction l with
  | nil => rfl
  | cons c r ih =>
    rw [escQuotes]
    rw [List.mem_cons, not_or] at h
    rw [if_neg (by exact fun hc => h.1 hc.symm), ih h.2]

/-- C4 (counterexample): `EscapedString.__str__` is
`'"{}"'.format(self.value)`; a value containing a double quote is emitted
verbatim, not re-escaped as the spec claims. -/
theorem C4_cex :
    escapedString_str "x\"y" = "\"x\"y\"" ∧
    specEscapedString_str "x\"y" = "\"x\\\"y\"" ∧
    escapedString_str "x\"y" ≠ specEscapedString_str "x\"y" :=
  ⟨rfl, by decide, by decide⟩

/-- C4 (amended): an `EscapedString` value renders wrapped in double quotes
with its stored text inserted verbatim; no internal escaping is applied, so
the rendering agrees with the spec's escaped form exactly when the value
contains no double-quote character. -/
theorem C4_amended (s : String) (h : '"' ∉ s.data) :
    escapedString_str s = specEscapedString_str s := by
  have he : escQuotes s.data = s.data := escQuotes_id s.data h
  cases s with
  | mk data =>
    show "\"" ++ String.mk data ++ "\"" = String.mk ('"' :: escQuotes data ++ ['"'])
    rw [show escQuotes data = data from he]
    rfl

theorem C4_witness : escapedString_str "ab" = specEscapedString_str "ab" :=
  C4_amended "ab" (by decide)

/-! Lemmas about the set/sort plumbing of the selection helpers. -/

theorem mem_dedupLast (l : List String) : ∀ s, s ∈ dedupLast l ↔ s ∈ l := by
  induction l with
  | nil => simp [dedupLast]
  | cons x r ih =>
    intro s
    rw [dedupLast]
    by_cases hx : x ∈ dedupLast r
    · rw [if_pos hx, ih s, List.mem_cons]
      constructor
      · exact Or.inr
      · rintro (rfl | h)
        · exact (ih s).mp hx
        · exact h
    · rw [if_neg hx]
      rw [List.mem_cons, List.mem_cons, ih s]

theorem nodup_dedupLast (l : List String) : (dedupLast l).Nodup := by
  induction l with
  | nil => simp [dedupLast]
  | cons x r ih =>
    rw [dedupLast]
    by_cases hx : x ∈ dedupLast r
    · simpa [if_pos hx]
    · simpa [if_neg hx, List.nodup_cons] using ⟨hx, ih⟩

theorem firstArgSet_idents (gs : List Group)
    (h : ∀ g ∈ gs, firstArgIdent g = true) :
    firstArgSet gs = .ok ((dedupLast (gs.filterMap firstArgName)).map .s) := by
  induction gs with
  | nil => rfl
  | cons g rest ih =>
    have hg : (match g.args with
        | Value.identifier _ :: _ => true
        | _ => false) = true := h g (List.mem_cons_self g rest)
    have hrest := ih fun x hx => h x (List.mem_cons_of_mem g hx)
    rcases ha : g.args with - | ⟨v, vr⟩ <;> rw [ha] at hg
    · exact Bool.noConfusion hg
    · rcases v with d | ⟨d, u⟩ | s | s | n | ⟨n, u2⟩ | ns <;>
        try exact Bool.noConfusion hg
      · have hfm : (g :: rest).filterMap firstArgName =
            s :: rest.filterMap firstArgName := by
          rw [List.filterMap_cons]
          simp [firstArgName, ha]
        have hd : dedupLast (s :: rest.filterMap firstArgName) =
            if s ∈ dedupLast (rest.filterMap firstArgName)
            then dedupLast (rest.filterMap firstArgName)
            else s :: dedupLast (rest.filterMap firstArgName) := rfl
        simp only [firstArgSet, ha, setElemOfValue, hrest, hfm, hd, exBindOk]
        by_cases hmem : s ∈ dedupLast (rest.filterMap firstArgName)
        · have hm2 : PyKey.s s ∈ (dedupLast (rest.filterMap firstArgName)).map .s :=
            List.mem_map_of_mem _ hmem
          rw [if_pos hmem, if_pos hm2]
        · have hm2 : PyKey.s s ∉ (dedupLast (rest.filterMap firstArgName)).map .s := by
            intro hc
            rcases List.mem_map.mp hc with ⟨t, ht, he⟩
            cases he
            exact hmem ht
          rw [if_neg hmem, if_neg hm2, List.map_cons]

theorem keySetHasStr_map (l : List String) (c : String) :
    keySetHasStr (l.map .s) c = true ↔ c ∈ l := by
  rw [keySetHasStr, List.any_eq_true]
  constructor
  · rintro ⟨k, hk, hp⟩
    rcases List.mem_map.mp hk with ⟨t, ht, rfl⟩
    have he : t == c := hp
    exact (beq_iff_eq.mp he) ▸ ht
  · intro hc
    exact ⟨.s c, List.mem_map_of_mem _ hc, beq_self_eq_true c⟩

theorem filterMap_pyKeyStr (l : List String) :
    (l.map PyKey.s).filterMap pyKeyStr = l := by
  induction l with
  | nil => rfl
  | cons x r ih => simp [List.filterMap_cons, pyKeyStr, ih]

theorem strLe_trans (a b c : String) (h1 : strLe a b = true)
    (h2 : strLe b c = true) : strLe a c = true := by
  rw [strLe, decide_eq_true_iff] at *
  exact le_trans h1 h2

theorem strLe_total (a b : String) : (strLe a b || strLe b a) = true := by
  rw [strLe, strLe, Bool.or_eq_true, decide_eq_true_iff, decide_eq_true_iff]
  exact le_total a b

theorem sortKeys_strs (l : List String) :
    sortKeys (l.map .s) = .ok ((l.mergeSort strLe).map .s) := by
  rw [sortKeys]
  by_cases hl : (l.map PyKey.s).length ≤ 1
  · rw [if_pos hl]
    rw [List.length_map] at hl
    rcases l with - | ⟨a, - | ⟨b, r⟩⟩
    · rw [List.mergeSort_nil]
    · rw [List.mergeSort_singleton]
    · simp at hl
  · rw [if_neg hl, if_pos (by simp [pyKeyIsStr]), filterMap_pyKeyStr]

/-- C7 (counterexample): a library containing a `cell` group with no
arguments makes `select_cell` die with `IndexError` while building the name
set (the claim promises the enumerating selection error), and a duplicated
cell name makes the present-name path die with the ambiguous-match
assertion instead of returning a group. -/
theorem C7_cex :
    select_cell libArglessCell "NOPE" = .error .indexErr ∧
    select_cell libDupCells "X" = .error (.ambiguousGroup "cell" 2) :=
  ⟨rfl, rfl⟩

/-- C7 (amended): provided every `cell` sub-group of the library has at
least one argument and that argument is a bare identifier: when `cell_name`
is not among the cell names, `select_cell` fails with the enumerating
selection error whose options are exactly the cell names present, sorted
and deduplicated; when exactly one `cell` sub-group carries `cell_name` as
its first argument, `select_cell` returns it. -/
theorem C7_amended (lib : Group) (cell_name : String)
    (hargs : ∀ g ∈ lib.get_groups "cell" none, firstArgIdent g = true) :
    (cell_name ∉ cellNames lib →
      ∃ opts : List String,
        select_cell lib cell_name =
          .error (.invalidSelection "Cell name must be one of" (opts.map .s)) ∧
        (∀ s, s ∈ opts ↔ s ∈ cellNames lib) ∧
        opts.Pairwise (· ≤ ·) ∧ opts.Nodup) ∧
    (∀ c, lib.get_groups "cell" (some cell_name) = [c] →
      select_cell lib cell_name = .ok c) := by
  have hset := firstArgSet_idents _ hargs
  constructor
  · intro habs
    refine ⟨(dedupLast (cellNames lib)).mergeSort strLe, ?_, ?_, ?_, ?_⟩
    · have hmem : keySetHasStr
          ((dedupLast (cellNames lib)).map .s) cell_name = false := by
        rw [Bool.eq_false_iff]
        intro hc
        exact habs ((mem_dedupLast _ _).mp ((keySetHasStr_map _ _).mp hc))
      unfold select_cell
      rw [hset, exBindOk]
      show (if keySetHasStr ((dedupLast (cellNames lib)).map .s) cell_name
            then lib.get_group "cell" (some cell_name)
            else do
              let sorted ← sortKeys ((dedupLast (cellNames lib)).map .s)
              Except.error (.invalidSelection "Cell name must be one of" sorted)) = _
      rw [if_neg (by rw [hmem]; exact Bool.false_ne_true),
        sortKeys_strs (dedupLast (cellNames lib)), exBindOk]
    · intro s
      rw [(List.mergeSort_perm _ strLe).mem_iff, mem_dedupLast]
    · exact (List.sorted_mergeSort strLe_trans strLe_total _).imp
        fun h => by rwa [strLe, decide_eq_true_iff] at h
    · exact ((List.mergeSort_perm _ strLe).nodup_iff).mpr (nodup_dedupLast _)
  · intro c hc
    have hcm : c ∈ lib.get_groups "cell" (some cell_name) := by
      rw [hc]; exact List.mem_singleton.mpr rfl
    rw [Group.get_groups, List.mem_filter] at hcm
    obtain ⟨hmemg, hpred⟩ := hcm
    have hcn : c ∈ lib.get_groups "cell" none := by
      rw [Group.get_groups, List.mem_filter]
      refine ⟨hmemg, ?_⟩
      rw [Bool.and_eq_true] at hpred
      simp [hpred.1]
    have hident : (match c.args with
        | Value.identifier _ :: _ => true
        | _ => false) = true := hargs c hcn
    rcases ha : c.args with - | ⟨v, vr⟩ <;> rw [ha] at hident
    · exact Bool.noConfusion hident
    · rcases v with d | ⟨d, u⟩ | s | s | n | ⟨n, u2⟩ | ns <;>
        try exact Bool.noConfusion hident
      have hs : s = cell_name := by
        rw [Bool.and_eq_true, ha] at hpred
        exact beq_iff_eq.mp hpred.2
      have hnames : cell_name ∈ cellNames lib := by
        rw [cellNames, List.mem_filterMap]
        exact ⟨c, hcn, by rw [firstArgName, ha, hs]⟩
      have hmem : keySetHasStr
          ((dedupLast (cellNames lib)).map .s) cell_name = true :=
        (keySetHasStr_map _ _).mpr ((mem_dedupLast _ _).mpr hnames)
      unfold select_cell
      rw [hset, exBindOk]
      show (if keySetHasStr ((dedupLast (cellNames lib)).map .s) cell_name
            then lib.get_group "cell" (some cell_name)
            else do
              let sorted ← sortKeys ((dedupLast (cellNames lib)).map .s)
              Except.error (.invalidSelection "Cell name must be one of" sorted)) =
          Except.ok c
      rw [if_pos hmem]
      simp [Group.get_group, hc]

/-! Lemmas characterizing the dict folds of `select_timing_table` against
direct tree queries. -/

theorem mem_dedupFirst (l : List String) : ∀ s, s ∈ dedupFirst l ↔ s ∈ l := by
  induction l with
  | nil => simp [dedupFirst]
  | cons x r ih =>
    intro s
    rw [dedupFirst, List.mem_cons, List.mem_cons]
    rw [List.mem_filter]
    constructor
    · rintro (rfl | ⟨hm, -⟩)
      · exact Or.inl rfl
      · exact Or.inr ((ih s).mp hm)
    · rintro (rfl | hm)
      · exact Or.inl rfl
      · by_cases hsx : s = x
        · exact Or.inl hsx
        · exact Or.inr ⟨(ih s).mpr hm, by simpa using hsx⟩

theorem nodup_dedupFirst (l : List String) : (dedupFirst l).Nodup := by
  induction l with
  | nil => simp [dedupFirst]
  | cons x r ih =>
    rw [dedupFirst, List.nodup_cons]
    refine ⟨fun hc => ?_, ih.filter _⟩
    rw [List.mem_filter] at hc
    simp at hc

theorem strSet_eq_dedupLast (l : List String) : strSet l = dedupLast l := by
  induction l with
  | nil => rfl
  | cons x r ih => rw [strSet, dedupLast, ih]

theorem dedupFirst_concat (l : List String) (v : String) :
    dedupFirst (l ++ [v]) =
      if v ∈ l then dedupFirst l else dedupFirst l ++ [v] := by
  induction l with
  | nil => simp [dedupFirst]
  | cons x r ih =>
    rw [List.cons_append, dedupFirst, dedupFirst, ih]
    by_cases hv : v ∈ r
    · rw [if_pos hv, if_pos (List.mem_cons_of_mem x hv)]
    · rw [if_neg hv, List.filter_append]
      by_cases hvx : v = x
      · rw [if_pos (hvx ▸ List.mem_cons_self x r)]
        have : [v].filter (· ≠ x) = [] := by simp [hvx]
        rw [this, List.append_nil]
      · have hnm : ¬ v ∈ x :: r := by
          rw [List.mem_cons, not_or]
          exact ⟨hvx, hv⟩
        rw [if_neg hnm]
        have : [v].filter (· ≠ x) = [v] := by simp [hvx]
        rw [this, List.cons_append]

theorem sdAppend_mapShape (ds : List String) (F : String → List Group)
    (v : String) (g : Group) (hnd : ds.Nodup) :
    sdAppend (ds.map fun s => (.s s, F s)) (.s v) g =
      (if v ∈ ds then ds.map fun s => (.s s, if s = v then F s ++ [g] else F s)
       else (ds.map fun s => (.s s, F s)) ++ [(.s v, [g])]) := by
  induction ds with
  | nil => simp [sdAppend]
  | cons d ds ih =>
    rw [List.nodup_cons] at hnd
    rw [List.map_cons, sdAppend]
    by_cases hdv : d = v
    · rw [if_pos (by simp [pyKeyEq, hdv]), if_pos (hdv ▸ List.mem_cons_self d ds)]
      rw [List.map_cons, if_pos hdv]
      congr 1
      apply List.map_congr_left
      intro s hs
      have : ¬ s = v := fun he => hnd.1 (by rw [hdv]; exact he ▸ hs)
      rw [if_neg this]
    · rw [if_neg (by simp [pyKeyEq, hdv]), ih hnd.2]
      by_cases hv : v ∈ ds
      · rw [if_pos hv, if_pos (List.mem_cons_of_mem d hv), List.map_cons]
        rw [if_neg hdv]
      · have hnm : ¬ v ∈ d :: ds := by
          rw [List.mem_cons, not_or]
          exact ⟨fun h => hdv h.symm, hv⟩
        rw [if_neg hv, if_neg hnm]
        rfl

theorem dictInsert_mapShape (ds : List String) (F : String → Group)
    (v : String) (g : Group) (hnd : ds.Nodup) :
    dictInsert (ds.map fun s => (.s s, F s)) (.s v) g =
      (if v ∈ ds then ds.map fun s => (.s s, if s = v then g else F s)
       else (ds.map fun s => (.s s, F s)) ++ [(.s v, g)]) := by
  induction ds with
  | nil => simp [dictInsert]
  | cons d ds ih =>
    rw [List.nodup_cons] at hnd
    rw [List.map_cons, dictInsert]
    by_cases hdv : d = v
    · rw [if_pos (by simp [pyKeyEq, hdv]), if_pos (hdv ▸ List.mem_cons_self d ds)]
      rw [List.map_cons, if_pos hdv]
      congr 1
      apply List.map_congr_left
      intro s hs
      have : ¬ s = v := fun he => hnd.1 (by rw [hdv]; exact he ▸ hs)
      rw [if_neg this]
    · rw [if_neg (by simp [pyKeyEq, hdv]), ih hnd.2]
      by_cases hv : v ∈ ds
      · rw [if_pos hv, if_pos (List.mem_cons_of_mem d hv), List.map_cons]
        rw [if_neg hdv]
      · have hnm : ¬ v ∈ d :: ds := by
          rw [List.mem_cons, not_or]
          exact ⟨fun h => hdv h.symm, hv⟩
        rw [if_neg hv, if_neg hnm]
        rfl

theorem findP_mapShape {β : Type} (ds : List String) (F : String → β)
    (r : String) :
    ((ds.map fun s => (PyKey.s s, F s)).find? fun p => pyKeyEq p.1 (.s r)) =
      (if r ∈ ds then some (.s r, F r) else none) := by
  induction ds with
  | nil => simp
  | cons d ds ih =>
    rw [List.map_cons, List.find?]
    by_cases hdr : d = r
    · rw [show pyKeyEq (PyKey.s d, F d).1 (.s r) = true by simp [pyKeyEq, hdr]]
      rw [if_pos (hdr ▸ List.mem_cons_self d ds), hdr]
    · rw [show pyKeyEq (PyKey.s d, F d).1 (.s r) = false by simp [pyKeyEq, hdr]]
      rw [ih]
      by_cases hr : r ∈ ds
      · rw [if_pos hr, if_pos (List.mem_cons_of_mem d hr)]
      · have hnm : ¬ r ∈ d :: ds := by
          rw [List.mem_cons, not_or]
          exact ⟨fun h => hdr h.symm, hr⟩
        rw [if_neg hr, if_neg hnm]

theorem filterRelPin_nil (gs : List Group) (v : String)
    (h : v ∉ gs.filterMap relPinVal) :
    (gs.filter fun g => relPinVal g == some v) = [] := by
  rw [List.filter_eq_nil_iff]
  intro g hg hbeq
  rw [beq_iff_eq] at hbeq
  exact h (List.mem_filterMap.mpr ⟨g, hg, hbeq⟩)

theorem filterTT_nil (gs : List Group) (v : String)
    (h : v ∉ gs.filterMap ttVal) :
    (gs.filter fun g => ttVal g == some v) = [] := by
  rw [List.filter_eq_nil_iff]
  intro g hg hbeq
  rw [beq_iff_eq] at hbeq
  exact h (List.mem_filterMap.mpr ⟨g, hg, hbeq⟩)

theorem relPinDict_concat_none (gs : List Group) (g : Group)
    (hv : relPinVal g = none) :
    relPinDict (gs ++ [g]) = relPinDict gs := by
  unfold relPinDict
  rw [List.filterMap_append]
  have h1 : [g].filterMap relPinVal = [] := by simp [hv]
  rw [h1, List.append_nil]
  apply List.map_congr_left
  intro s _
  rw [List.filter_append]
  have h2 : [g].filter (fun g => relPinVal g == some s) = [] := by simp [hv]
  rw [h2, List.append_nil]

theorem relPinDict_concat_some (gs : List Group) (g : Group) (v : String)
    (hv : relPinVal g = some v) :
    relPinDict (gs ++ [g]) = sdAppend (relPinDict gs) (.s v) g := by
  unfold relPinDict
  rw [List.filterMap_append]
  have h1 : [g].filterMap relPinVal = [v] := by simp [hv]
  rw [h1, dedupFirst_concat,
    sdAppend_mapShape _ _ _ _ (nodup_dedupFirst _)]
  by_cases hmem : v ∈ gs.filterMap relPinVal
  · rw [if_pos hmem, if_pos ((mem_dedupFirst _ _).mpr hmem)]
    apply List.map_congr_left
    intro s _
    rw [List.filter_append]
    by_cases hsv : s = v
    · rw [if_pos hsv]
      have : [g].filter (fun g => relPinVal g == some s) = [g] := by
        simp [hv, hsv]
      rw [this]
    · rw [if_neg hsv]
      have : [g].filter (fun g => relPinVal g == some s) = [] := by
        simp [hv]
        exact fun he => hsv he.symm
      rw [this, List.append_nil]
  · rw [if_neg hmem, if_neg (fun hc => hmem ((mem_dedupFirst _ _).mp hc))]
    rw [List.map_append]
    congr 1
    · apply List.map_congr_left
      intro s hs
      have hsv : ¬ s = v := fun he =>
        hmem (he ▸ (mem_dedupFirst _ _).mp hs)
      rw [List.filter_append]
      have : [g].filter (fun g => relPinVal g == some s) = [] := by
        simp [hv]
        exact fun he => hsv he.symm
      rw [this, List.append_nil]
    · rw [List.map_singleton, List.filter_append, filterRelPin_nil gs v hmem]
      have : [g].filter (fun g => relPinVal g == some v) = [g] := by simp [hv]
      rw [this, List.nil_append]

theorem buildRelPin_ok (gs : List Group)
    (h : ∀ g ∈ gs, relPinOk g = true) :
    buildRelPin gs = .ok (relPinDict gs) := by
  induction gs using List.reverseRecOn with
  | nil => rfl
  | append_singleton gs g ih =>
    have hg : (match g.attributes.lookup "related_pin" with
        | none => true
        | some (.scalar (.escapedString _)) => true
        | some _ => false) = true := h g (by simp)
    have hrec := ih fun x hx => h x (by simp [hx])
    rw [buildRelPin, List.foldlM_append,
      show gs.foldlM relPinStep [] = buildRelPin gs from rfl, hrec, exBindOk,
      List.foldlM_cons]
    simp only [List.foldlM_nil, bind_pure]
    rcases hl : g.attributes.lookup "related_pin" with - | av <;> rw [hl] at hg
    · rw [show relPinStep (relPinDict gs) g = .ok (relPinDict gs) by
        unfold relPinStep; rw [hl]]
      rw [relPinDict_concat_none gs g (by unfold relPinVal; rw [hl])]
    · rcases av with v | vs
      · rcases v with d | ⟨d, u⟩ | sv | sv | n | ⟨n, u2⟩ | ns <;>
          try exact Bool.noConfusion hg
        · rw [show relPinStep (relPinDict gs) g =
              .ok (sdAppend (relPinDict gs) (.s sv) g) by
            unfold relPinStep; rw [hl]; rfl]
          rw [relPinDict_concat_some gs g sv (by unfold relPinVal; rw [hl])]
      · exact Bool.noConfusion hg

theorem ttDict_concat (tgs : List Group) (g : Group) (v : String)
    (hv : ttVal g = some v) :
    ttDict (tgs ++ [g]) = dictInsert (ttDict tgs) (.s v) g := by
  unfold ttDict ttVals
  rw [List.filterMap_append]
  have h1 : [g].filterMap ttVal = [v] := by simp [hv]
  rw [h1, dedupFirst_concat,
    dictInsert_mapShape _ _ _ _ (nodup_dedupFirst _)]
  by_cases hmem : v ∈ tgs.filterMap ttVal
  · rw [if_pos hmem, if_pos ((mem_dedupFirst _ _).mpr hmem)]
    apply List.map_congr_left
    intro s _
    rw [List.filter_append]
    by_cases hsv : s = v
    · rw [if_pos hsv]
      have : [g].filter (fun g => ttVal g == some s) = [g] := by simp [hv, hsv]
      rw [this, List.getLastD_concat]
    · rw [if_neg hsv]
      have : [g].filter (fun g => ttVal g == some s) = [] := by
        simp [hv]
        exact fun he => hsv he.symm
      rw [this, List.append_nil]
  · rw [if_neg hmem, if_neg (fun hc => hmem ((mem_dedupFirst _ _).mp hc))]
    rw [List.map_append]
    congr 1
    · apply List.map_congr_left
      intro s hs
      have hsv : ¬ s = v := fun he =>
        hmem (he ▸ (mem_dedupFirst _ _).mp hs)
      rw [List.filter_append]
      have : [g].filter (fun g => ttVal g == some s) = [] := by
        simp [hv]
        exact fun he => hsv he.symm
      rw [this, List.append_nil]
    · rw [List.map_singleton, List.filter_append, filterTT_nil tgs v hmem]
      have : [g].filter (fun g => ttVal g == some v) = [g] := by simp [hv]
      rw [this, List.nil_append]
      rfl

theorem buildTTDict_ok (tgs : List Group)
    (h : ∀ g ∈ tgs, ttOk g = true) :
    buildTTDict tgs = .ok (ttDict tgs) := by
  induction tgs using List.reverseRecOn with
  | nil => rfl
  | append_singleton tgs g ih =>
    have hg : (match g.attributes.lookup "timing_type" with
        | some (.scalar (.identifier _)) => true
        | _ => false) = true := h g (by simp)
    have hrec := ih fun x hx => h x (by simp [hx])
    rw [buildTTDict, List.foldlM_append,
      show tgs.foldlM ttStep [] = buildTTDict tgs from rfl, hrec, exBindOk,
      List.foldlM_cons]
    simp only [List.foldlM_nil, bind_pure]
    rcases hl : g.attributes.lookup "timing_type" with - | av <;> rw [hl] at hg
    · exact Bool.noConfusion hg
    · rcases av with v | vs
      · rcases v with d | ⟨d, u⟩ | sv | sv | n | ⟨n, u2⟩ | ns <;>
          try exact Bool.noConfusion hg
        · rw [show ttStep (ttDict tgs) g =
              .ok (dictInsert (ttDict tgs) (.s sv) g) by
            unfold ttStep; rw [hl]; rfl]
          rw [ttDict_concat tgs g sv (by unfold ttVal; rw [hl])]
      · exact Bool.noConfusion hg

theorem findQ_some {β : Type} (ds : List String) (F : String → β) (t : String) :
    ((ds.map fun s => (PyKey.s s, F s)).find? fun p =>
        ((some t).map PyKey.s).any fun q => pyKeyEq p.1 q) =
      (if t ∈ ds then some (.s t, F t) else none) := by
  have he : (fun (p : PyKey × β) =>
      ((some t).map PyKey.s).any fun q => pyKeyEq p.1 q) =
      fun p => pyKeyEq p.1 (.s t) := rfl
  rw [he, findP_mapShape]

theorem findQ_none {β : Type} (l : List (PyKey × β)) :
    (l.find? fun p =>
      ((none : Option String).map PyKey.s).any fun q => pyKeyEq p.1 q) = none := by
  rw [List.find?_eq_none]
  intro x _
  exact fun h => Bool.noConfusion h

/-- C8 (counterexample): a timing group whose `related_pin` attribute is the
bare identifier `A` (not a quoted string): the attribute value matches the
queried related pin, yet `select_timing_table` dies in `g['related_pin'].value`
with `AttributeError` instead of reaching the table lookup. -/
theorem C8_cex :
    pinBad.get_groups "timing" none = [timingBad] ∧
    timingBad.attributes.lookup "related_pin" =
      some (.scalar (.identifier "A")) ∧
    select_timing_table pinBad "A" "cell_rise" none =
      .error (.attrErr "str object has no attribute value") :=
  ⟨rfl, rfl, rfl⟩

/-- C8 (amended): provided every `timing` sub-group's `related_pin`
attribute, when present, is a quoted string: a `related_pin` value matching
no timing group fails with the enumerating selection error over the known
related-pin values (sorted, deduplicated); a unique match with no
`timing_type` requested proceeds directly to the table lookup; otherwise,
provided the matched groups carry bare-identifier `timing_type` attributes,
a missing or unmatched `timing_type` fails with the enumerating selection
error over the available timing types, and a matched one proceeds with the
last group carrying it; the table lookup returns the unique sub-group named
`table_name` and otherwise fails with the enumerating selection error over
the available sub-group names. -/
theorem C8_amended (pin : Group) (related_pin table_name : String)
    (timing_type : Option String)
    (hrp : ∀ g ∈ pin.get_groups "timing" none, relPinOk g = true) :
    (related_pin ∉ (pin.get_groups "timing" none).filterMap relPinVal →
      ∃ opts : List String,
        select_timing_table pin related_pin table_name timing_type =
          .error (.invalidSelection "Related pin name must be one of"
            (opts.map .s)) ∧
        (∀ s, s ∈ opts ↔
          s ∈ (pin.get_groups "timing" none).filterMap relPinVal) ∧
        opts.Pairwise (· ≤ ·) ∧ opts.Nodup) ∧
    (∀ tg, relPinMatches pin related_pin = [tg] → timing_type = none →
      select_timing_table pin related_pin table_name timing_type =
        tableStage tg table_name) ∧
    (related_pin ∈ (pin.get_groups "timing" none).filterMap relPinVal →
     (∀ g ∈ relPinMatches pin related_pin, ttOk g = true) →
      ((timing_type = none → (relPinMatches pin related_pin).length ≠ 1 →
        ∃ opts : List String,
          select_timing_table pin related_pin table_name timing_type =
            .error (.invalidSelection "timing_type must be one of"
              (opts.map .s)) ∧
          (∀ s, s ∈ opts ↔
            s ∈ (relPinMatches pin related_pin).filterMap ttVal) ∧
          opts.Pairwise (· ≤ ·) ∧ opts.Nodup) ∧
       (∀ t, timing_type = some t →
          t ∉ (relPinMatches pin related_pin).filterMap ttVal →
          ∃ opts : List String,
            select_timing_table pin related_pin table_name timing_type =
              .error (.invalidSelection "timing_type must be one of"
                (opts.map .s)) ∧
            (∀ s, s ∈ opts ↔
              s ∈ (relPinMatches pin related_pin).filterMap ttVal) ∧
            opts.Pairwise (· ≤ ·) ∧ opts.Nodup) ∧
       (∀ t, timing_type = some t →
          t ∈ (relPinMatches pin related_pin).filterMap ttVal →
          select_timing_table pin related_pin table_name timing_type =
            tableStage (((relPinMatches pin related_pin).filter
              fun g => ttVal g == some t).getLastD defaultGroup)
              table_name))) ∧
    (∀ tg : Group,
      (table_name ∉ tg.groups.map Group.group_name →
        ∃ opts : List String,
          tableStage tg table_name =
            .error (.invalidSelection "Table name must be one of"
              (opts.map .s)) ∧
          (∀ s, s ∈ opts ↔ s ∈ tg.groups.map Group.group_name) ∧
          opts.Pairwise (· ≤ ·) ∧ opts.Nodup) ∧
      (∀ tbl, tg.get_groups table_name none = [tbl] →
        tableStage tg table_name = .ok tbl)) := by
  have hbrp := buildRelPin_ok _ hrp
  have hfpos : related_pin ∈
        (pin.get_groups "timing" none).filterMap relPinVal →
      (relPinDict (pin.get_groups "timing" none)).find?
        (fun p => pyKeyEq p.1 (.s related_pin)) =
        some (.s related_pin, relPinMatches pin related_pin) := by
    intro hmemv
    unfold relPinDict
    rw [findP_mapShape, if_pos ((mem_dedupFirst _ _).mpr hmemv)]
    rfl
  refine ⟨?_, ?_, ?_, ?_⟩
  · intro habs
    refine ⟨(dedupFirst
      ((pin.get_groups "timing" none).filterMap relPinVal)).mergeSort strLe,
      ?_, ?_, ?_, ?_⟩
    · unfold select_timing_table
      simp only [hbrp, exBindOk]
      have hf : (relPinDict (pin.get_groups "timing" none)).find?
          (fun p => pyKeyEq p.1 (.s related_pin)) = none := by
        unfold relPinDict
        rw [findP_mapShape,
          if_neg (fun hc => habs ((mem_dedupFirst _ _).mp hc))]
      rw [hf]
      have hmap : (relPinDict (pin.get_groups "timing" none)).map (·.1) =
          (dedupFirst
            ((pin.get_groups "timing" none).filterMap relPinVal)).map .s := by
        unfold relPinDict
        rw [List.map_map]
        rfl
      rw [hmap, sortKeys_strs]
      rfl
    · intro s
      rw [(List.mergeSort_perm _ strLe).mem_iff, mem_dedupFirst]
    · exact (List.sorted_mergeSort strLe_trans strLe_total _).imp
        fun h => by rwa [strLe, decide_eq_true_iff] at h
    · exact ((List.mergeSort_perm _ strLe).nodup_iff).mpr (nodup_dedupFirst _)
  · intro tg htg htt
    have hmemv : related_pin ∈
        (pin.get_groups "timing" none).filterMap relPinVal := by
      have hm : tg ∈ relPinMatches pin related_pin :=
        htg ▸ List.mem_singleton.mpr rfl
      rw [relPinMatches, List.mem_filter] at hm
      exact List.mem_filterMap.mpr ⟨tg, hm.1, beq_iff_eq.mp hm.2⟩
    unfold select_timing_table
    simp only [hbrp, exBindOk]
    rw [hfpos hmemv]
    show ttStage (relPinMatches pin related_pin) timing_type table_name = _
    rw [htg, htt]
    rfl
  · intro hmemv httok
    have hbtt := buildTTDict_ok _ httok
    have hmap2 : (ttDict (relPinMatches pin related_pin)).map (·.1) =
        (ttVals (relPinMatches pin related_pin)).map .s := by
      unfold ttDict
      rw [List.map_map]
      rfl
    have hstage : select_timing_table pin related_pin table_name timing_type =
        ttStage (relPinMatches pin related_pin) timing_type table_name := by
      unfold select_timing_table
      simp only [hbrp, exBindOk]
      rw [hfpos hmemv]
    refine ⟨?_, ?_, ?_⟩
    · intro htt hlen
      refine ⟨(ttVals (relPinMatches pin related_pin)).mergeSort strLe,
        ?_, ?_, ?_, ?_⟩
      · rw [hstage, htt]
        unfold ttStage
        have hcond : ((Option.none (α := String)).isNone &&
            (relPinMatches pin related_pin).length == 1) = false := by
          simp [hlen]
        rw [hcond, if_neg Bool.false_ne_true]
        simp only [hbtt, exBindOk]
        rw [findQ_none, hmap2, sortKeys_strs]
        rfl
      · intro s
        rw [(List.mergeSort_perm _ strLe).mem_iff]
        unfold ttVals
        rw [mem_dedupFirst]
      · exact (List.sorted_mergeSort strLe_trans strLe_total _).imp
          fun h => by rwa [strLe, decide_eq_true_iff] at h
      · exact ((List.mergeSort_perm _ strLe).nodup_iff).mpr (nodup_dedupFirst _)
    · intro t htt habs
      refine ⟨(ttVals (relPinMatches pin related_pin)).mergeSort strLe,
        ?_, ?_, ?_, ?_⟩
      · rw [hstage, htt]
        unfold ttStage
        have hfq : (ttDict (relPinMatches pin related_pin)).find?
            (fun p => ((some t).map PyKey.s).any fun q => pyKeyEq p.1 q) =
            none := by
          unfold ttDict
          rw [findQ_some, if_neg]
          intro hc
          unfold ttVals at hc
          exact habs ((mem_dedupFirst _ _).mp hc)
        simp only [hbtt, exBindOk]
        rw [hfq, hmap2, sortKeys_strs]
        rfl
      · intro s
        rw [(List.mergeSort_perm _ strLe).mem_iff]
        unfold ttVals
        rw [mem_dedupFirst]
      · exact (List.sorted_mergeSort strLe_trans strLe_total _).imp
          fun h => by rwa [strLe, decide_eq_true_iff] at h
      · exact ((List.mergeSort_perm _ strLe).nodup_iff).mpr (nodup_dedupFirst _)
    · intro t htt hmemt
      rw [hstage, htt]
      unfold ttStage
      have hfq : (ttDict (relPinMatches pin related_pin)).find?
          (fun p => ((some t).map PyKey.s).any fun q => pyKeyEq p.1 q) =
          some (.s t, ((relPinMatches pin related_pin).filter
            fun g => ttVal g == some t).getLastD defaultGroup) := by
        unfold ttDict
        rw [findQ_some, if_pos]
        unfold ttVals
        exact (mem_dedupFirst _ _).mpr hmemt
      simp only [hbtt, exBindOk]
      rw [hfq]
      rfl
  · intro tg
    constructor
    · intro habs
      refine ⟨(strSet (tg.groups.map Group.group_name)).mergeSort strLe,
        ?_, ?_, ?_, ?_⟩
      · show (if table_name ∈ strSet (tg.groups.map Group.group_name)
            then tg.get_group table_name none
            else Except.error (.invalidSelection "Table name must be one of"
              (((strSet (tg.groups.map Group.group_name)).mergeSort
                strLe).map .s))) = _
        rw [if_neg]
        intro hc
        rw [strSet_eq_dedupLast, mem_dedupLast] at hc
        exact habs hc
      · intro s
        rw [(List.mergeSort_perm _ strLe).mem_iff, strSet_eq_dedupLast,
          mem_dedupLast]
      · exact (List.sorted_mergeSort strLe_trans strLe_total _).imp
          fun h => by rwa [strLe, decide_eq_true_iff] at h
      · refine ((List.mergeSort_perm _ strLe).nodup_iff).mpr ?_
        rw [strSet_eq_dedupLast]
        exact nodup_dedupLast _
    · intro tbl hc
      have hmem : table_name ∈ strSet (tg.groups.map Group.group_name) := by
        have hm : tbl ∈ tg.get_groups table_name none := by
          rw [hc]
          exact List.mem_singleton.mpr rfl
        rw [Group.get_groups, List.mem_filter] at hm
        rw [strSet_eq_dedupLast, mem_dedupLast]
        refine List.mem_map.mpr ⟨tbl, hm.1, ?_⟩
        have hb := hm.2
        rw [Bool.and_eq_true] at hb
        exact beq_iff_eq.mp hb.1
      show (if table_name ∈ strSet (tg.groups.map Group.group_name)
          then tg.get_group table_name none
          else Except.error (.invalidSelection "Table name must be one of"
            (((strSet (tg.groups.map Group.group_name)).mergeSort
              strLe).map .s))) = _
      rw [if_pos hmem]
      simp [Group.get_group, hc]

theorem C8_witness :
    (∃ opts : List String,
      select_timing_table pinGood "C" "cell_rise" none =
        .error (.invalidSelection "Related pin name must be one of"
          (opts.map .s)) ∧
      (∀ s, s ∈ opts ↔
        s ∈ (pinGood.get_groups "timing" none).filterMap relPinVal) ∧
      opts.Pairwise (· ≤ ·) ∧ opts.Nodup) ∧
    select_timing_table pinGood "A" "cell_rise" (some "combinational") =
      tableStage timingA1 "cell_rise" ∧
    tableStage timingA1 "cell_rise" = .ok tblCellRise :=
  ⟨(C8_amended pinGood "C" "cell_rise" none (by decide)).1 (by decide),
   (C8_amended pinGood "A" "cell_rise" (some "combinational")
      (by decide)).2.2.1 (by decide) (by decide) |>.2.2 "combinational" rfl
      (by decide),
   ((C8_amended pinGood "A" "cell_rise" (some "combinational")
      (by decide)).2.2.2 timingA1).2 tblCellRise rfl⟩

theorem C7_witness :
    (∃ opts : List String,
      select_cell libAB "NOPE" =
        .error (.invalidSelection "Cell name must be one of" (opts.map .s)) ∧
      (∀ s, s ∈ opts ↔ s ∈ cellNames libAB) ∧
      opts.Pairwise (· ≤ ·) ∧ opts.Nodup) ∧
    select_cell libAB "A" = .ok cellA :=
  ⟨(C7_amended libAB "NOPE" (by decide)).1 (by decide),
   (C7_amended libAB "A" (by decide)).2 cellA rfl⟩

end Liberty
